import Mathlib

set_option maxRecDepth 2048

/-!
Verification of the tool layer of the Agentic-Workflow repository.

The repository (src/agent.py) defines `coerce_to_valid_json` — a best-effort
conversion of a Python-literal-style string into strict JSON, implemented as
`json.dumps(ast.literal_eval(s))` with a silent fallback to `s` — and five
tool functions (calculator, web_search, gmail_get_emails, gmail_send_email,
google_calendar_list_events, google_calendar_create_event) that read
credentials from the environment, validate a string input, issue outbound API
calls and return a result string.

This file gives a shallow embedding of that code:

* `JVal` models decoded JSON values.  Numbers are carried as their exact
  decimal token (a `String`); CPython represents them as machine doubles and
  re-prints them with the shortest round-tripping `repr`, which decodes to
  the same double, so the token model is faithful up to the float
  representation (floating point itself is out of scope).
* `jsonParse` models `json.loads` on the fragment without `NaN`, `Infinity`
  and lone-surrogate `\uXXXX` escapes (surrogate *pairs* are combined, as
  CPython does).  Duplicate object keys keep the last value at the first
  position, as a CPython dict does.
* `pyParse` models the literal grammar accepted by `ast.literal_eval` on the
  fragment with strings (single- or double-quoted, with the standard
  single-character escapes and non-surrogate `\uXXXX`; an unrecognised escape
  keeps the backslash, as CPython does), decimal ints and floats with an
  optional `+`/`-` sign, `True`/`False`/`None`, lists, tuples (and
  parenthesised groupings), sets and dicts, with trailing commas.  Outside
  the fragment (hex/octal/binary ints, digit underscores, raw/byte/triple
  quoted strings, `\x`/`\N`/`\U`/octal escapes, implicit string
  concatenation, complex numbers) the model parser fails; every input
  relevant to the claims below lies inside the fragment.
* `toJ` and `jDumpsL` model `json.dumps` with its defaults
  (`ensure_ascii=True`, separators `", "` and `": "`); a set, or a container
  used as a dict key, makes it fail (TypeError), which the fallback catches.
  Non-string scalar dict keys are coerced to strings; the model does not
  replay CPython's cross-type key unification (`1 == True == 1.0`), which no
  claim exercises.
* The tool functions are modelled as total functions from an environment
  (the credential variables, `None` or a string each), an oracle describing
  the outside world (HTTP responses, API results, and for `calculator` the
  outcome of `eval`), and the input string, to the returned string paired
  with the list of outbound calls issued.  Exception *messages* raised by
  libraries are carried abstractly by the oracles; `except Exception`
  converts them to `"Error: …"` strings.  Only `calculator` can meet a
  `BaseException` that `except Exception` does not catch (`eval` runs
  arbitrary input, e.g. `exit()` raises `SystemExit`), so its model returns
  `Except String String`, the `.error` case being a propagated exception.
-/

namespace AgenticWF

/-! ## Values -/

/-- A decoded JSON value, as produced by `json.loads`.  Numbers keep their
exact decimal token. -/
inductive JVal where
  | null
  | bool (b : Bool)
  | num (tok : String)
  | str (s : String)
  | arr (elems : List JVal)
  | obj (fields : List (String × JVal))

/-- A Python value as produced by `ast.literal_eval` on the modelled
fragment.  `noneV` is Python `None`; ints and floats are both carried as
their decimal token (`num`), since nothing modelled distinguishes them.
Dict entries are kept as the raw parsed pair list; deduplication happens
where `json.dumps` consumes them (see `toJ`). -/
inductive PyVal where
  | noneV
  | bool (b : Bool)
  | num (tok : String)
  | str (s : String)
  | list (elems : List PyVal)
  | tuple (elems : List PyVal)
  | set (elems : List PyVal)
  | dict (pairs : List (PyVal × PyVal))

/-! ## Character-level helpers -/

/-- Whitespace skipped by the JSON scanner (and, in the modelled fragment,
by the Python tokenizer): space, tab, newline, carriage return. -/
def isWs (c : Char) : Bool := c = ' ' || c = '\t' || c = '\n' || c = '\r'

def isDigit (c : Char) : Bool := 48 ≤ c.toNat && c.toNat ≤ 57  -- code points of 0-9

def skipWs : List Char → List Char
  | [] => []
  | a :: t => if isWs a then skipWs t else a :: t

/-- Greedily split off a leading run of decimal digits. -/
def takeDigits : List Char → List Char × List Char
  | [] => ([], [])
  | a :: t =>
    if isDigit a then
      let p := takeDigits t
      (a :: p.1, p.2)
    else ([], a :: t)

def hexVal (c : Char) : Option Nat :=
  -- 48-57 are '0'-'9', 97-102 are 'a'-'f', 65-70 are 'A'-'F'
  if 48 ≤ c.toNat ∧ c.toNat ≤ 57 then some (c.toNat - 48)
  else if 97 ≤ c.toNat ∧ c.toNat ≤ 102 then some (c.toNat - 97 + 10)
  else if 65 ≤ c.toNat ∧ c.toNat ≤ 70 then some (c.toNat - 65 + 10)
  else none

def hex4 (u1 u2 u3 u4 : Char) : Option Nat := do
  let x1 ← hexVal u1
  let x2 ← hexVal u2
  let x3 ← hexVal u3
  let x4 ← hexVal u4
  return x4 + 16 * (x3 + 16 * (x2 + 16 * x1))

/-- Build a `Char` from a code point, refusing surrogates and out-of-range
values (which Lean's `Char` cannot carry). -/
def scalar? (n : Nat) : Option Char :=
  if n < 0xd800 ∨ (0xe000 ≤ n ∧ n < 0x110000) then some (Char.ofNat n) else none

/-! ## Dict semantics -/

/-- Insertion into an association list with CPython dict semantics: an
existing key keeps its position and takes the new value, a new key is
appended. -/
def insertKV (l : List (String × JVal)) (k : String) (v : JVal) :
    List (String × JVal) :=
  match l with
  | [] => [(k, v)]
  | (k0, v0) :: rest =>
    if k0 = k then (k, v) :: rest
    else (k0, v0) :: insertKV rest k v

/-- Fold a raw member list into a dict (last value wins, first position
kept), as both `json.loads` and a Python dict display do. -/
def dedupKV (l : List (String × JVal)) : List (String × JVal) :=
  l.foldl (fun acc kv => insertKV acc kv.1 kv.2) []

/-! ## String literals

`jStrAux` scans a JSON string body after the opening quote, as the strict
`json.loads` scanner does: the nine escapes, `\uXXXX` with surrogate pairs
combined, raw control characters rejected.  `pStrAux` scans a Python string
body after the opening quote `q` (`'` or `"`): the standard single-character
escapes, `\uXXXX` (surrogates refused — outside the modelled fragment), any
other escape kept literally with its backslash, raw newlines rejected. -/

def mkStr (acc : List Char) : String := String.mk acc.reverse

def jEsc1 (c : Char) : Option Char :=
  if c = '"' then some '"'
  else if c = '\\' then some '\\'
  else if c = '/' then some '/'
  else if c = 'b' then some '\x08'
  else if c = 'f' then some '\x0c'
  else if c = 'n' then some '\n'
  else if c = 'r' then some '\r'
  else if c = 't' then some '\t'
  else none

/-- Decode the low half of a surrogate pair: `\uXXXX` with a value in the
low-surrogate range, combined with the high half `n`. -/
def jLowDec (n : Nat) (cs : List Char) : Option (Char × List Char) :=
  match cs with
  | b2 :: u2 :: g1 :: g2 :: g3 :: g4 :: r4 =>
    if b2 = '\\' ∧ u2 = 'u' then
      match hex4 g1 g2 g3 g4 with
      | none => none
      | some m =>
        if 0xdc00 ≤ m ∧ m < 0xe000 then
          match scalar? (0x10000 + (n - 0xd800) * 0x400 + (m - 0xdc00)) with
          | some ch => some (ch, r4)
          | none => none
        else none
    else none
  | _ => none

/-- Decode a `\uXXXX` escape after the `\u`: four hex digits; a high
surrogate looks for a paired low `\uXXXX` to combine with.  Returns the
decoded character and the rest of the stream. -/
def jUDec (cs : List Char) : Option (Char × List Char) :=
  match cs with
  | h1 :: h2 :: h3 :: h4 :: r3 =>
    match hex4 h1 h2 h3 h4 with
    | none => none
    | some n =>
      if n < 0xd800 ∨ 0xe000 ≤ n then
        match scalar? n with
        | some ch => some (ch, r3)
        | none => none
      else if n < 0xdc00 then jLowDec n r3
      else none
  | _ => none

/-- Decode one escape after the backslash. -/
def jEscDec (cs : List Char) : Option (Char × List Char) :=
  match cs with
  | [] => none
  | e :: r2 =>
    if e = 'u' then jUDec r2
    else
      match jEsc1 e with
      | some ch => some (ch, r2)
      | none => none

/-- Scan a JSON string body after the opening quote, as the strict
`json.loads` scanner does; the fuel exceeds the input length at every call
site, which every accepting run stays within. -/
def jStrAux : Nat → List Char → List Char → Option (String × List Char)
  | 0, _, _ => none
  | f + 1, acc, cs =>
    match cs with
    | [] => none
    | c :: r =>
      if c = '"' then some (mkStr acc, r)
      else if c = '\\' then
        match jEscDec r with
        | some (ch, r2) => jStrAux f (ch :: acc) r2
        | none => none
      else if c.toNat < 0x20 then none
      else jStrAux f (c :: acc) r

/-- Single-character Python escapes of the modelled fragment.  `\x`, `\N`,
`\U`, octal digits and escaped line breaks are outside the fragment
(`inr`); everything else unrecognised keeps its backslash (`none`). -/
def pEsc1 (c : Char) : Option Char ⊕ Unit :=
  if c = '\x27' then Sum.inl (some '\x27')
  else if c = '"' then Sum.inl (some '"')
  else if c = '\\' then Sum.inl (some '\\')
  else if c = 'a' then Sum.inl (some '\x07')
  else if c = 'b' then Sum.inl (some '\x08')
  else if c = 'f' then Sum.inl (some '\x0c')
  else if c = 'n' then Sum.inl (some '\n')
  else if c = 'r' then Sum.inl (some '\r')
  else if c = 't' then Sum.inl (some '\t')
  else if c = 'v' then Sum.inl (some '\x0b')
  else if c = 'x' ∨ c = 'N' ∨ c = 'U' ∨ ('0' ≤ c ∧ c ≤ '7') ∨ c = '\n' ∨ c = '\r'
    then Sum.inr ()
  else Sum.inl none

mutual

def pStrAux (q : Char) (acc : List Char) : List Char → Option (String × List Char)
  | [] => none
  | c :: r =>
    if c = q then some (mkStr acc, r)
    else if c = '\\' then pStrEsc q acc r
    else if c = '\n' ∨ c = '\r' then none
    else pStrAux q (c :: acc) r
  termination_by structural cs => cs

/-- After a backslash. -/
def pStrEsc (q : Char) (acc : List Char) : List Char → Option (String × List Char)
  | [] => none
  | e :: r2 =>
    if e = 'u' then pStrU q acc r2
    else
      match pEsc1 e with
      | Sum.inl (some ch) => pStrAux q (ch :: acc) r2
      | Sum.inl none => pStrAux q (e :: '\\' :: acc) r2
      | Sum.inr () => none

/-- After `\u`: four hex digits giving a scalar value (surrogates refused). -/
def pStrU (q : Char) (acc : List Char) : List Char → Option (String × List Char)
  | h1 :: h2 :: h3 :: h4 :: r3 =>
    match hex4 h1 h2 h3 h4 with
    | none => none
    | some n =>
      match scalar? n with
      | some ch => pStrAux q (ch :: acc) r3
      | none => none
  | _ => none

end

/-! ## Number tokens

`jNum` follows the `json.loads` number regex
`(-?(0|[1-9]\d*))(\.\d+)?([eE][-+]?\d+)?`: the fraction and exponent groups
are only consumed when complete.  `pNum` follows the Python tokenizer on
decimal literals: a sign with optional space, digit runs with leading zeros
admitted for floats but only all-zero for ints, `1.`/`.5`-style floats, and
a hard failure when `e` is not followed by digits. -/

/-- Fraction part of a JSON number: `.` followed by at least one digit,
otherwise nothing is consumed. -/
def jFrac : List Char → List Char × List Char
  | [] => ([], [])
  | d :: rr =>
    if d = '.' then
      let p := takeDigits rr
      if p.1 = [] then ([], d :: rr) else ('.' :: p.1, p.2)
    else ([], d :: rr)

/-- Exponent part of a JSON number: `e`/`E`, an optional sign, and at least
one digit, otherwise nothing is consumed. -/
def jExp : List Char → List Char × List Char
  | [] => ([], [])
  | e :: rr =>
    if e = 'e' ∨ e = 'E' then
      match rr with
      | [] => ([], e :: rr)
      | sg :: rr2 =>
        if sg = '+' ∨ sg = '-' then
          let p := takeDigits rr2
          if p.1 = [] then ([], e :: rr) else (e :: sg :: p.1, p.2)
        else
          let p := takeDigits rr
          if p.1 = [] then ([], e :: rr) else (e :: p.1, p.2)
    else ([], e :: rr)

def jFracExp (ip : List Char) (r : List Char) : List Char × List Char :=
  let f := jFrac r
  let e := jExp f.2
  (ip ++ f.1 ++ e.1, e.2)

def jNumBody : List Char → Option (List Char × List Char)
  | [] => none
  | c :: r =>
    if c = '0' then some (jFracExp ['0'] r)
    else if isDigit c then
      let p := takeDigits r
      some (jFracExp (c :: p.1) p.2)
    else none

def jNum (cs : List Char) : Option (List Char × List Char) :=
  match cs with
  | [] => none
  | c :: r =>
    if c = '-' then (jNumBody r).map (fun p => ('-' :: p.1, p.2))
    else jNumBody (c :: r)

/-- Exponent part of a Python float token: `none` when an `e` is present but
not followed by digits (a tokenizer error), otherwise the consumed
characters (possibly none). -/
def pExpPart : List Char → Option (List Char × List Char)
  | [] => some ([], [])
  | e :: r =>
    if e = 'e' ∨ e = 'E' then
      match r with
      | [] => none
      | sg :: r2 =>
        if sg = '+' ∨ sg = '-' then
          let p := takeDigits r2
          if p.1 = [] then none else some (e :: sg :: p.1, p.2)
        else
          let p := takeDigits r
          if p.1 = [] then none else some (e :: p.1, p.2)
    else some ([], e :: r)

/-- A decimal int token must not have a leading zero unless it is all
zeros (`0`, `00` are Python ints, `01` is a syntax error). -/
def intOK : List Char → Bool
  | [] => true
  | c :: t => if c = '0' then t.all (fun x => x = '0') else true

/-- Python number scanning after the integer digit run `ds`: an optional
fraction and exponent, with the leading-zero check on a bare int. -/
def pAfterDigits (ds : List Char) : List Char → Option (List Char × List Char)
  | [] => if intOK ds then some (ds, []) else none
  | d :: r2 =>
    if d = '.' then
      let pf := takeDigits r2
      (pExpPart pf.2).map (fun q => (ds ++ '.' :: pf.1 ++ q.1, q.2))
    else
      match pExpPart (d :: r2) with
      | none => none
      | some ([], r3) => if intOK ds then some (ds, r3) else none
      | some (es, r3) => some (ds ++ es, r3)

def pNumBody (cs : List Char) : Option (List Char × List Char) :=
  let p := takeDigits cs
  match p.1, p.2 with
  | [], [] => none
  | [], d :: r2 =>
    if d = '.' then
      let pf := takeDigits r2
      if pf.1 = [] then none
      else (pExpPart pf.2).map (fun q => ('.' :: pf.1 ++ q.1, q.2))
    else none
  | ds, r => pAfterDigits ds r

def pNum (cs : List Char) : Option (List Char × List Char) :=
  match cs with
  | [] => none
  | c :: r =>
    if c = '-' then (pNumBody (skipWs r)).map (fun p => ('-' :: p.1, p.2))
    else if c = '+' then pNumBody (skipWs r)
    else pNumBody (c :: r)

/-! ## The JSON value parser (`json.loads`)

Fuel-indexed recursive descent; the top level supplies more fuel than the
input length, which every accepting run stays within. -/

/-- Match an expected literal run of characters, returning the rest. -/
def expectChars : List Char → List Char → Option (List Char)
  | [], r => some r
  | _ :: _, [] => none
  | x :: xs, c :: r => if c = x then expectChars xs r else none

mutual

def jVal : Nat → List Char → Option (JVal × List Char)
  | 0, _ => none
  | f + 1, cs =>
    match skipWs cs with
    | [] => none
    | c :: r =>
      if c = '"' then (jStrAux (r.length + 1) [] r).map (fun p => (JVal.str p.1, p.2))
      else if c = '[' then
        match skipWs r with
        | [] => none
        | c2 :: r2 =>
          if c2 = ']' then some (JVal.arr [], r2)
          else
            match jVal f (c2 :: r2) with
            | none => none
            | some (v, r3) =>
              match jElemsRest f r3 with
              | none => none
              | some (vs, r4) => some (JVal.arr (v :: vs), r4)
      else if c = '\x7b' then
        match skipWs r with
        | [] => none
        | c2 :: r2 =>
          if c2 = '\x7d' then some (JVal.obj [], r2)
          else if c2 = '"' then
            match jStrAux (r2.length + 1) [] r2 with
            | none => none
            | some (k, r3) =>
              match skipWs r3 with
              | [] => none
              | c3 :: r4 =>
                if c3 = ':' then
                  match jVal f r4 with
                  | none => none
                  | some (v, r5) =>
                    match jMembersRest f r5 with
                    | none => none
                    | some (ms, r6) => some (JVal.obj (dedupKV ((k, v) :: ms)), r6)
                else none
          else none
      else if c = 't' then (expectChars ['r', 'u', 'e'] r).map (fun r2 => (JVal.bool true, r2))
      else if c = 'f' then
        (expectChars ['a', 'l', 's', 'e'] r).map (fun r2 => (JVal.bool false, r2))
      else if c = 'n' then (expectChars ['u', 'l', 'l'] r).map (fun r2 => (JVal.null, r2))
      else if c = '-' ∨ isDigit c then
        (jNum (c :: r)).map (fun p => (JVal.num (String.mk p.1), p.2))
      else none

/-- Continuation of an array after a complete element: `, value`* then `]`. -/
def jElemsRest : Nat → List Char → Option (List JVal × List Char)
  | 0, _ => none
  | f + 1, cs =>
    match skipWs cs with
    | [] => none
    | c :: r =>
      if c = ']' then some ([], r)
      else if c = ',' then
        match jVal f r with
        | none => none
        | some (v, r2) =>
          match jElemsRest f r2 with
          | none => none
          | some (vs, r3) => some (v :: vs, r3)
      else none

/-- Continuation of an object after a complete member: `, "key": value`*
then the closing brace. -/
def jMembersRest : Nat → List Char → Option (List (String × JVal) × List Char)
  | 0, _ => none
  | f + 1, cs =>
    match skipWs cs with
    | [] => none
    | c :: r =>
      if c = '\x7d' then some ([], r)
      else if c = ',' then
        match skipWs r with
        | [] => none
        | c2 :: r2 =>
          if c2 = '"' then
            match jStrAux (r2.length + 1) [] r2 with
            | none => none
            | some (k, r3) =>
              match skipWs r3 with
              | [] => none
              | c3 :: r4 =>
                if c3 = ':' then
                  match jVal f r4 with
                  | none => none
                  | some (v, r5) =>
                    match jMembersRest f r5 with
                    | none => none
                    | some (ms, r6) => some ((k, v) :: ms, r6)
                else none
          else none
      else none

end

/-- Model of `json.loads`: parse a complete document, allowing trailing
whitespace only. -/
def jsonParse (s : String) : Option JVal :=
  match jVal (s.data.length + 1) s.data with
  | some (v, r) => if skipWs r = [] then some v else none
  | none => none

/-! ## The Python literal parser (`ast.literal_eval`), on the modelled
fragment -/

mutual

def pVal : Nat → List Char → Option (PyVal × List Char)
  | 0, _ => none
  | f + 1, cs =>
    match skipWs cs with
    | [] => none
    | c :: r =>
      if c = '\x27' ∨ c = '"' then (pStrAux c [] r).map (fun p => (PyVal.str p.1, p.2))
      else if c = '[' then
        match skipWs r with
        | [] => none
        | c2 :: r2 =>
          if c2 = ']' then some (PyVal.list [], r2)
          else
            match pVal f (c2 :: r2) with
            | none => none
            | some (v, r3) =>
              match pMoreElems f ']' r3 with
              | none => none
              | some (vs, r4) => some (PyVal.list (v :: vs), r4)
      else if c = '(' then
        match skipWs r with
        | [] => none
        | c2 :: r2 =>
          if c2 = ')' then some (PyVal.tuple [], r2)
          else
            match pVal f (c2 :: r2) with
            | none => none
            | some (v, r3) =>
              match skipWs r3 with
              | [] => none
              | c3 :: r4 =>
                if c3 = ')' then some (v, r4)  -- a parenthesised grouping, not a tuple
                else
                  match pMoreElems f ')' (c3 :: r4) with
                  | none => none
                  | some (vs, r5) => some (PyVal.tuple (v :: vs), r5)
      else if c = '\x7b' then
        match skipWs r with
        | [] => none
        | c2 :: r2 =>
          if c2 = '\x7d' then some (PyVal.dict [], r2)
          else
            match pVal f (c2 :: r2) with
            | none => none
            | some (k, r3) =>
              match skipWs r3 with
              | [] => none
              | c3 :: r4 =>
                if c3 = ':' then
                  match pVal f r4 with
                  | none => none
                  | some (v, r5) =>
                    match pMoreMembers f r5 with
                    | none => none
                    | some (ms, r6) => some (PyVal.dict ((k, v) :: ms), r6)
                else
                  match pMoreElems f '\x7d' (c3 :: r4) with
                  | none => none
                  | some (vs, r5) => some (PyVal.set (k :: vs), r5)
      else if c = 'T' then (expectChars ['r', 'u', 'e'] r).map (fun r2 => (PyVal.bool true, r2))
      else if c = 'F' then
        (expectChars ['a', 'l', 's', 'e'] r).map (fun r2 => (PyVal.bool false, r2))
      else if c = 'N' then (expectChars ['o', 'n', 'e'] r).map (fun r2 => (PyVal.noneV, r2))
      else if c = '-' ∨ c = '+' ∨ c = '.' ∨ isDigit c then
        (pNum (c :: r)).map (fun p => (PyVal.num (String.mk p.1), p.2))
      else none

/-- Continuation of a list, tuple or set after a complete element:
`, value`* with an optional trailing comma, then the closing bracket. -/
def pMoreElems : Nat → Char → List Char → Option (List PyVal × List Char)
  | 0, _, _ => none
  | f + 1, close, cs =>
    match skipWs cs with
    | [] => none
    | c :: r =>
      if c = close then some ([], r)
      else if c = ',' then
        match skipWs r with
        | [] => none
        | c2 :: r2 =>
          if c2 = close then some ([], r2)
          else
            match pVal f (c2 :: r2) with
            | none => none
            | some (v, r3) =>
              match pMoreElems f close r3 with
              | none => none
              | some (vs, r4) => some (v :: vs, r4)
      else none

/-- Continuation of a dict after a complete member: `, key: value`* with an
optional trailing comma, then the closing brace. -/
def pMoreMembers : Nat → List Char → Option (List (PyVal × PyVal) × List Char)
  | 0, _ => none
  | f + 1, cs =>
    match skipWs cs with
    | [] => none
    | c :: r =>
      if c = '\x7d' then some ([], r)
      else if c = ',' then
        match skipWs r with
        | [] => none
        | c2 :: r2 =>
          if c2 = '\x7d' then some ([], r2)
          else
            match pVal f (c2 :: r2) with
            | none => none
            | some (k, r3) =>
              match skipWs r3 with
              | [] => none
              | c3 :: r4 =>
                if c3 = ':' then
                  match pVal f r4 with
                  | none => none
                  | some (v, r5) =>
                    match pMoreMembers f r5 with
                    | none => none
                    | some (ms, r6) => some ((k, v) :: ms, r6)
                else none
      else none

end

/-- Model of `ast.literal_eval` on the fragment: parse a complete
expression, allowing surrounding whitespace. -/
def pyParse (s : String) : Option PyVal :=
  match pVal (s.data.length + 1) s.data with
  | some (v, r) => if skipWs r = [] then some v else none
  | none => none

/-! ## The `json.dumps` model -/

/-- Coercion of a Python dict key to a JSON object key, as `json.dumps`
does: strings pass through, `True`/`False`/`None` become their JSON
spellings, numbers their token; a container key is a `TypeError` (`none`). -/
def keyStr : PyVal → Option String
  | PyVal.str s => some s
  | PyVal.bool true => some "true"
  | PyVal.bool false => some "false"
  | PyVal.noneV => some "null"
  | PyVal.num t => some t
  | _ => none

mutual

/-- Value-level semantics of `json.dumps` on a Python object: what JSON
value the dumped text denotes.  A set makes it raise `TypeError` (`none`);
a tuple dumps as an array; dict pairs are deduplicated with last-value,
first-position semantics. -/
def toJ : PyVal → Option JVal
  | PyVal.noneV => some JVal.null
  | PyVal.bool b => some (JVal.bool b)
  | PyVal.num t => some (JVal.num t)
  | PyVal.str s => some (JVal.str s)
  | PyVal.list l => (toJList l).map JVal.arr
  | PyVal.tuple l => (toJList l).map JVal.arr
  | PyVal.set _ => none
  | PyVal.dict ps => (toJPairs ps).map (fun l => JVal.obj (dedupKV l))

def toJList : List PyVal → Option (List JVal)
  | [] => some []
  | v :: vs =>
    match toJ v, toJList vs with
    | some j, some js => some (j :: js)
    | _, _ => none

def toJPairs : List (PyVal × PyVal) → Option (List (String × JVal))
  | [] => some []
  | (k, v) :: ps =>
    match keyStr k, toJ v, toJPairs ps with
    | some ks, some j, some rest => some ((ks, j) :: rest)
    | _, _, _ => none

end

def toHexDigit (n : Nat) : Char :=
  Char.ofNat (n + if n < 10 then 48 else 87)

def hex4Chars (n : Nat) : List Char :=
  [toHexDigit (n / 0x1000 % 16), toHexDigit (n / 0x100 % 16),
   toHexDigit (n / 0x10 % 16), toHexDigit (n % 16)]

/-- HOW `json.dumps` (with its default `ensure_ascii=True`) writes one
character: the two mandatory escapes, the five short control escapes,
`\u00xx` for the other control characters, `\uxxxx` (a surrogate pair
beyond the BMP) for every character outside printable ASCII, and the
character itself otherwise. -/
def escJChar (c : Char) : List Char :=
  if c = '"' then ['\\', '"']
  else if c = '\\' then ['\\', '\\']
  else if c = '\n' then ['\\', 'n']
  else if c = '\r' then ['\\', 'r']
  else if c = '\t' then ['\\', 't']
  else if c = '\x08' then ['\\', 'b']
  else if c = '\x0c' then ['\\', 'f']
  else if c.toNat < 0x20 ∨ 0x7f ≤ c.toNat then
    if c.toNat < 0x10000 then '\\' :: 'u' :: hex4Chars c.toNat
    else
      let m := c.toNat - 0x10000
      '\\' :: 'u' :: hex4Chars (0xd800 + m / 0x400) ++
        '\\' :: 'u' :: hex4Chars (0xdc00 + m % 0x400)
  else [c]

def escStr : List Char → List Char
  | [] => []
  | c :: r => escJChar c ++ escStr r

mutual

/-- Character-level output of `json.dumps` with its default separators
`", "` and `": "`. -/
def jDumpsL : JVal → List Char
  | JVal.null => 'n' :: ['u', 'l', 'l']
  | JVal.bool true => 't' :: ['r', 'u', 'e']
  | JVal.bool false => 'f' :: ['a', 'l', 's', 'e']
  | JVal.num t => t.data
  | JVal.str s => '"' :: (escStr s.data ++ ['"'])
  | JVal.arr [] => ['[', ']']
  | JVal.arr (v :: vs) => '[' :: (jDumpsL v ++ jDumpsElems vs ++ [']'])
  | JVal.obj [] => ['\x7b', '\x7d']
  | JVal.obj (kv :: kvs) => '\x7b' :: (jDumpsMember kv ++ jDumpsMembers kvs ++ ['\x7d'])

def jDumpsElems : List JVal → List Char
  | [] => []
  | v :: vs => ',' :: ' ' :: (jDumpsL v ++ jDumpsElems vs)

def jDumpsMember : String × JVal → List Char
  | (k, v) => '"' :: (escStr k.data ++ '"' :: ':' :: ' ' :: jDumpsL v)

def jDumpsMembers : List (String × JVal) → List Char
  | [] => []
  | kv :: kvs => ',' :: ' ' :: (jDumpsMember kv ++ jDumpsMembers kvs)

end

def jDumps (v : JVal) : String := String.mk (jDumpsL v)

/-! ## `coerce_to_valid_json` (src/agent.py lines 18-32) -/

/-- Model of `coerce_to_valid_json`: parse the input with
`ast.literal_eval`, re-serialise it with `json.dumps`, and on any failure
of either step return the input unchanged. -/
def coerce_to_valid_json (input_str : String) : String :=
  match pyParse input_str with
  | some w =>
    match toJ w with
    | some j => jDumps j
    | none => input_str
  | none => input_str

/-! ## Environment and truthiness -/

/-- The credential environment variables the tools read through
`os.getenv`: `none` models an unset variable. -/
structure Env where
  GOOGLE_API_KEY : Option String
  GOOGLE_CSE_CX : Option String
  GOOGLE_CLIENT_ID : Option String
  GOOGLE_CLIENT_SECRET : Option String
  GMAIL_REFRESH_TOKEN : Option String
  CALENDAR_REFRESH_TOKEN : Option String

/-- Python truthiness of an `os.getenv` result: `None` and `""` are falsy. -/
def truthy : Option String → Bool
  | some s => s != ""
  | none => false

/-- Python truthiness of a decoded JSON value: `None`, `False`, numeric
zero, and empty strings/lists/dicts are falsy. -/
def numNonzero (t : String) : Bool :=
  (t.data.takeWhile (fun c => !(c = 'e' ∨ c = 'E'))).any (fun c => '1' ≤ c && c ≤ '9')

def jTruthy : JVal → Bool
  | JVal.null => false
  | JVal.bool b => b
  | JVal.num t => numNonzero t
  | JVal.str s => s != ""
  | JVal.arr l => !l.isEmpty
  | JVal.obj l => !l.isEmpty

def optTruthy : Option JVal → Bool
  | some v => jTruthy v
  | none => false

/-- Python type name of a decoded JSON value, for exception texts (the
model does not distinguish int from float). -/
def pyTypeName : JVal → String
  | JVal.null => "NoneType"
  | JVal.bool _ => "bool"
  | JVal.num _ => "int"
  | JVal.str _ => "str"
  | JVal.arr _ => "list"
  | JVal.obj _ => "dict"

/-- Stand-in for the text of a `json.JSONDecodeError` (the exact wording
depends on the input position; no claim inspects it beyond the `"Error: "`
prefix the handler adds). -/
def jsonDecodeErr : String := "Expecting value: line 1 column 1 (char 0)"

/-- Stand-in for the `TypeError` text raised when a MIME field is built
from a non-string decoded value. -/
def mimeTypeErr : String := "TypeError in MIMEText"

/-- Key lookup in a decoded (deduplicated) JSON object, i.e. dict `.get`. -/
def lookupKV (l : List (String × JVal)) (k : String) : Option JVal :=
  match l.find? (fun kv => kv.1 = k) with
  | some kv => some kv.2
  | none => none

/-! ## calculator (src/agent.py lines 34-41) -/

/-- Outcome of CPython `eval` on the calculator's input, combined with the
`str()` conversion of its result: a value string, a raised `Exception`, or
a raised `BaseException` (e.g. `SystemExit` from `exit()`), which `except
Exception` does not catch. -/
inductive EvalOutcome where
  | ok (valueStr : String)
  | exn (msg : String)
  | baseExn (msg : String)

/-- Model of `calculator`.  `Except.error` is an uncaught `BaseException`
propagating out of the function; everything else is returned as a string. -/
def calculator (evalResult : EvalOutcome) (_expression : String) : Except String String :=
  match evalResult with
  | EvalOutcome.ok v => Except.ok v
  | EvalOutcome.exn e => Except.ok ("Error:" ++ e)
  | EvalOutcome.baseExn e => Except.error e

/-! ## web_search (src/agent.py lines 43-76) -/

structure SearchItem where
  title : Option String
  snippet : Option String
  link : Option String

/-- One upstream HTTP response: the status code, and the list under the
body's `"items"` key (empty when the key is absent or the body is not an
object), or the exception `response.json()` raised. -/
structure HttpResponse where
  status_code : Nat
  items : Except String (List SearchItem)

/-- The parameters of the one outbound GET `web_search` issues. -/
structure SearchCall where
  key : String
  cx : String
  q : String
  dateRestrict : String

def optGetD : Option String → String → String
  | some s, _ => s
  | none, d => d

def web_search (env : Env) (resp : Except String HttpResponse) (query : String) :
    String × List SearchCall :=
  if !truthy env.GOOGLE_API_KEY || !truthy env.GOOGLE_CSE_CX then
    ("Google CSE API key or CX ID is missing", [])
  else
    let call : SearchCall :=
      ⟨env.GOOGLE_API_KEY.getD "", env.GOOGLE_CSE_CX.getD "", query, "m6"⟩
    match resp with
    | Except.error e => ("Error: " ++ e, [call])
    | Except.ok r =>
      if r.status_code = 200 then
        match r.items with
        | Except.error e => ("Error: " ++ e, [call])
        | Except.ok [] => ("No search results found.", [call])
        | Except.ok (top :: _) =>
          ("Title: " ++ optGetD top.title "No title available" ++
             "\nSnippet: " ++ optGetD top.snippet "No snippet available" ++
             "\nLink: " ++ optGetD top.link "No link available", [call])
      else
        ("Error: Unable to fetch search results. Status Code: " ++
           toString r.status_code, [call])

/-! ## gmail_get_emails (src/agent.py lines 78-137) -/

structure MsgData where
  snippet : String
  headers : List (String × String)

/-- Upstream behaviour for the Gmail list/get endpoints: the ids under the
list response's `"messages"` key, and per-id message data; `.error` is a
raised exception. -/
structure GmailListOracle where
  listResult : Except String (List String)
  getResult : String → Except String MsgData

inductive GmailCall where
  | listMessages (q : String) (maxResults : Nat)
  | getMessage (id : String)

/-- First header with the given name, as the generator-plus-`next` does. -/
def headerValue (headers : List (String × String)) (name dflt : String) : String :=
  match headers.find? (fun h => h.1 = name) with
  | some h => h.2
  | none => dflt

/-- The per-message loop: fetch each id, building summaries and the list of
issued get-calls; an exception aborts with the calls issued so far. -/
def gmailFetchAux (getResult : String → Except String MsgData) :
    List String → Except (String × List GmailCall) (List String × List GmailCall)
  | [] => Except.ok ([], [])
  | id :: ids =>
    match getResult id with
    | Except.error e => Except.error (e, [GmailCall.getMessage id])
    | Except.ok d =>
      match gmailFetchAux getResult ids with
      | Except.error (e, calls) => Except.error (e, GmailCall.getMessage id :: calls)
      | Except.ok (sums, calls) =>
        Except.ok
          (("From: " ++ headerValue d.headers "From" "Unknown Sender" ++
              "\nSubject: " ++ headerValue d.headers "Subject" "No Subject" ++
              "\nSnippet: " ++ d.snippet ++ "\n") :: sums,
           GmailCall.getMessage id :: calls)

def gmail_get_emails (env : Env) (oracle : GmailListOracle) (query : String) :
    String × List GmailCall :=
  if !(truthy env.GOOGLE_CLIENT_ID && truthy env.GOOGLE_CLIENT_SECRET &&
      truthy env.GMAIL_REFRESH_TOKEN) then
    ("Missing one or more Gmail OAuth credentials in environment variables!", [])
  else
    match oracle.listResult with
    | Except.error e => ("Error: " ++ e, [GmailCall.listMessages query 5])
    | Except.ok [] =>
      ("No emails found for the given query.", [GmailCall.listMessages query 5])
    | Except.ok (id :: ids) =>
      match gmailFetchAux oracle.getResult (id :: ids) with
      | Except.error (e, calls) =>
        ("Error: " ++ e, GmailCall.listMessages query 5 :: calls)
      | Except.ok (sums, calls) =>
        (String.intercalate "\n" sums, GmailCall.listMessages query 5 :: calls)

/-! ## gmail_send_email (src/agent.py lines 139-203) -/

/-- The MIME message a send call carries (its `to`, `subject` headers and
text body; the base64url wire encoding adds nothing the claims consult). -/
structure MimeMsg where
  to_ : String
  subject : String
  body : String

/-- Model of `gmail_send_email`.  `sendResult msg` is the outcome of
`send(...).execute()`: an exception, or a response whose `"id"` is the
given string (`none` models a response without an `"id"`, a `KeyError`). -/
def gmail_send_email (env : Env) (sendResult : MimeMsg → Except String (Option String))
    (input_data : String) : String × List MimeMsg :=
  if !(truthy env.GOOGLE_CLIENT_ID && truthy env.GOOGLE_CLIENT_SECRET &&
      truthy env.GMAIL_REFRESH_TOKEN) then
    ("Missing one or more Gmail OAuth credentials in environment variables!", [])
  else
    match jsonParse (coerce_to_valid_json input_data) with
    | none => ("Error: " ++ jsonDecodeErr, [])
    | some (JVal.obj kvs) =>
      if !optTruthy (lookupKV kvs "to") || !optTruthy (lookupKV kvs "subject") ||
          !optTruthy (lookupKV kvs "body") then
        ("Invalid input data! Ensure \x27to\x27, \x27subject\x27, and \x27body\x27 fields are provided.",
         [])
      else
        match lookupKV kvs "to", lookupKV kvs "subject", lookupKV kvs "body" with
        | some (JVal.str t), some (JVal.str s), some (JVal.str b) =>
          match sendResult ⟨t, s, b⟩ with
          | Except.error e => ("Error: " ++ e, [⟨t, s, b⟩])
          | Except.ok (some id) => ("Email sent successfully! Message ID: " ++ id, [⟨t, s, b⟩])
          | Except.ok none => ("Error: " ++ "\x27id\x27", [⟨t, s, b⟩])
        | _, _, _ => ("Error: " ++ mimeTypeErr, [])
    | some v =>
      ("Error: " ++ "\x27" ++ pyTypeName v ++ "\x27 object has no attribute \x27get\x27", [])

/-! ## google_calendar_list_events (src/agent.py lines 206-248) -/

/-- One event of the upstream list response: `start` is the `"start"` dict
as a pair (its `"dateTime"`, its `"date"`), `none` when the key is absent
(a `KeyError`); `summary` is the `"summary"` value. -/
structure CalEventItem where
  start : Option (Option String × Option String)
  summary : Option String

structure CalListCall where
  calendarId : String
  maxResults : Nat
  singleEvents : Bool
  orderBy : String

def formatEvents : List CalEventItem → Except String (List String)
  | [] => Except.ok []
  | e :: es =>
    match e.start with
    | none => Except.error "\x27start\x27"
    | some (dt, d) =>
      let startStr :=
        match dt with
        | some s => s
        | none => match d with | some s => s | none => "None"
      match formatEvents es with
      | Except.error err => Except.error err
      | Except.ok rest =>
        Except.ok ((startStr ++ " - " ++
          (match e.summary with | some s => s | none => "No Title")) :: rest)

def google_calendar_list_events (env : Env)
    (listResult : Except String (List CalEventItem)) (_query : String) :
    String × List CalListCall :=
  if !(truthy env.GOOGLE_CLIENT_ID && truthy env.GOOGLE_CLIENT_SECRET &&
      truthy env.CALENDAR_REFRESH_TOKEN) then
    ("Missing Google Calendar OAuth credentials in environment variables!", [])
  else
    let call : CalListCall := ⟨"primary", 5, true, "startTime"⟩
    match listResult with
    | Except.error e => ("Error: " ++ e, [call])
    | Except.ok [] => ("No upcoming events found.", [call])
    | Except.ok (e :: es) =>
      match formatEvents (e :: es) with
      | Except.error err => ("Error: " ++ err, [call])
      | Except.ok lines => (String.intercalate "\n" lines, [call])

/-! ## google_calendar_create_event (src/agent.py lines 250-325) -/

/-- Python `field in event_data` on a decoded JSON value: key membership
for a dict, element equality for a list, substring test for a str, and a
`TypeError` otherwise. -/
def startsWithChars : List Char → List Char → Bool
  | x :: xs, y :: ys => x = y && startsWithChars xs ys
  | [], _ => true
  | _, _ => false

def substrOf (needle : List Char) : List Char → Bool
  | [] => startsWithChars needle []
  | c :: t => startsWithChars needle (c :: t) || substrOf needle t

def jContains (v : JVal) (field : String) : Except String Bool :=
  match v with
  | JVal.obj kvs => Except.ok (kvs.any (fun kv => kv.1 = field))
  | JVal.arr l =>
    Except.ok (l.any (fun x => match x with | JVal.str s => s = field | _ => false))
  | JVal.str s => Except.ok (substrOf field.data s.data)
  | _ => Except.error ("argument of type \x27" ++ pyTypeName v ++ "\x27 is not iterable")

/-- The `for field in required_fields` loop: the first of `summary`,
`start`, `end` that is not `in` the decoded input, or an exception. -/
def firstMissing (v : JVal) : Except String (Option String) :=
  match jContains v "summary" with
  | Except.error e => Except.error e
  | Except.ok false => Except.ok (some "summary")
  | Except.ok true =>
    match jContains v "start" with
    | Except.error e => Except.error e
    | Except.ok false => Except.ok (some "start")
    | Except.ok true =>
      match jContains v "end" with
      | Except.error e => Except.error e
      | Except.ok false => Except.ok (some "end")
      | Except.ok true => Except.ok none

/-- The event body handed to `events().insert`; `end_` is the `'end'`
key (a Lean keyword), `remindersUseDefault` the forced reminder default. -/
structure EventBody where
  summary : JVal
  location : JVal
  description : JVal
  start : JVal
  end_ : JVal
  remindersUseDefault : Bool

/-- Response of `insert(...).execute()`: a dict with an `"id"`, or
something else (whose display text is carried for the error message). -/
inductive CalInsertResp where
  | withId (id : String)
  | malformed (repr : String)

/-- Stand-in for the `TypeError` text raised when a non-dict decode is
indexed with a string key. -/
def indexTypeErr (v : JVal) : String :=
  pyTypeName v ++ " indices must be integers, not \x27str\x27"

/-- The event dict built from the decoded input: required fields by
direct indexing (present, since the membership loop passed; the `.getD`
defaults on them are unreachable), `location`/`description` by `.get` with
an empty-string default, reminders forced on. -/
def mkEventBody (kvs : List (String × JVal)) : EventBody :=
  ⟨(lookupKV kvs "summary").getD JVal.null,
   (lookupKV kvs "location").getD (JVal.str ""),
   (lookupKV kvs "description").getD (JVal.str ""),
   (lookupKV kvs "start").getD JVal.null,
   (lookupKV kvs "end").getD JVal.null,
   true⟩

def google_calendar_create_event (env : Env)
    (insertResult : EventBody → Except String CalInsertResp) (input_data : String) :
    String × List EventBody :=
  if !(truthy env.GOOGLE_CLIENT_ID && truthy env.GOOGLE_CLIENT_SECRET &&
      truthy env.CALENDAR_REFRESH_TOKEN) then
    ("Missing Google Calendar OAuth credentials in environment variables!", [])
  else
    match jsonParse input_data with
    | none => ("Error: " ++ jsonDecodeErr, [])
    | some v =>
      match firstMissing v with
      | Except.error e => ("Error: " ++ e, [])
      | Except.ok (some f) => ("Missing required field: " ++ f, [])
      | Except.ok none =>
        match v with
        | JVal.obj kvs =>
          match insertResult (mkEventBody kvs) with
          | Except.error e => ("Error: " ++ e, [mkEventBody kvs])
          | Except.ok (CalInsertResp.withId id) =>
            ("Event created successfully! Event ID: " ++ id, [mkEventBody kvs])
          | Except.ok (CalInsertResp.malformed rep) =>
            ("Error: Unexpected response format. Response: " ++ rep, [mkEventBody kvs])
        | _ => ("Error: " ++ indexTypeErr v, [])

/-! ## Auxiliary definitions for the claims -/

/-- Absence of a backslash immediately followed by a slash.  `\/` is the
one JSON string escape that `ast.literal_eval` reads differently from
`json.loads` (Python keeps the backslash of an unrecognised escape), so it
is the one divergence point of the two grammars on common input. -/
def noBS : List Char → Bool
  | [] => true
  | [_] => true
  | a :: b :: t => !(a = '\\' && b = '/') && noBS (b :: t)

/-- Characters that may appear directly inside a single-quoted Python
string literal without escaping concerns: printable (no control
characters), not the quote itself, not a backslash. -/
def sqSafeChar (c : Char) : Bool := 0x20 ≤ c.toNat && c != '\x27' && c != '\\'

def sqSafeStr (s : String) : Bool := s.data.all sqSafeChar

/-- One `'key': 'value'` member of a single-quoted mapping. -/
def renderSQ1 (kv : String × String) : List Char :=
  '\x27' :: (kv.1.data ++ '\x27' :: ':' :: ' ' :: '\x27' :: (kv.2.data ++ ['\x27']))

def renderSQms : List (String × String) → List Char
  | [] => []
  | kv :: ms => ',' :: ' ' :: (renderSQ1 kv ++ renderSQms ms)

/-- A Python-literal-style mapping rendered with single quotes, e.g.
`{'to': 'a@b.com', 'subject': 'Hi'}`. -/
def renderSQ : List (String × String) → String
  | [] => String.mk ['\x7b', '\x7d']
  | kv :: ms => String.mk ('\x7b' :: (renderSQ1 kv ++ renderSQms ms ++ ['\x7d']))

/-- The decoded JSON object a string-to-string mapping denotes. -/
def strPairs (ms : List (String × String)) : List (String × JVal) :=
  ms.map (fun kv => (kv.1, JVal.str kv.2))

/-- The Python dict pairs a string-to-string mapping parses to. -/
def pyPairs (ms : List (String × String)) : List (PyVal × PyVal) :=
  ms.map (fun kv => (PyVal.str kv.1, PyVal.str kv.2))

/-- First value at a key in a string-to-string mapping. -/
def lookupStr (ms : List (String × String)) (k : String) : Option String :=
  (ms.find? (fun kv => kv.1 = k)).map (fun kv => kv.2)

/-! Well-formedness of parsed JSON values: number tokens lie in the JSON
number grammar and object keys are distinct.  The parser only produces
well-formed values, and serialising a well-formed value parses back to it. -/

def ipShape (ip : List Char) : Prop :=
  ip = ['0'] ∨ ∃ d ds, ip = d :: ds ∧ ('1' ≤ d ∧ d ≤ '9') ∧ ∀ c ∈ ds, isDigit c = true

def digitsNE (ds : List Char) : Prop := ds ≠ [] ∧ ∀ c ∈ ds, isDigit c = true

def fpShape (fp : List Char) : Prop := fp = [] ∨ ∃ ds, fp = '.' :: ds ∧ digitsNE ds

def epShape (ep : List Char) : Prop :=
  ep = [] ∨ ∃ e sg ds, (e = 'e' ∨ e = 'E') ∧ (sg = [] ∨ sg = ['+'] ∨ sg = ['-']) ∧
    digitsNE ds ∧ ep = e :: (sg ++ ds)

def numShape (t : List Char) : Prop :=
  ∃ sg ip fp ep, (sg = [] ∨ sg = ['-']) ∧ ipShape ip ∧ fpShape fp ∧ epShape ep ∧
    t = sg ++ ip ++ fp ++ ep

inductive JWF : JVal → Prop where
  | null : JWF JVal.null
  | bool (b : Bool) : JWF (JVal.bool b)
  | num (t : String) : numShape t.data → JWF (JVal.num t)
  | str (s : String) : JWF (JVal.str s)
  | arr (l : List JVal) : (∀ v ∈ l, JWF v) → JWF (JVal.arr l)
  | obj (l : List (String × JVal)) : List.Pairwise (fun a b => a.1 ≠ b.1) l →
      (∀ kv ∈ l, JWF kv.2) → JWF (JVal.obj l)

/-- A remainder that cannot extend a just-parsed number token. -/
def noNumExt : List Char → Prop
  | [] => True
  | c :: _ => isDigit c = false ∧ c ≠ '.' ∧ c ≠ 'E' ∧ c ≠ 'e'

/-- Shape of the remainder the JSON parser leaves when its number scanner
stopped earlier than Python's would: a digit or a dot, which no JSON
continuation accepts after a value. -/
def badTail : List Char → Prop
  | [] => False
  | c :: _ => c = '.' ∨ isDigit c = true

/-! ## Concrete fixtures used by the witnesses -/

def envAll : Env :=
  ⟨some "k", some "cx", some "cid", some "csec", some "gtok", some "ctok"⟩

def envNone : Env := ⟨none, none, none, none, none, none⟩

def sendResultOK : MimeMsg → Except String (Option String) :=
  fun _ => Except.ok (some "mid123")

def insertResultOK : EventBody → Except String CalInsertResp :=
  fun _ => Except.ok (CalInsertResp.withId "evt1")

def gmailOracleEmpty : GmailListOracle :=
  ⟨Except.ok [], fun _ => Except.error "unused"⟩

/-- Holds of the strings the catch-all `except Exception` handler
produces: `"Error:"` followed by anything (the code writes `"Error: "` with
a space everywhere except in `calculator`). -/
def errPrefixed (s : String) : Prop := ∃ t, s = "Error:" ++ t

/-! ## Utility lemmas -/

theorem skipWs_cons_not {c : Char} {r : List Char} (h : isWs c = false) :
    skipWs (c :: r) = c :: r := by
  simp [skipWs, h]

theorem skipWs_shape (cs : List Char) :
    skipWs cs = [] ∨ ∃ c r, skipWs cs = c :: r ∧ isWs c = false := by
  induction cs with
  | nil => exact Or.inl rfl
  | cons c r ih =>
    by_cases h : isWs c = true
    · rw [show skipWs (c :: r) = skipWs r by simp [skipWs, h]]
      exact ih
    · exact Or.inr ⟨c, r, by simp [skipWs, h], by simpa using h⟩

theorem skipWs_idem (cs : List Char) : skipWs (skipWs cs) = skipWs cs := by
  rcases skipWs_shape cs with h | ⟨c, r, h, hw⟩
  · rw [h]; rfl
  · rw [h, skipWs_cons_not hw]

theorem skipWs_suffix (cs : List Char) : skipWs cs <:+ cs := by
  induction cs with
  | nil => exact List.suffix_rfl
  | cons c r ih =>
    by_cases h : isWs c = true
    · rw [show skipWs (c :: r) = skipWs r by simp [skipWs, h]]
      exact ih.trans (List.suffix_cons c r)
    · rw [skipWs_cons_not (by simpa using h)]

theorem noBS_tail {c : Char} {r : List Char} (h : noBS (c :: r) = true) :
    noBS r = true := by
  match r with
  | [] => rfl
  | b :: t =>
    simp only [noBS, Bool.and_eq_true] at h
    exact h.2

theorem noBS_append {l r : List Char} (h : noBS (l ++ r) = true) : noBS r = true := by
  induction l with
  | nil => exact h
  | cons c t ih => exact ih (noBS_tail h)

theorem noBS_suffix {r cs : List Char} (hs : r <:+ cs) (h : noBS cs = true) :
    noBS r = true := by
  obtain ⟨l, rfl⟩ := hs
  exact noBS_append h

theorem takeDigits_eq (cs : List Char) :
    cs = (takeDigits cs).1 ++ (takeDigits cs).2 ∧
    (∀ c ∈ (takeDigits cs).1, isDigit c = true) ∧
    (∀ c r, (takeDigits cs).2 = c :: r → isDigit c = false) := by
  induction cs with
  | nil => exact ⟨rfl, by simp [takeDigits], by simp [takeDigits]⟩
  | cons c t ih =>
    by_cases h : isDigit c = true
    · have h1 : takeDigits (c :: t) = (c :: (takeDigits t).1, (takeDigits t).2) := by
        simp [takeDigits, h]
      refine ⟨?_, ?_, ?_⟩
      · rw [h1]; simpa using ih.1
      · rw [h1]
        intro x hx
        rcases List.mem_cons.1 hx with rfl | hx
        · exact h
        · exact ih.2.1 x hx
      · rw [h1]; exact ih.2.2
    · have h1 : takeDigits (c :: t) = ([], c :: t) := by
        simp [takeDigits, h]
      refine ⟨by simp [h1], by rw [h1]; simp, ?_⟩
      rw [h1]
      intro x r hx
      cases hx
      simpa using h

theorem takeDigits_digit {c : Char} (r0 : List Char) (h : isDigit c = true) :
    takeDigits (c :: r0) = (c :: (takeDigits r0).1, (takeDigits r0).2) := by
  simp [takeDigits, h]

theorem takeDigits_stop {c : Char} (r0 : List Char) (h : isDigit c = false) :
    takeDigits (c :: r0) = ([], c :: r0) := by
  simp [takeDigits, h]

/-- A digit run followed by a non-extending remainder is consumed whole. -/
theorem takeDigits_run {ds : List Char} (hds : ∀ c ∈ ds, isDigit c = true) {r : List Char}
    (hr : ∀ c t, r = c :: t → isDigit c = false) :
    takeDigits (ds ++ r) = (ds, r) := by
  induction ds with
  | nil =>
    match r, hr with
    | [], _ => rfl
    | c :: t, hr => simpa using takeDigits_stop t (hr c t rfl)
  | cons c t ih =>
    rw [List.cons_append, takeDigits_digit _ (hds c (by simp)),
      ih (fun x hx => hds x (by simp [hx]))]

theorem digit_not_ws {c : Char} (h : isDigit c = true) : isWs c = false := by
  by_contra hw
  rw [Bool.not_eq_false] at hw
  simp only [isWs, Bool.or_eq_true, decide_eq_true_eq] at hw
  rcases hw with ((rfl | rfl) | rfl) | rfl <;> exact absurd h (by decide)

/-! ## The string scanner consumes a prefix -/

theorem jLowDec_suffix : ∀ {n : Nat} {cs : List Char} {ch : Char} {r2 : List Char},
    jLowDec n cs = some (ch, r2) → r2 <:+ cs
  | n, [], ch, r2, h => by simp [jLowDec] at h
  | n, [x1], ch, r2, h => by simp [jLowDec] at h
  | n, [x1, x2], ch, r2, h => by simp [jLowDec] at h
  | n, [x1, x2, x3], ch, r2, h => by simp [jLowDec] at h
  | n, [x1, x2, x3, x4], ch, r2, h => by simp [jLowDec] at h
  | n, [x1, x2, x3, x4, x5], ch, r2, h => by simp [jLowDec] at h
  | n, b2 :: u2 :: g1 :: g2 :: g3 :: g4 :: r4, ch, r2, h => by
    simp only [jLowDec] at h
    by_cases hbu : b2 = '\\' ∧ u2 = 'u'
    · rw [if_pos hbu] at h
      cases hh2 : hex4 g1 g2 g3 g4 with
      | none => rw [hh2] at h; simp at h
      | some m =>
        rw [hh2] at h
        simp only [] at h
        by_cases hm : 0xdc00 ≤ m ∧ m < 0xe000
        · rw [if_pos hm] at h
          cases hsc : scalar? (0x10000 + (n - 0xd800) * 0x400 + (m - 0xdc00)) with
          | none => rw [hsc] at h; simp at h
          | some c0 =>
            rw [hsc] at h
            simp only [Option.some.injEq, Prod.mk.injEq] at h
            rw [← h.2]
            exact ⟨[b2, u2, g1, g2, g3, g4], rfl⟩
        · rw [if_neg hm] at h
          simp at h
    · rw [if_neg hbu] at h
      simp at h

theorem jUDec_suffix : ∀ {cs : List Char} {ch : Char} {r2 : List Char},
    jUDec cs = some (ch, r2) → r2 <:+ cs
  | [], ch, r2, h => by simp [jUDec] at h
  | [x1], ch, r2, h => by simp [jUDec] at h
  | [x1, x2], ch, r2, h => by simp [jUDec] at h
  | [x1, x2, x3], ch, r2, h => by simp [jUDec] at h
  | a1 :: a2 :: a3 :: a4 :: r3, ch, r2, h => by
    simp only [jUDec] at h
    cases hhex : hex4 a1 a2 a3 a4 with
    | none => rw [hhex] at h; simp at h
    | some n =>
      rw [hhex] at h
      simp only [] at h
      by_cases hr : n < 0xd800 ∨ 0xe000 ≤ n
      · rw [if_pos hr] at h
        cases hsc : scalar? n with
        | none => rw [hsc] at h; simp at h
        | some c0 =>
          rw [hsc] at h
          simp only [Option.some.injEq, Prod.mk.injEq] at h
          rw [← h.2]
          exact ⟨[a1, a2, a3, a4], rfl⟩
      · rw [if_neg hr] at h
        by_cases hn2 : n < 0xdc00
        · rw [if_pos hn2] at h
          exact (jLowDec_suffix h).trans ⟨[a1, a2, a3, a4], rfl⟩
        · rw [if_neg hn2] at h
          simp at h

theorem jEscDec_suffix : ∀ {cs : List Char} {ch : Char} {r2 : List Char},
    jEscDec cs = some (ch, r2) → r2 <:+ cs
  | [], ch, r2, h => by simp [jEscDec] at h
  | e :: r3, ch, r2, h => by
    simp only [jEscDec] at h
    by_cases hu : e = 'u'
    · rw [if_pos hu] at h
      exact (jUDec_suffix h).trans (List.suffix_cons e r3)
    · rw [if_neg hu] at h
      cases hje : jEsc1 e with
      | none => rw [hje] at h; simp at h
      | some c0 =>
        rw [hje] at h
        simp only [Option.some.injEq, Prod.mk.injEq] at h
        rw [← h.2]
        exact List.suffix_cons e r3

theorem jStrAux_suffix : ∀ (f : Nat) (acc cs : List Char) (s : String) (r : List Char),
    jStrAux f acc cs = some (s, r) → r <:+ cs
  | 0, acc, cs, s, r, h => by simp [jStrAux] at h
  | f + 1, acc, [], s, r, h => by simp [jStrAux] at h
  | f + 1, acc, c :: cs, s, r, h => by
    simp only [jStrAux] at h
    by_cases hq : c = '"'
    · rw [if_pos hq] at h
      simp only [Option.some.injEq, Prod.mk.injEq] at h
      rw [← h.2]
      exact List.suffix_cons c cs
    · rw [if_neg hq] at h
      by_cases hbs : c = '\\'
      · rw [if_pos hbs] at h
        cases hd : jEscDec cs with
        | none => rw [hd] at h; simp at h
        | some p =>
          obtain ⟨ch, r2⟩ := p
          rw [hd] at h
          have h2 : jStrAux f (ch :: acc) r2 = some (s, r) := h
          exact ((jStrAux_suffix f (ch :: acc) r2 s r h2).trans (jEscDec_suffix hd)).trans
            (List.suffix_cons c cs)
      · by_cases hlt : c.toNat < 0x20
        · rw [if_neg hbs, if_pos hlt] at h
          simp at h
        · rw [if_neg hbs, if_neg hlt] at h
          exact (jStrAux_suffix f (c :: acc) cs s r h).trans (List.suffix_cons c cs)

/-! ## Agreement of the two string scanners -/

theorem hexVal_lt {c : Char} {n : Nat} (h : hexVal c = some n) : n < 16 := by
  unfold hexVal at h
  split_ifs at h with g1 g2 g3 <;> (injection h with h; omega)

theorem hex4_lt {h1 h2 h3 h4 : Char} {n : Nat} (h : hex4 h1 h2 h3 h4 = some n) :
    n < 0x10000 := by
  unfold hex4 at h
  simp only [bind, Option.bind] at h
  cases e1 : hexVal h1 with
  | none => rw [e1] at h; exact absurd h (by simp)
  | some v1 =>
    rw [e1] at h
    cases e2 : hexVal h2 with
    | none => rw [e2] at h; exact absurd h (by simp)
    | some v2 =>
      rw [e2] at h
      cases e3 : hexVal h3 with
      | none => rw [e3] at h; exact absurd h (by simp)
      | some v3 =>
        rw [e3] at h
        cases e4 : hexVal h4 with
        | none => rw [e4] at h; exact absurd h (by simp)
        | some v4 =>
          rw [e4] at h
          simp only [pure, Option.some.injEq] at h
          have l1 := hexVal_lt e1
          have l2 := hexVal_lt e2
          have l3 := hexVal_lt e3
          have l4 := hexVal_lt e4
          omega

theorem scalar?_some {n : Nat} {ch : Char} (h : scalar? n = some ch) :
    (n < 0xd800 ∨ 0xe000 ≤ n) ∧ ch = Char.ofNat n := by
  unfold scalar? at h
  split_ifs at h with hc
  refine ⟨?_, ?_⟩
  · rcases hc with h1 | ⟨h1, h2⟩
    · exact Or.inl h1
    · exact Or.inr h1
  · injection h with h2
    exact h2.symm

theorem pStrU_inv : ∀ {acc cs : List Char} {sb : String} {rb : List Char},
    pStrU '"' acc cs = some (sb, rb) →
    ∃ a1 a2 a3 a4 r3 n ch, cs = a1 :: a2 :: a3 :: a4 :: r3 ∧
      hex4 a1 a2 a3 a4 = some n ∧ scalar? n = some ch ∧
      pStrAux '"' (ch :: acc) r3 = some (sb, rb)
  | acc, [], sb, rb, hp => by simp [pStrU] at hp
  | acc, [x1], sb, rb, hp => by simp [pStrU] at hp
  | acc, [x1, x2], sb, rb, hp => by simp [pStrU] at hp
  | acc, [x1, x2, x3], sb, rb, hp => by simp [pStrU] at hp
  | acc, a1 :: a2 :: a3 :: a4 :: r3, sb, rb, hp => by
    cases hhex : hex4 a1 a2 a3 a4 with
    | none => simp [pStrU, hhex] at hp
    | some n =>
      simp only [pStrU, hhex] at hp
      cases hsc : scalar? n with
      | none => rw [hsc] at hp; exact absurd hp (by simp)
      | some ch =>
        rw [hsc] at hp
        exact ⟨a1, a2, a3, a4, r3, n, ch, rfl, hhex, hsc, hp⟩

/-- If both escape decoders accept after a backslash, the Python scanner
continues exactly from the character the JSON decoder produced; the `noBS`
hypothesis rules out the divergent `\/` escape. -/
theorem jpEscDec_agree {acc cs : List Char} {sb : String} {rb : List Char}
    {ch : Char} {r2 : List Char}
    (hj : jEscDec cs = some (ch, r2)) (hp : pStrEsc '"' acc cs = some (sb, rb))
    (hb : noBS ('\\' :: cs) = true) :
    pStrAux '"' (ch :: acc) r2 = some (sb, rb) := by
  match cs, hj, hp with
  | [], hj, hp => simp [jEscDec] at hj
  | e :: r3, hj, hp =>
    by_cases hu : e = 'u'
    · subst hu
      simp only [jEscDec, eq_self_iff_true, ite_true] at hj
      simp only [pStrEsc, eq_self_iff_true, ite_true] at hp
      obtain ⟨a1, a2, a3, a4, r4, n, ch2, rfl, hhex, hsc, hcont⟩ := pStrU_inv hp
      have hr : n < 0xd800 ∨ 0xe000 ≤ n := (scalar?_some hsc).1
      have hud : jUDec (a1 :: a2 :: a3 :: a4 :: r4) = some (ch2, r4) := by
        simp only [jUDec, hhex]
        rw [if_pos hr]
        simp [hsc]
      rw [hud] at hj
      simp only [Option.some.injEq, Prod.mk.injEq] at hj
      rw [← hj.1, ← hj.2]
      exact hcont
    · simp only [jEscDec, if_neg hu] at hj
      simp only [pStrEsc, if_neg hu] at hp
      cases hje : jEsc1 e with
      | none => rw [hje] at hj; exact absurd hj (by simp)
      | some c0 =>
        rw [hje] at hj
        simp only [Option.some.injEq, Prod.mk.injEq] at hj
        obtain ⟨rfl, rfl⟩ := hj
        unfold jEsc1 at hje
        split_ifs at hje with e1 e2 e3 e4 e5 e6 e7 e8
        · subst e1
          injection hje with hch
          subst hch
          simp only [pEsc1] at hp
          exact hp
        · subst e2
          injection hje with hch
          subst hch
          simp only [pEsc1] at hp
          exact hp
        · -- `\/`: CPython keeps the backslash; excluded by `noBS`
          subst e3
          exact absurd hb (by simp [noBS])
        · subst e4
          injection hje with hch
          subst hch
          simp only [pEsc1] at hp
          exact hp
        · subst e5
          injection hje with hch
          subst hch
          simp only [pEsc1] at hp
          exact hp
        · subst e6
          injection hje with hch
          subst hch
          simp only [pEsc1] at hp
          exact hp
        · subst e7
          injection hje with hch
          subst hch
          simp only [pEsc1] at hp
          exact hp
        · subst e8
          injection hje with hch
          subst hch
          simp only [pEsc1] at hp
          exact hp

theorem jpStr_agree :
    ∀ (f : Nat) (acc cs : List Char) (sa sb : String) (ra rb : List Char),
      jStrAux f acc cs = some (sa, ra) → pStrAux '"' acc cs = some (sb, rb) →
      noBS cs = true → sa = sb ∧ ra = rb
  | 0, acc, cs, sa, sb, ra, rb, hj, hp, hb => by simp [jStrAux] at hj
  | f + 1, acc, [], sa, sb, ra, rb, hj, hp, hb => by simp [jStrAux] at hj
  | f + 1, acc, c :: r, sa, sb, ra, rb, hj, hp, hb => by
    simp only [jStrAux] at hj
    by_cases hq : c = '"'
    · subst hq
      simp only [eq_self_iff_true, ite_true, Option.some.injEq, Prod.mk.injEq] at hj
      simp only [pStrAux, eq_self_iff_true, ite_true, Option.some.injEq,
        Prod.mk.injEq] at hp
      exact ⟨hj.1 ▸ hp.1 ▸ rfl, hj.2 ▸ hp.2 ▸ rfl⟩
    · rw [if_neg hq] at hj
      by_cases hbs : c = '\\'
      · subst hbs
        simp only [eq_self_iff_true, ite_true] at hj
        simp only [pStrAux, if_neg hq, eq_self_iff_true, ite_true] at hp
        cases hd : jEscDec r with
        | none => rw [hd] at hj; exact absurd hj (by simp)
        | some p =>
          obtain ⟨ch, r2⟩ := p
          rw [hd] at hj
          have hj2 : jStrAux f (ch :: acc) r2 = some (sa, ra) := hj
          have hp2 : pStrAux '"' (ch :: acc) r2 = some (sb, rb) :=
            jpEscDec_agree hd hp hb
          have hbr2 : noBS r2 = true := noBS_suffix (jEscDec_suffix hd) (noBS_tail hb)
          exact jpStr_agree f (ch :: acc) r2 sa sb ra rb hj2 hp2 hbr2
      · by_cases hlt : c.toNat < 0x20
        · rw [if_neg hbs, if_pos hlt] at hj
          exact absurd hj (by simp)
        · rw [if_neg hbs, if_neg hlt] at hj
          have hnl : ¬(c = '\n' ∨ c = '\x0d') := by
            rintro (rfl | rfl) <;> exact hlt (by decide)
          simp only [pStrAux, if_neg hq, if_neg hbs, if_neg hnl] at hp
          exact jpStr_agree f (c :: acc) r sa sb ra rb hj hp (noBS_tail hb)

/-! ## Agreement of the two number scanners -/

theorem isDigit_toNat {c : Char} (h : isDigit c = true) : 48 ≤ c.toNat ∧ c.toNat ≤ 57 := by
  simpa [isDigit, Bool.and_eq_true, decide_eq_true_eq] using h

theorem digit_ne_dot {c : Char} (h : isDigit c = true) : c ≠ '.' := fun hc => by
  rw [hc] at h
  exact absurd h (by decide)

theorem digit_ne_e {c : Char} (h : isDigit c = true) : c ≠ 'e' ∧ c ≠ 'E' :=
  ⟨fun hc => by rw [hc] at h; exact absurd h (by decide),
   fun hc => by rw [hc] at h; exact absurd h (by decide)⟩

theorem pExpPart_eq_jExp : ∀ {r : List Char} {p : List Char × List Char},
    pExpPart r = some p → jExp r = p
  | [], p, h => by
    simp only [pExpPart, Option.some.injEq] at h
    simpa [jExp] using h
  | [e], p, h => by
    by_cases he : e = 'e' ∨ e = 'E'
    · simp [pExpPart, if_pos he] at h
    · simp only [pExpPart, if_neg he, Option.some.injEq] at h
      rw [← h]
      simp [jExp, if_neg he]
  | e :: sg :: rr2, p, h => by
    by_cases he : e = 'e' ∨ e = 'E'
    · simp only [pExpPart, if_pos he] at h
      by_cases hs : sg = '+' ∨ sg = '-'
      · rw [if_pos hs] at h
        by_cases hd : (takeDigits rr2).1 = []
        · rw [if_pos hd] at h
          exact Option.noConfusion h
        · rw [if_neg hd] at h
          simp only [Option.some.injEq] at h
          rw [← h]
          simp [jExp, if_pos he, if_pos hs, hd]
      · rw [if_neg hs] at h
        by_cases hd : (takeDigits (sg :: rr2)).1 = []
        · rw [if_pos hd] at h
          exact Option.noConfusion h
        · rw [if_neg hd] at h
          simp only [Option.some.injEq] at h
          rw [← h]
          simp [jExp, if_pos he, if_neg hs, hd]
    · simp only [pExpPart, if_neg he, Option.some.injEq] at h
      rw [← h]
      simp [jExp, if_neg he]

theorem jpAfterDigits_agree :
    ∀ (ds r' : List Char) (tp rp : List Char),
      (∀ d rr, r' = d :: rr → isDigit d = false) →
      pAfterDigits ds r' = some (tp, rp) →
      jFracExp ds r' = (tp, rp) ∨ badTail (jFracExp ds r').2
  | ds, [], tp, rp, _, hp => by
    simp only [pAfterDigits] at hp
    split_ifs at hp
    simp only [Option.some.injEq, Prod.mk.injEq] at hp
    obtain ⟨rfl, rfl⟩ := hp
    exact Or.inl (by simp [jFracExp, jFrac, jExp])
  | ds, d :: r2, tp, rp, hnd, hp => by
    have hdnd : isDigit d = false := hnd d r2 rfl
    by_cases hdot : d = '.'
    · subst hdot
      by_cases hpf : (takeDigits r2).1 = []
      · -- Python accepts a bare trailing dot; JSON stops before it
        refine Or.inr ?_
        simp [jFracExp, jFrac, jExp, hpf, badTail]
      · simp only [pAfterDigits, eq_self_iff_true, ite_true] at hp
        cases hq : pExpPart (takeDigits r2).2 with
        | none => rw [hq] at hp; exact absurd hp (by simp)
        | some q =>
          rw [hq] at hp
          simp only [Option.map_some', Option.some.injEq, Prod.mk.injEq] at hp
          have hje := pExpPart_eq_jExp hq
          refine Or.inl ?_
          rw [← hp.1, ← hp.2]
          simp [jFracExp, jFrac, hpf, hje]
    · simp only [pAfterDigits, if_neg hdot] at hp
      cases hq : pExpPart (d :: r2) with
      | none =>
        rw [hq] at hp
        have hp2 : (none : Option (List Char × List Char)) = some (tp, rp) := hp
        exact Option.noConfusion hp2
      | some q =>
        rw [hq] at hp
        have hje := pExpPart_eq_jExp hq
        match q, hp, hje with
        | ([], r3), hp, hje =>
          have hp2 : (if intOK ds then some (ds, r3) else none) = some (tp, rp) := hp
          split_ifs at hp2
          simp only [Option.some.injEq, Prod.mk.injEq] at hp2
          obtain ⟨rfl, rfl⟩ := hp2
          refine Or.inl ?_
          simp [jFracExp, jFrac, hdot, hje]
        | (e1 :: es, r3), hp, hje =>
          have hp2 : some (ds ++ e1 :: es, r3) = some (tp, rp) := hp
          simp only [Option.some.injEq, Prod.mk.injEq] at hp2
          obtain ⟨rfl, rfl⟩ := hp2
          refine Or.inl ?_
          simp [jFracExp, jFrac, hdot, hje]

theorem jpNumBody_agree :
    ∀ (cs : List Char) (tj rj tp rp : List Char),
      jNumBody cs = some (tj, rj) → pNumBody cs = some (tp, rp) →
      (tj = tp ∧ rj = rp) ∨ badTail rj
  | [], tj, rj, tp, rp, hj, hp => by simp [jNumBody] at hj
  | c :: r, tj, rj, tp, rp, hj, hp => by
    have htd := takeDigits_eq r
    by_cases h0 : c = '0'
    · subst h0
      simp only [jNumBody, eq_self_iff_true, ite_true, Option.some.injEq] at hj
      rcases hds : (takeDigits r).1 with _ | ⟨d0, ds'⟩
      · -- no digit follows the zero: both scanners continue from `r`
        have hr2 : (takeDigits r).2 = r := by
          have h1 := htd.1
          rw [hds] at h1
          simpa using h1.symm
        have htk : takeDigits ('0' :: r) = ('0' :: (takeDigits r).1, (takeDigits r).2) :=
          takeDigits_digit r (by decide)
        simp only [pNumBody, htk, hds, hr2] at hp
        rcases jpAfterDigits_agree ['0'] r tp rp
            (fun d rr hdr => htd.2.2 d rr (by rw [hr2]; exact hdr)) hp with h | h
        · rw [h] at hj
          rw [Prod.mk.injEq] at hj
          exact Or.inl ⟨hj.1.symm, hj.2.symm⟩
        · rw [hj] at h
          exact Or.inr h
      · -- a digit follows the leading zero: JSON stops right after `0`
        have hd0 : isDigit d0 = true := htd.2.1 d0 (by rw [hds]; exact List.mem_cons_self ..)
        have hr' : r = d0 :: (ds' ++ (takeDigits r).2) := by
          have h1 := htd.1
          rw [hds] at h1
          simpa using h1
        have hfe : jFracExp ['0'] r = (['0'], r) := by
          rw [hr']
          simp [jFracExp, jFrac, jExp, digit_ne_dot hd0, (digit_ne_e hd0).1,
            (digit_ne_e hd0).2]
        rw [hfe] at hj
        rw [Prod.mk.injEq] at hj
        refine Or.inr ?_
        rw [← hj.2, hr']
        exact Or.inr hd0
    · by_cases hdig : isDigit c = true
      · simp only [jNumBody, if_neg h0, if_pos hdig, Option.some.injEq] at hj
        simp only [pNumBody, takeDigits_digit r hdig] at hp
        rcases jpAfterDigits_agree (c :: (takeDigits r).1) (takeDigits r).2 tp rp
            htd.2.2 hp with h | h
        · rw [h] at hj
          rw [Prod.mk.injEq] at hj
          exact Or.inl ⟨hj.1.symm, hj.2.symm⟩
        · rw [hj] at h
          exact Or.inr h
      · simp [jNumBody, h0, hdig] at hj

theorem jNumBody_head : ∀ {cs : List Char} {p : List Char × List Char},
    jNumBody cs = some p → ∃ c r, cs = c :: r ∧ isDigit c = true
  | [], p, h => by simp [jNumBody] at h
  | c :: r, p, h => by
    by_cases h0 : c = '0'
    · exact ⟨c, r, rfl, by subst h0; decide⟩
    · by_cases hd : isDigit c = true
      · exact ⟨c, r, rfl, hd⟩
      · simp [jNumBody, h0, hd] at h

theorem jpNum_agree :
    ∀ (cs : List Char) (tj rj tp rp : List Char),
      jNum cs = some (tj, rj) → pNum cs = some (tp, rp) →
      (tj = tp ∧ rj = rp) ∨ badTail rj
  | [], tj, rj, tp, rp, hj, hp => by simp [jNum] at hj
  | c :: r, tj, rj, tp, rp, hj, hp => by
    by_cases hm : c = '-'
    · subst hm
      simp only [jNum, eq_self_iff_true, ite_true] at hj
      simp only [pNum, eq_self_iff_true, ite_true] at hp
      cases hjb : jNumBody r with
      | none => rw [hjb] at hj; exact absurd hj (by simp)
      | some pj =>
        rw [hjb] at hj
        obtain ⟨c2, r2, rfl, hd2⟩ := jNumBody_head hjb
        rw [skipWs_cons_not (digit_not_ws hd2)] at hp
        cases hpb : pNumBody (c2 :: r2) with
        | none => rw [hpb] at hp; exact absurd hp (by simp)
        | some pp =>
          rw [hpb] at hp
          simp only [Option.map_some', Option.some.injEq, Prod.mk.injEq] at hj hp
          rcases jpNumBody_agree (c2 :: r2) pj.1 pj.2 pp.1 pp.2 (by simpa using hjb)
              (by simpa using hpb) with ⟨h1, h2⟩ | hbt
          · exact Or.inl ⟨by rw [← hj.1, ← hp.1, h1], by rw [← hj.2, ← hp.2, h2]⟩
          · rw [← hj.2]
            exact Or.inr hbt
    · by_cases hpl : c = '+'
      · subst hpl
        rw [show jNum ('+' :: r) = none from rfl] at hj
        exact Option.noConfusion hj
      · simp only [jNum, if_neg hm] at hj
        simp only [pNum, if_neg hm, if_neg hpl] at hp
        exact jpNumBody_agree (c :: r) tj rj tp rp hj hp

/-! ## Number-token shape: soundness of `jNum` and re-parse -/

theorem char_le_toNat {a b : Char} : a ≤ b ↔ a.toNat ≤ b.toNat := Iff.rfl

theorem char_toNat_inj {a b : Char} (h : a.toNat = b.toNat) : a = b :=
  Char.ext (UInt32.ext h)

theorem isDigit_of_toNat {c : Char} (h1 : 48 ≤ c.toNat) (h2 : c.toNat ≤ 57) :
    isDigit c = true := by
  simp only [isDigit, Bool.and_eq_true, decide_eq_true_eq]
  exact ⟨h1, h2⟩

theorem digit_ne_char {c : Char} (h : isDigit c = true) {x : Char}
    (hx : x.toNat < 48 ∨ 57 < x.toNat) : c ≠ x := by
  intro hc
  obtain ⟨h1, h2⟩ := isDigit_toNat h
  rw [hc] at h1 h2
  omega

theorem noNumExt_head {ext : List Char} (h : noNumExt ext) :
    ∀ c t, ext = c :: t → isDigit c = false ∧ c ≠ '.' ∧ c ≠ 'E' ∧ c ≠ 'e' := by
  intro c t he
  subst he
  exact h

theorem noNumExt_not_e {ext : List Char} (h : noNumExt ext) :
    ∀ c t, ext = c :: t → ¬(c = 'e' ∨ c = 'E') := by
  intro c t he hor
  obtain ⟨_, _, h1, h2⟩ := noNumExt_head h c t he
  rcases hor with hc | hc
  · exact h2 hc
  · exact h1 hc

theorem jFrac_fpShape (cs : List Char) : fpShape (jFrac cs).1 := by
  cases cs with
  | nil => exact Or.inl rfl
  | cons d rr =>
    by_cases hd : d = '.'
    · subst hd
      by_cases hp1 : (takeDigits rr).1 = []
      · exact Or.inl (by simp [jFrac, hp1])
      · exact Or.inr ⟨(takeDigits rr).1, by simp [jFrac, hp1], hp1, (takeDigits_eq rr).2.1⟩
    · exact Or.inl (by simp [jFrac, hd])

theorem jExp_epShape (cs : List Char) : epShape (jExp cs).1 := by
  cases cs with
  | nil => exact Or.inl rfl
  | cons e rr =>
    by_cases he : e = 'e' ∨ e = 'E'
    · cases rr with
      | nil => exact Or.inl (by simp [jExp, if_pos he])
      | cons sg rr2 =>
        by_cases hs : sg = '+' ∨ sg = '-'
        · by_cases hp1 : (takeDigits rr2).1 = []
          · exact Or.inl (by simp [jExp, if_pos he, if_pos hs, hp1])
          · refine Or.inr ⟨e, [sg], (takeDigits rr2).1, he, ?_,
              ⟨hp1, (takeDigits_eq rr2).2.1⟩, ?_⟩
            · rcases hs with rfl | rfl
              · exact Or.inr (Or.inl rfl)
              · exact Or.inr (Or.inr rfl)
            · simp [jExp, if_pos he, if_pos hs, hp1]
        · by_cases hp1 : (takeDigits (sg :: rr2)).1 = []
          · exact Or.inl (by simp [jExp, if_pos he, if_neg hs, hp1])
          · refine Or.inr ⟨e, [], (takeDigits (sg :: rr2)).1, he, Or.inl rfl,
              ⟨hp1, (takeDigits_eq (sg :: rr2)).2.1⟩, ?_⟩
            simp [jExp, if_pos he, if_neg hs, hp1]
    · exact Or.inl (by simp [jExp, if_neg he])

theorem jFrac_replay_empty {X : List Char} (hX : ∀ c t, X = c :: t → c ≠ '.') :
    jFrac X = ([], X) := by
  cases X with
  | nil => rfl
  | cons c t => simp [jFrac, if_neg (hX c t rfl)]

theorem jExp_replay_empty {X : List Char} (hX : ∀ c t, X = c :: t → ¬(c = 'e' ∨ c = 'E')) :
    jExp X = ([], X) := by
  cases X with
  | nil => rfl
  | cons c t => simp [jExp, if_neg (hX c t rfl)]

theorem jFrac_replay {ds X : List Char} (hne : ds ≠ []) (hds : ∀ c ∈ ds, isDigit c = true)
    (hX : ∀ c t, X = c :: t → isDigit c = false) :
    jFrac ('.' :: (ds ++ X)) = ('.' :: ds, X) := by
  simp only [jFrac, eq_self_iff_true, ite_true, takeDigits_run hds hX]
  simp [hne]

theorem ep_ext_head {ep : List Char} (hep : epShape ep) {ext : List Char}
    (hext : noNumExt ext) :
    ∀ c t, ep ++ ext = c :: t → isDigit c = false ∧ c ≠ '.' := by
  intro c t h
  rcases hep with rfl | ⟨e, sg, ds, he, hsg, hds, rfl⟩
  · rw [List.nil_append] at h
    obtain ⟨h1, h2, _, _⟩ := noNumExt_head hext c t h
    exact ⟨h1, h2⟩
  · rw [List.cons_append] at h
    injection h with h1 _
    subst h1
    rcases he with rfl | rfl
    · exact ⟨by decide, by decide⟩
    · exact ⟨by decide, by decide⟩

theorem jExp_replay_ep {ep : List Char} (hep : epShape ep) {ext : List Char}
    (hext : noNumExt ext) : jExp (ep ++ ext) = (ep, ext) := by
  rcases hep with rfl | ⟨e, sg, ds, he, hsg, hds, rfl⟩
  · rw [List.nil_append]
    exact jExp_replay_empty (noNumExt_not_e hext)
  · rw [List.cons_append]
    have hXd : ∀ c t, ext = c :: t → isDigit c = false :=
      fun c t hh => (noNumExt_head hext c t hh).1
    obtain ⟨hne, hdig⟩ := hds
    rcases hsg with rfl | rfl | rfl
    · cases ds with
      | nil => exact absurd rfl hne
      | cons d0 dt =>
        have hd0 : isDigit d0 = true := hdig d0 (by simp)
        have hpm : ¬(d0 = '+' ∨ d0 = '-') := by
          intro hor
          rcases hor with hc | hc <;> (rw [hc] at hd0; exact absurd hd0 (by decide))
        simp only [List.nil_append, List.cons_append]
        simp only [jExp, if_pos he, if_neg hpm]
        rw [show d0 :: (dt ++ ext) = (d0 :: dt) ++ ext from rfl, takeDigits_run hdig hXd]
        simp [hne]
    · simp only [List.cons_append, List.nil_append]
      simp only [jExp, if_pos he,
        if_pos (show ('+' : Char) = '+' ∨ ('+' : Char) = '-' from Or.inl rfl)]
      rw [takeDigits_run hdig hXd]
      simp [hne]
    · simp only [List.cons_append, List.nil_append]
      simp only [jExp, if_pos he,
        if_pos (show ('-' : Char) = '+' ∨ ('-' : Char) = '-' from Or.inr rfl)]
      rw [takeDigits_run hdig hXd]
      simp [hne]

theorem fp_ep_ext_head {fp ep : List Char} (hfp : fpShape fp) (hep : epShape ep)
    {ext : List Char} (hext : noNumExt ext) :
    ∀ c t, fp ++ (ep ++ ext) = c :: t → isDigit c = false := by
  intro c t h
  rcases hfp with rfl | ⟨ds, rfl, hds⟩
  · rw [List.nil_append] at h
    exact (ep_ext_head hep hext c t h).1
  · rw [List.cons_append] at h
    injection h with h1 _
    subst h1
    decide

theorem jFrac_replay_fp {fp ep : List Char} (hfp : fpShape fp) (hep : epShape ep)
    {ext : List Char} (hext : noNumExt ext) :
    jFrac (fp ++ (ep ++ ext)) = (fp, ep ++ ext) := by
  rcases hfp with rfl | ⟨ds, rfl, hne, hds⟩
  · rw [List.nil_append]
    exact jFrac_replay_empty (fun c t h => (ep_ext_head hep hext c t h).2)
  · rw [List.cons_append]
    exact jFrac_replay hne hds (fun c t h => (ep_ext_head hep hext c t h).1)

theorem jNumBody_replay {ip fp ep : List Char} (hip : ipShape ip) (hfp : fpShape fp)
    (hep : epShape ep) {ext : List Char} (hext : noNumExt ext) :
    jNumBody (ip ++ (fp ++ (ep ++ ext))) = some (ip ++ (fp ++ ep), ext) := by
  rcases hip with rfl | ⟨d, ds, rfl, ⟨hd1, hd9⟩, hds⟩
  · simp only [List.cons_append, List.nil_append]
    simp only [jNumBody, eq_self_iff_true, ite_true]
    simp only [jFracExp]
    rw [jFrac_replay_fp hfp hep hext]
    simp only []
    rw [jExp_replay_ep hep hext]
    simp
  · have g1 : 49 ≤ d.toNat := char_le_toNat.1 hd1
    have g9 : d.toNat ≤ 57 := char_le_toNat.1 hd9
    have hdd : isDigit d = true := isDigit_of_toNat (by omega) g9
    have hne0 : ¬(d = '0') := by
      intro h0
      rw [h0] at g1
      exact absurd g1 (by decide)
    simp only [List.cons_append]
    simp only [jNumBody, if_neg hne0, if_pos hdd]
    rw [show ds ++ (fp ++ (ep ++ ext)) = ds ++ (fp ++ (ep ++ ext)) from rfl,
      takeDigits_run hds (fp_ep_ext_head hfp hep hext)]
    simp only [jFracExp]
    rw [jFrac_replay_fp hfp hep hext]
    simp only []
    rw [jExp_replay_ep hep hext]
    simp

theorem jNum_replay {t : List Char} (h : numShape t) {ext : List Char}
    (hext : noNumExt ext) : jNum (t ++ ext) = some (t, ext) := by
  obtain ⟨sg, ip, fp, ep, hsg, hip, hfp, hep, rfl⟩ := h
  rcases hsg with rfl | rfl
  · simp only [List.nil_append, List.append_assoc]
    have hhead : ∃ d t2, ip = d :: t2 ∧ isDigit d = true := by
      rcases hip with rfl | ⟨d, ds, rfl, ⟨hd1, hd9⟩, _⟩
      · exact ⟨'0', [], rfl, by decide⟩
      · refine ⟨d, ds, rfl, ?_⟩
        have g1 : 49 ≤ d.toNat := char_le_toNat.1 hd1
        have g9 : d.toNat ≤ 57 := char_le_toNat.1 hd9
        exact isDigit_of_toNat (by omega) g9
    obtain ⟨d, t2, hip2, hd⟩ := hhead
    rw [hip2]
    simp only [List.cons_append, jNum]
    rw [if_neg (digit_ne_char hd (Or.inl (by decide)))]
    have := jNumBody_replay hip hfp hep hext
    rw [hip2] at this
    simpa using this
  · simp only [List.cons_append, List.nil_append, jNum, eq_self_iff_true, ite_true,
      List.append_assoc]
    rw [jNumBody_replay hip hfp hep hext]
    simp

theorem jNumBody_numShape : ∀ {cs tok rest : List Char},
    jNumBody cs = some (tok, rest) →
    ∃ ip fp ep, ipShape ip ∧ fpShape fp ∧ epShape ep ∧ tok = ip ++ (fp ++ ep)
  | [], tok, rest, h => by simp [jNumBody] at h
  | c :: r, tok, rest, h => by
    by_cases h0 : c = '0'
    · subst h0
      simp only [jNumBody, eq_self_iff_true, ite_true, Option.some.injEq] at h
      have h1 := congrArg Prod.fst h
      simp only [jFracExp] at h1
      refine ⟨['0'], (jFrac r).1, (jExp (jFrac r).2).1, Or.inl rfl, jFrac_fpShape r,
        jExp_epShape (jFrac r).2, ?_⟩
      rw [← h1]
      simp
    · by_cases hdig : isDigit c = true
      · simp only [jNumBody, if_neg h0, if_pos hdig, Option.some.injEq] at h
        have h1 := congrArg Prod.fst h
        simp only [jFracExp] at h1
        refine ⟨c :: (takeDigits r).1, (jFrac (takeDigits r).2).1,
          (jExp (jFrac (takeDigits r).2).2).1, ?_, jFrac_fpShape _, jExp_epShape _, ?_⟩
        · refine Or.inr ⟨c, (takeDigits r).1, rfl, ⟨?_, ?_⟩, (takeDigits_eq r).2.1⟩
          · apply char_le_toNat.2
            obtain ⟨g1, g2⟩ := isDigit_toNat hdig
            have hn : c.toNat ≠ 48 := fun hn => h0 (char_toNat_inj (by rw [hn]; rfl))
            show 49 ≤ c.toNat
            omega
          · apply char_le_toNat.2
            obtain ⟨g1, g2⟩ := isDigit_toNat hdig
            show c.toNat ≤ 57
            omega
        · rw [← h1]
          simp
      · simp [jNumBody, h0, hdig] at h

theorem jNum_numShape : ∀ {cs tok rest : List Char},
    jNum cs = some (tok, rest) → numShape tok
  | [], tok, rest, h => by simp [jNum] at h
  | c :: r, tok, rest, h => by
    by_cases hm : c = '-'
    · subst hm
      simp only [jNum, eq_self_iff_true, ite_true] at h
      cases hb : jNumBody r with
      | none => rw [hb] at h; exact absurd h (by simp)
      | some p =>
        rw [hb] at h
        simp only [Option.map_some', Option.some.injEq, Prod.mk.injEq] at h
        obtain ⟨ip, fp, ep, hip, hfp, hep, htok⟩ :=
          jNumBody_numShape (show jNumBody r = some (p.1, p.2) by simpa using hb)
        refine ⟨['-'], ip, fp, ep, Or.inr rfl, hip, hfp, hep, ?_⟩
        rw [← h.1, htok]
        simp
    · simp only [jNum, if_neg hm] at h
      obtain ⟨ip, fp, ep, hip, hfp, hep, htok⟩ := jNumBody_numShape h
      refine ⟨[], ip, fp, ep, Or.inl rfl, hip, hfp, hep, ?_⟩
      rw [htok]
      simp

/-! ## Dict deduplication: key distinctness and membership -/

theorem insertKV_mem {l : List (String × JVal)} {k : String} {v : JVal} :
    ∀ b ∈ insertKV l k v, b ∈ l ∨ b = (k, v) := by
  induction l with
  | nil =>
    intro b hb
    simp only [insertKV, List.mem_singleton] at hb
    exact Or.inr hb
  | cons kv0 t ih =>
    obtain ⟨k0, v0⟩ := kv0
    intro b hb
    by_cases hk : k0 = k
    · simp only [insertKV, if_pos hk] at hb
      rcases List.mem_cons.1 hb with rfl | hb2
      · exact Or.inr rfl
      · exact Or.inl (List.mem_cons_of_mem _ hb2)
    · simp only [insertKV, if_neg hk] at hb
      rcases List.mem_cons.1 hb with rfl | hb2
      · exact Or.inl (List.mem_cons_self ..)
      · rcases ih b hb2 with hc | hc
        · exact Or.inl (List.mem_cons_of_mem _ hc)
        · exact Or.inr hc

theorem insertKV_pairwise {l : List (String × JVal)}
    (h : List.Pairwise (fun a b => a.1 ≠ b.1) l) (k : String) (v : JVal) :
    List.Pairwise (fun a b => a.1 ≠ b.1) (insertKV l k v) := by
  induction l with
  | nil => simp [insertKV]
  | cons kv0 t ih =>
    obtain ⟨k0, v0⟩ := kv0
    rw [List.pairwise_cons] at h
    obtain ⟨h1, h2⟩ := h
    by_cases hk : k0 = k
    · simp only [insertKV, if_pos hk]
      rw [List.pairwise_cons]
      refine ⟨fun b hb => ?_, h2⟩
      have hb1 := h1 b hb
      rw [← hk]
      exact hb1
    · simp only [insertKV, if_neg hk]
      rw [List.pairwise_cons]
      constructor
      · intro b hb
        rcases insertKV_mem b hb with hcase | hcase
        · exact h1 b hcase
        · show k0 ≠ b.1
          rw [hcase]
          exact hk
      · exact ih h2

theorem dedup_aux_pairwise :
    ∀ (l acc : List (String × JVal)), List.Pairwise (fun a b => a.1 ≠ b.1) acc →
      List.Pairwise (fun a b => a.1 ≠ b.1)
        (l.foldl (fun a kv => insertKV a kv.1 kv.2) acc)
  | [], acc, h => h
  | kv :: t, acc, h => dedup_aux_pairwise t _ (insertKV_pairwise h kv.1 kv.2)

theorem dedupKV_pairwise (l : List (String × JVal)) :
    List.Pairwise (fun a b => a.1 ≠ b.1) (dedupKV l) :=
  dedup_aux_pairwise l [] List.Pairwise.nil

theorem dedup_aux_mem :
    ∀ (l acc : List (String × JVal)) (b : String × JVal),
      b ∈ l.foldl (fun a kv => insertKV a kv.1 kv.2) acc → b ∈ acc ∨ b ∈ l
  | [], acc, b, h => Or.inl h
  | kv :: t, acc, b, h => by
    rcases dedup_aux_mem t _ b h with h2 | h2
    · rcases insertKV_mem b h2 with h3 | h3
      · exact Or.inl h3
      · refine Or.inr ?_
        rw [h3]
        simpa using List.mem_cons_self kv t
    · exact Or.inr (List.mem_cons_of_mem _ h2)

theorem dedupKV_mem {l : List (String × JVal)} {b : String × JVal}
    (h : b ∈ dedupKV l) : b ∈ l := by
  rcases dedup_aux_mem l [] b h with h2 | h2
  · simp at h2
  · exact h2

theorem insertKV_append {l : List (String × JVal)} {k : String} {v : JVal}
    (h : ∀ b ∈ l, b.1 ≠ k) : insertKV l k v = l ++ [(k, v)] := by
  induction l with
  | nil => rfl
  | cons kv0 t ih =>
    obtain ⟨k0, v0⟩ := kv0
    have hk : ¬(k0 = k) := h (k0, v0) (List.mem_cons_self ..)
    simp only [insertKV, if_neg hk, List.cons_append]
    rw [ih (fun b hb => h b (List.mem_cons_of_mem _ hb))]

theorem dedup_aux_self :
    ∀ (l acc : List (String × JVal)),
      List.Pairwise (fun a b => a.1 ≠ b.1) (acc ++ l) →
      l.foldl (fun a kv => insertKV a kv.1 kv.2) acc = acc ++ l
  | [], acc, _ => by simp
  | kv :: t, acc, h => by
    show t.foldl _ (insertKV acc kv.1 kv.2) = acc ++ kv :: t
    have hne : ∀ b ∈ acc, b.1 ≠ kv.1 := by
      intro b hb
      exact (List.pairwise_append.1 h).2.2 b hb kv (List.mem_cons_self ..)
    rw [insertKV_append hne]
    have h2 : List.Pairwise (fun a b => a.1 ≠ b.1) ((acc ++ [(kv.1, kv.2)]) ++ t) := by
      simpa using h
    rw [dedup_aux_self t (acc ++ [(kv.1, kv.2)]) h2]
    simp

theorem dedupKV_self {l : List (String × JVal)}
    (h : List.Pairwise (fun a b => a.1 ≠ b.1) l) : dedupKV l = l := by
  have h2 := dedup_aux_self l [] (by simpa using h)
  simpa using h2

/-! ## The scanners consume a prefix: suffix lemmas -/

theorem expectChars_suffix : ∀ {xs cs r : List Char}, expectChars xs cs = some r → r <:+ cs
  | [], cs, r, h => by
    simp only [expectChars, Option.some.injEq] at h
    subst h
    exact List.suffix_rfl
  | _ :: _, [], r, h => by simp [expectChars] at h
  | x :: xs, c :: cs, r, h => by
    by_cases hc : c = x
    · simp only [expectChars, if_pos hc] at h
      exact (expectChars_suffix h).trans (List.suffix_cons c cs)
    · simp [expectChars, hc] at h

theorem takeDigits_suffix (cs : List Char) : (takeDigits cs).2 <:+ cs := by
  induction cs with
  | nil => exact List.suffix_rfl
  | cons c t ih =>
    by_cases h : isDigit c = true
    · rw [takeDigits_digit t h]
      exact ih.trans (List.suffix_cons c t)
    · rw [takeDigits_stop t (by simpa using h)]

theorem jFrac_suffix (cs : List Char) : (jFrac cs).2 <:+ cs := by
  cases cs with
  | nil => exact List.suffix_rfl
  | cons d rr =>
    by_cases hd : d = '.'
    · subst hd
      by_cases hp1 : (takeDigits rr).1 = []
      · rw [show jFrac ('.' :: rr) = ([], '.' :: rr) by simp [jFrac, hp1]]
      · rw [show jFrac ('.' :: rr) = ('.' :: (takeDigits rr).1, (takeDigits rr).2) by
          simp [jFrac, hp1]]
        exact (takeDigits_suffix rr).trans (List.suffix_cons '.' rr)
    · rw [show jFrac (d :: rr) = ([], d :: rr) by simp [jFrac, hd]]

theorem jExp_suffix (cs : List Char) : (jExp cs).2 <:+ cs := by
  cases cs with
  | nil => exact List.suffix_rfl
  | cons e rr =>
    by_cases he : e = 'e' ∨ e = 'E'
    · cases rr with
      | nil => rw [show jExp [e] = ([], [e]) by simp [jExp, if_pos he]]
      | cons sg rr2 =>
        by_cases hs : sg = '+' ∨ sg = '-'
        · by_cases hp1 : (takeDigits rr2).1 = []
          · rw [show jExp (e :: sg :: rr2) = ([], e :: sg :: rr2) by
              simp [jExp, if_pos he, if_pos hs, hp1]]
          · rw [show jExp (e :: sg :: rr2) = (e :: sg :: (takeDigits rr2).1, (takeDigits rr2).2) by
              simp [jExp, if_pos he, if_pos hs, hp1]]
            exact (takeDigits_suffix rr2).trans
              ((List.suffix_cons sg rr2).trans (List.suffix_cons e (sg :: rr2)))
        · by_cases hp1 : (takeDigits (sg :: rr2)).1 = []
          · rw [show jExp (e :: sg :: rr2) = ([], e :: sg :: rr2) by
              simp [jExp, if_pos he, if_neg hs, hp1]]
          · rw [show jExp (e :: sg :: rr2) =
                (e :: (takeDigits (sg :: rr2)).1, (takeDigits (sg :: rr2)).2) by
              simp [jExp, if_pos he, if_neg hs, hp1]]
            exact (takeDigits_suffix (sg :: rr2)).trans (List.suffix_cons e (sg :: rr2))
    · rw [show jExp (e :: rr) = ([], e :: rr) by simp [jExp, if_neg he]]

theorem jNumBody_suffix : ∀ {cs tok rest : List Char},
    jNumBody cs = some (tok, rest) → rest <:+ cs
  | [], tok, rest, h => by simp [jNumBody] at h
  | c :: r, tok, rest, h => by
    by_cases h0 : c = '0'
    · subst h0
      simp only [jNumBody, eq_self_iff_true, ite_true, Option.some.injEq] at h
      have h2 := congrArg Prod.snd h
      simp only [jFracExp] at h2
      rw [← h2]
      exact ((jExp_suffix (jFrac r).2).trans (jFrac_suffix r)).trans (List.suffix_cons '0' r)
    · by_cases hdig : isDigit c = true
      · simp only [jNumBody, if_neg h0, if_pos hdig, Option.some.injEq] at h
        have h2 := congrArg Prod.snd h
        simp only [jFracExp] at h2
        rw [← h2]
        exact (((jExp_suffix _).trans (jFrac_suffix _)).trans (takeDigits_suffix r)).trans
          (List.suffix_cons c r)
      · simp [jNumBody, h0, hdig] at h

theorem jNum_suffix : ∀ {cs tok rest : List Char},
    jNum cs = some (tok, rest) → rest <:+ cs
  | [], tok, rest, h => by simp [jNum] at h
  | c :: r, tok, rest, h => by
    by_cases hm : c = '-'
    · subst hm
      simp only [jNum, eq_self_iff_true, ite_true] at h
      cases hb : jNumBody r with
      | none => rw [hb] at h; exact absurd h (by simp)
      | some p =>
        rw [hb] at h
        simp only [Option.map_some', Option.some.injEq, Prod.mk.injEq] at h
        rw [← h.2]
        exact (jNumBody_suffix (show jNumBody r = some (p.1, p.2) by simpa using hb)).trans
          (List.suffix_cons '-' r)
    · simp only [jNum, if_neg hm] at h
      exact jNumBody_suffix h

/-! ## Soundness of the JSON parser: remainders are suffixes and values
are well-formed -/

mutual

theorem jVal_sound : ∀ (f : Nat) (cs : List Char) (v : JVal) (r : List Char),
    jVal f cs = some (v, r) → r <:+ cs ∧ JWF v
  | 0, cs, v, r, h => by simp [jVal] at h
  | f + 1, cs, v, r, h => by
    cases hscs : skipWs cs with
    | nil => simp [jVal, hscs] at h
    | cons c r1 =>
      have hsfx : (c :: r1) <:+ cs := hscs ▸ skipWs_suffix cs
      simp only [jVal, hscs] at h
      by_cases hq : c = '"'
      · rw [if_pos hq] at h
        cases hj : jStrAux (r1.length + 1) [] r1 with
        | none => rw [hj] at h; simp at h
        | some p =>
          rw [hj] at h
          simp only [Option.map_some', Option.some.injEq, Prod.mk.injEq] at h
          refine ⟨?_, ?_⟩
          · rw [← h.2]
            exact ((jStrAux_suffix _ [] r1 p.1 p.2 (by simpa using hj)).trans
              (List.suffix_cons c r1)).trans hsfx
          · rw [← h.1]
            exact JWF.str p.1
      · rw [if_neg hq] at h
        by_cases hlb : c = '['
        · rw [if_pos hlb] at h
          cases hs2 : skipWs r1 with
          | nil => rw [hs2] at h; simp at h
          | cons c2 r2 =>
            rw [hs2] at h
            simp only [] at h
            have hsfx2 : (c2 :: r2) <:+ cs :=
              ((hs2 ▸ skipWs_suffix r1).trans (List.suffix_cons c r1)).trans hsfx
            by_cases hrb : c2 = ']'
            · rw [if_pos hrb] at h
              simp only [Option.some.injEq, Prod.mk.injEq] at h
              refine ⟨?_, ?_⟩
              · rw [← h.2]
                exact (List.suffix_cons c2 r2).trans hsfx2
              · rw [← h.1]
                exact JWF.arr [] (by intro x hx; simp at hx)
            · rw [if_neg hrb] at h
              cases hv1 : jVal f (c2 :: r2) with
              | none => rw [hv1] at h; simp at h
              | some q1 =>
                obtain ⟨v1, r3⟩ := q1
                rw [hv1] at h
                simp only [] at h
                cases he1 : jElemsRest f r3 with
                | none => rw [he1] at h; simp at h
                | some q2 =>
                  obtain ⟨vs, r4⟩ := q2
                  rw [he1] at h
                  simp only [Option.some.injEq, Prod.mk.injEq] at h
                  obtain ⟨hv, hr⟩ := h
                  have s1 := jVal_sound f (c2 :: r2) v1 r3 hv1
                  have s2 := jElemsRest_sound f r3 vs r4 he1
                  refine ⟨?_, ?_⟩
                  · rw [← hr]
                    exact (s2.1.trans s1.1).trans hsfx2
                  · rw [← hv]
                    refine JWF.arr _ ?_
                    intro x hx
                    rcases List.mem_cons.1 hx with rfl | hx2
                    · exact s1.2
                    · exact s2.2 x hx2
        · rw [if_neg hlb] at h
          by_cases hob : c = '\x7b'
          · rw [if_pos hob] at h
            cases hs2 : skipWs r1 with
            | nil => rw [hs2] at h; simp at h
            | cons c2 r2 =>
              rw [hs2] at h
              simp only [] at h
              have hsfx2 : (c2 :: r2) <:+ cs :=
                ((hs2 ▸ skipWs_suffix r1).trans (List.suffix_cons c r1)).trans hsfx
              by_cases hrb : c2 = '\x7d'
              · rw [if_pos hrb] at h
                simp only [Option.some.injEq, Prod.mk.injEq] at h
                refine ⟨?_, ?_⟩
                · rw [← h.2]
                  exact (List.suffix_cons c2 r2).trans hsfx2
                · rw [← h.1]
                  exact JWF.obj [] List.Pairwise.nil (by intro x hx; simp at hx)
              · rw [if_neg hrb] at h
                by_cases hkq : c2 = '"'
                · rw [if_pos hkq] at h
                  cases hk : jStrAux (r2.length + 1) [] r2 with
                  | none => rw [hk] at h; simp at h
                  | some pk =>
                    obtain ⟨k, r3⟩ := pk
                    rw [hk] at h
                    simp only [] at h
                    cases hs3 : skipWs r3 with
                    | nil => rw [hs3] at h; simp at h
                    | cons c3 r4 =>
                      rw [hs3] at h
                      simp only [] at h
                      by_cases hcl : c3 = ':'
                      · rw [if_pos hcl] at h
                        cases hv1 : jVal f r4 with
                        | none => rw [hv1] at h; simp at h
                        | some q1 =>
                          obtain ⟨v1, r5⟩ := q1
                          rw [hv1] at h
                          simp only [] at h
                          cases hm1 : jMembersRest f r5 with
                          | none => rw [hm1] at h; simp at h
                          | some q2 =>
                            obtain ⟨ms, r6⟩ := q2
                            rw [hm1] at h
                            simp only [Option.some.injEq, Prod.mk.injEq] at h
                            obtain ⟨hv, hr⟩ := h
                            have s1 := jVal_sound f r4 v1 r5 hv1
                            have s2 := jMembersRest_sound f r5 ms r6 hm1
                            refine ⟨?_, ?_⟩
                            · rw [← hr]
                              refine (s2.1.trans s1.1).trans ?_
                              refine ((List.suffix_cons c3 r4).trans ?_)
                              refine ((hs3 ▸ skipWs_suffix r3).trans ?_)
                              refine (jStrAux_suffix _ [] r2 k r3 (by simpa using hk)).trans ?_
                              exact (List.suffix_cons c2 r2).trans hsfx2
                            · rw [← hv]
                              refine JWF.obj _ (dedupKV_pairwise _) ?_
                              intro kv hkv
                              rcases List.mem_cons.1 (dedupKV_mem hkv) with rfl | hx2
                              · exact s1.2
                              · exact s2.2 kv hx2
                      · rw [if_neg hcl] at h
                        simp at h
                · rw [if_neg hkq] at h
                  simp at h
          · rw [if_neg hob] at h
            by_cases ht : c = 't'
            · rw [if_pos ht] at h
              cases he : expectChars ['r', 'u', 'e'] r1 with
              | none => rw [he] at h; simp at h
              | some r2 =>
                rw [he] at h
                simp only [Option.map_some', Option.some.injEq, Prod.mk.injEq] at h
                refine ⟨?_, ?_⟩
                · rw [← h.2]
                  exact ((expectChars_suffix he).trans (List.suffix_cons c r1)).trans hsfx
                · rw [← h.1]
                  exact JWF.bool true
            · rw [if_neg ht] at h
              by_cases hf : c = 'f'
              · rw [if_pos hf] at h
                cases he : expectChars ['a', 'l', 's', 'e'] r1 with
                | none => rw [he] at h; simp at h
                | some r2 =>
                  rw [he] at h
                  simp only [Option.map_some', Option.some.injEq, Prod.mk.injEq] at h
                  refine ⟨?_, ?_⟩
                  · rw [← h.2]
                    exact ((expectChars_suffix he).trans (List.suffix_cons c r1)).trans hsfx
                  · rw [← h.1]
                    exact JWF.bool false
              · rw [if_neg hf] at h
                by_cases hn : c = 'n'
                · rw [if_pos hn] at h
                  cases he : expectChars ['u', 'l', 'l'] r1 with
                  | none => rw [he] at h; simp at h
                  | some r2 =>
                    rw [he] at h
                    simp only [Option.map_some', Option.some.injEq, Prod.mk.injEq] at h
                    refine ⟨?_, ?_⟩
                    · rw [← h.2]
                      exact ((expectChars_suffix he).trans (List.suffix_cons c r1)).trans hsfx
                    · rw [← h.1]
                      exact JWF.null
                · rw [if_neg hn] at h
                  by_cases hnum : c = '-' ∨ isDigit c
                  · rw [if_pos hnum] at h
                    cases hj : jNum (c :: r1) with
                    | none => rw [hj] at h; simp at h
                    | some p =>
                      rw [hj] at h
                      simp only [Option.map_some', Option.some.injEq, Prod.mk.injEq] at h
                      refine ⟨?_, ?_⟩
                      · rw [← h.2]
                        exact (jNum_suffix (show jNum (c :: r1) = some (p.1, p.2) by
                          simpa using hj)).trans hsfx
                      · rw [← h.1]
                        exact JWF.num (String.mk p.1)
                          (jNum_numShape (show jNum (c :: r1) = some (p.1, p.2) by
                            simpa using hj))
                  · rw [if_neg hnum] at h
                    simp at h

theorem jElemsRest_sound : ∀ (f : Nat) (cs : List Char) (vs : List JVal) (r : List Char),
    jElemsRest f cs = some (vs, r) → r <:+ cs ∧ ∀ v ∈ vs, JWF v
  | 0, cs, vs, r, h => by simp [jElemsRest] at h
  | f + 1, cs, vs, r, h => by
    cases hscs : skipWs cs with
    | nil => simp [jElemsRest, hscs] at h
    | cons c r1 =>
      have hsfx : (c :: r1) <:+ cs := hscs ▸ skipWs_suffix cs
      simp only [jElemsRest, hscs] at h
      by_cases hrb : c = ']'
      · rw [if_pos hrb] at h
        simp only [Option.some.injEq, Prod.mk.injEq] at h
        refine ⟨?_, ?_⟩
        · rw [← h.2]
          exact (List.suffix_cons c r1).trans hsfx
        · rw [← h.1]
          intro x hx
          simp at hx
      · rw [if_neg hrb] at h
        by_cases hcm : c = ','
        · rw [if_pos hcm] at h
          cases hv1 : jVal f r1 with
          | none => rw [hv1] at h; simp at h
          | some q1 =>
            obtain ⟨v1, r2⟩ := q1
            rw [hv1] at h
            simp only [] at h
            cases he1 : jElemsRest f r2 with
            | none => rw [he1] at h; simp at h
            | some q2 =>
              obtain ⟨vs2, r3⟩ := q2
              rw [he1] at h
              simp only [Option.some.injEq, Prod.mk.injEq] at h
              obtain ⟨hv, hr⟩ := h
              have s1 := jVal_sound f r1 v1 r2 hv1
              have s2 := jElemsRest_sound f r2 vs2 r3 he1
              refine ⟨?_, ?_⟩
              · rw [← hr]
                exact ((s2.1.trans s1.1).trans (List.suffix_cons c r1)).trans hsfx
              · rw [← hv]
                intro x hx
                rcases List.mem_cons.1 hx with rfl | hx2
                · exact s1.2
                · exact s2.2 x hx2
        · rw [if_neg hcm] at h
          simp at h

theorem jMembersRest_sound :
    ∀ (f : Nat) (cs : List Char) (ms : List (String × JVal)) (r : List Char),
      jMembersRest f cs = some (ms, r) → r <:+ cs ∧ ∀ kv ∈ ms, JWF kv.2
  | 0, cs, ms, r, h => by simp [jMembersRest] at h
  | f + 1, cs, ms, r, h => by
    cases hscs : skipWs cs with
    | nil => simp [jMembersRest, hscs] at h
    | cons c r1 =>
      have hsfx : (c :: r1) <:+ cs := hscs ▸ skipWs_suffix cs
      simp only [jMembersRest, hscs] at h
      by_cases hrb : c = '\x7d'
      · rw [if_pos hrb] at h
        simp only [Option.some.injEq, Prod.mk.injEq] at h
        refine ⟨?_, ?_⟩
        · rw [← h.2]
          exact (List.suffix_cons c r1).trans hsfx
        · rw [← h.1]
          intro x hx
          simp at hx
      · rw [if_neg hrb] at h
        by_cases hcm : c = ','
        · rw [if_pos hcm] at h
          cases hs2 : skipWs r1 with
          | nil => rw [hs2] at h; simp at h
          | cons c2 r2 =>
            rw [hs2] at h
            simp only [] at h
            by_cases hkq : c2 = '"'
            · rw [if_pos hkq] at h
              cases hk : jStrAux (r2.length + 1) [] r2 with
              | none => rw [hk] at h; simp at h
              | some pk =>
                obtain ⟨k, r3⟩ := pk
                rw [hk] at h
                simp only [] at h
                cases hs3 : skipWs r3 with
                | nil => rw [hs3] at h; simp at h
                | cons c3 r4 =>
                  rw [hs3] at h
                  simp only [] at h
                  by_cases hcl : c3 = ':'
                  · rw [if_pos hcl] at h
                    cases hv1 : jVal f r4 with
                    | none => rw [hv1] at h; simp at h
                    | some q1 =>
                      obtain ⟨v1, r5⟩ := q1
                      rw [hv1] at h
                      simp only [] at h
                      cases hm1 : jMembersRest f r5 with
                      | none => rw [hm1] at h; simp at h
                      | some q2 =>
                        obtain ⟨ms2, r6⟩ := q2
                        rw [hm1] at h
                        simp only [Option.some.injEq, Prod.mk.injEq] at h
                        obtain ⟨hv, hr⟩ := h
                        have s1 := jVal_sound f r4 v1 r5 hv1
                        have s2 := jMembersRest_sound f r5 ms2 r6 hm1
                        refine ⟨?_, ?_⟩
                        · rw [← hr]
                          refine (s2.1.trans s1.1).trans ?_
                          refine (List.suffix_cons c3 r4).trans ?_
                          refine (hs3 ▸ skipWs_suffix r3).trans ?_
                          refine (jStrAux_suffix _ [] r2 k r3 (by simpa using hk)).trans ?_
                          refine (List.suffix_cons c2 r2).trans ?_
                          refine (hs2 ▸ skipWs_suffix r1).trans ?_
                          exact (List.suffix_cons c r1).trans hsfx
                        · rw [← hv]
                          intro kv hkv
                          rcases List.mem_cons.1 hkv with rfl | hx2
                          · exact s1.2
                          · exact s2.2 kv hx2
                  · rw [if_neg hcl] at h
                    simp at h
            · rw [if_neg hkq] at h
              simp at h
        · rw [if_neg hcm] at h
          simp at h

end

theorem jsonParse_sound {s : String} {v : JVal} (h : jsonParse s = some v) : JWF v := by
  unfold jsonParse at h
  cases hj : jVal (s.data.length + 1) s.data with
  | none => rw [hj] at h; simp at h
  | some p =>
    rw [hj] at h
    simp only [] at h
    split_ifs at h
    simp only [Option.some.injEq] at h
    rw [← h]
    exact (jVal_sound _ s.data p.1 p.2 (by simpa using hj)).2

/-! ## Agreement of the two parsers on values -/

theorem badTail_head : ∀ {cs : List Char}, badTail cs →
    ∃ c t, cs = c :: t ∧ (c = '.' ∨ isDigit c = true)
  | [], hb => hb.elim
  | c :: t, hb => ⟨c, t, rfl, hb⟩

theorem badTail_not_ws {c : Char} (h : c = '.' ∨ isDigit c = true) : isWs c = false := by
  rcases h with rfl | h
  · decide
  · exact digit_not_ws h

theorem badTail_ne {c : Char} (h : c = '.' ∨ isDigit c = true) {x : Char}
    (hx : x.toNat < 48 ∨ 57 < x.toNat) (hdot : x ≠ '.') : c ≠ x := by
  rcases h with rfl | h
  · exact fun he => hdot he.symm
  · exact digit_ne_char h hx

theorem jElemsRest_not_badTail : ∀ {f : Nat} {cs : List Char} {vs : List JVal}
    {r : List Char}, jElemsRest f cs = some (vs, r) → badTail cs → False
  | 0, cs, vs, r, h, hb => by simp [jElemsRest] at h
  | g + 1, cs, vs, r, h, hb => by
    obtain ⟨c, t, rfl, hc⟩ := badTail_head hb
    simp only [jElemsRest, skipWs_cons_not (badTail_not_ws hc)] at h
    rw [if_neg (badTail_ne hc (Or.inr (by decide)) (by decide)),
      if_neg (badTail_ne hc (Or.inl (by decide)) (by decide))] at h
    simp at h

theorem jMembersRest_not_badTail : ∀ {f : Nat} {cs : List Char}
    {ms : List (String × JVal)} {r : List Char},
    jMembersRest f cs = some (ms, r) → badTail cs → False
  | 0, cs, ms, r, h, hb => by simp [jMembersRest] at h
  | g + 1, cs, ms, r, h, hb => by
    obtain ⟨c, t, rfl, hc⟩ := badTail_head hb
    simp only [jMembersRest, skipWs_cons_not (badTail_not_ws hc)] at h
    rw [if_neg (badTail_ne hc (Or.inr (by decide)) (by decide)),
      if_neg (badTail_ne hc (Or.inl (by decide)) (by decide))] at h
    simp at h

theorem jVal_skipWs (f : Nat) (cs : List Char) : jVal f cs = jVal f (skipWs cs) := by
  cases f with
  | zero => simp [jVal]
  | succ g =>
    simp only [jVal]
    rw [skipWs_idem]

/-- A Python value parse starting at a double quote is a string scan. -/
theorem pVal_str_quote {g : Nat} {r2 : List Char} {vp : PyVal} {rp : List Char}
    (hp : pVal (g + 1) ('"' :: r2) = some (vp, rp)) :
    ∃ sp, pStrAux '"' [] r2 = some (sp, rp) ∧ vp = PyVal.str sp := by
  simp only [pVal, skipWs_cons_not (show isWs '"' = false by decide), or_true,
    ite_true] at hp
  cases hps : pStrAux '"' [] r2 with
  | none => rw [hps] at hp; simp at hp
  | some q =>
    rw [hps] at hp
    simp only [Option.map_some', Option.some.injEq, Prod.mk.injEq] at hp
    refine ⟨q.1, ?_, hp.1.symm⟩
    rw [← hp.2]

theorem pVal_str_quote2 {g : Nat} {r2 : List Char} {vp : PyVal} {rp : List Char}
    (hp : pVal g ('"' :: r2) = some (vp, rp)) :
    ∃ sp, pStrAux '"' [] r2 = some (sp, rp) ∧ vp = PyVal.str sp := by
  match g, hp with
  | 0, hp => simp [pVal] at hp
  | g + 1, hp => exact pVal_str_quote hp

theorem jVal_close_none (f : Nat) {c : Char} (r : List Char)
    (h1 : ¬(c = '"')) (h2 : ¬(c = '[')) (h3 : ¬(c = '\x7b')) (h4 : ¬(c = 't'))
    (h5 : ¬(c = 'f')) (h6 : ¬(c = 'n')) (h7 : ¬(c = '-' ∨ isDigit c = true))
    (hws : isWs c = false) :
    jVal f (c :: r) = none := by
  cases f with
  | zero => simp [jVal]
  | succ g =>
    simp only [jVal, skipWs_cons_not hws]
    rw [if_neg h1, if_neg h2, if_neg h3, if_neg h4, if_neg h5, if_neg h6, if_neg h7]

mutual

theorem jpVal_agree :
    ∀ (fp fj : Nat) (cs : List Char) (vj : JVal) (rj : List Char) (vp : PyVal)
      (rp : List Char),
      jVal fj cs = some (vj, rj) → pVal fp cs = some (vp, rp) → noBS cs = true →
      (toJ vp = some vj ∧ rj = rp) ∨ badTail rj
  | 0, fj, cs, vj, rj, vp, rp, hj, hp, hb => by simp [pVal] at hp
  | fp + 1, 0, cs, vj, rj, vp, rp, hj, hp, hb => by simp [jVal] at hj
  | fp + 1, fj + 1, cs, vj, rj, vp, rp, hj, hp, hb => by
    cases hscs : skipWs cs with
    | nil => simp [jVal, hscs] at hj
    | cons c r1 =>
      have hnb1 : noBS (c :: r1) = true := noBS_suffix (hscs ▸ skipWs_suffix cs) hb
      simp only [jVal, hscs] at hj
      simp only [pVal, hscs] at hp
      by_cases hq : c = '"'
      · subst hq
        simp only [eq_self_iff_true, ite_true, or_true] at hj hp
        cases hjs : jStrAux (r1.length + 1) [] r1 with
        | none => rw [hjs] at hj; simp at hj
        | some pj =>
          cases hps : pStrAux '"' [] r1 with
          | none => rw [hps] at hp; simp at hp
          | some pp =>
            rw [hjs] at hj
            rw [hps] at hp
            simp only [Option.map_some', Option.some.injEq, Prod.mk.injEq] at hj hp
            obtain ⟨hagree, hrest⟩ := jpStr_agree (r1.length + 1) [] r1 pj.1 pp.1 pj.2
              pp.2 (by simpa using hjs) (by simpa using hps) (noBS_tail hnb1)
            refine Or.inl ⟨?_, ?_⟩
            · rw [← hj.1, ← hp.1, hagree]
              simp [toJ]
            · rw [← hj.2, ← hp.2, hrest]
      · rw [if_neg hq] at hj
        by_cases hlb : c = '['
        · subst hlb
          simp only [eq_self_iff_true, ite_true] at hj
          rw [if_neg (by decide : ¬(('[' : Char) = '\x27' ∨ ('[' : Char) = '"'))] at hp
          simp only [eq_self_iff_true, ite_true] at hp
          cases hs2 : skipWs r1 with
          | nil => rw [hs2] at hj; simp at hj
          | cons c2 r2 =>
            rw [hs2] at hj hp
            simp only [] at hj hp
            have hnb2 : noBS (c2 :: r2) = true :=
              noBS_suffix (hs2 ▸ skipWs_suffix r1) (noBS_tail hnb1)
            by_cases hrb : c2 = ']'
            · subst hrb
              simp only [eq_self_iff_true, ite_true, Option.some.injEq,
                Prod.mk.injEq] at hj hp
              refine Or.inl ⟨?_, ?_⟩
              · rw [← hj.1, ← hp.1]
                simp [toJ, toJList]
              · rw [← hj.2, ← hp.2]
            · rw [if_neg hrb] at hj hp
              cases hjv : jVal fj (c2 :: r2) with
              | none => rw [hjv] at hj; simp at hj
              | some qj =>
                obtain ⟨v1j, r3j⟩ := qj
                cases hpv : pVal fp (c2 :: r2) with
                | none => rw [hpv] at hp; simp at hp
                | some qp =>
                  obtain ⟨v1p, r3p⟩ := qp
                  rw [hjv] at hj
                  rw [hpv] at hp
                  simp only [] at hj hp
                  cases hje : jElemsRest fj r3j with
                  | none => rw [hje] at hj; simp at hj
                  | some qj2 =>
                    obtain ⟨vsj, r4j⟩ := qj2
                    rw [hje] at hj
                    simp only [Option.some.injEq, Prod.mk.injEq] at hj
                    rcases jpVal_agree fp fj (c2 :: r2) v1j r3j v1p r3p hjv hpv hnb2 with
                      ⟨htv, hrv⟩ | hbt
                    · rw [← hrv] at hp
                      cases hpe : pMoreElems fp ']' r3j with
                      | none => rw [hpe] at hp; simp at hp
                      | some qp2 =>
                        obtain ⟨vsp, r4p⟩ := qp2
                        rw [hpe] at hp
                        simp only [Option.some.injEq, Prod.mk.injEq] at hp
                        have hnb3 : noBS r3j = true :=
                          noBS_suffix (jVal_sound fj (c2 :: r2) v1j r3j hjv).1 hnb2
                        rcases jpElems_agree fp fj r3j vsj r4j vsp r4p hje hpe hnb3 with
                          ⟨htl, hrl⟩ | hbt2
                        · refine Or.inl ⟨?_, ?_⟩
                          · rw [← hj.1, ← hp.1]
                            simp [toJ, toJList, htv, htl]
                          · rw [← hj.2, ← hp.2, hrl]
                        · rw [← hj.2]
                          exact Or.inr hbt2
                    · exact (jElemsRest_not_badTail hje hbt).elim
        · rw [if_neg hlb] at hj
          by_cases hob : c = '\x7b'
          · subst hob
            simp only [eq_self_iff_true, ite_true] at hj
            rw [if_neg (by decide : ¬(('\x7b' : Char) = '\x27' ∨ ('\x7b' : Char) = '"')),
              if_neg (by decide : ¬(('\x7b' : Char) = '[')),
              if_neg (by decide : ¬(('\x7b' : Char) = '('))] at hp
            simp only [eq_self_iff_true, ite_true] at hp
            cases hs2 : skipWs r1 with
            | nil => rw [hs2] at hj; simp at hj
            | cons c2 r2 =>
              rw [hs2] at hj hp
              simp only [] at hj hp
              have hnb2 : noBS (c2 :: r2) = true :=
                noBS_suffix (hs2 ▸ skipWs_suffix r1) (noBS_tail hnb1)
              by_cases hrb : c2 = '\x7d'
              · subst hrb
                simp only [eq_self_iff_true, ite_true, Option.some.injEq,
                  Prod.mk.injEq] at hj hp
                refine Or.inl ⟨?_, ?_⟩
                · rw [← hj.1, ← hp.1]
                  simp [toJ, toJPairs, dedupKV]
                · rw [← hj.2, ← hp.2]
              · rw [if_neg hrb] at hj hp
                by_cases hkq : c2 = '"'
                · subst hkq
                  simp only [eq_self_iff_true, ite_true] at hj
                  cases hjk : jStrAux (r2.length + 1) [] r2 with
                  | none => rw [hjk] at hj; simp at hj
                  | some pk =>
                    obtain ⟨kj, r3j⟩ := pk
                    rw [hjk] at hj
                    simp only [] at hj
                    cases hpk : pVal fp ('"' :: r2) with
                    | none => rw [hpk] at hp; simp at hp
                    | some qk =>
                      obtain ⟨kvp, r3p⟩ := qk
                      rw [hpk] at hp
                      simp only [] at hp
                      obtain ⟨kp, hps, rfl⟩ := pVal_str_quote2 hpk
                      obtain ⟨hkagree, hkrest⟩ := jpStr_agree (r2.length + 1) [] r2 kj kp
                        r3j r3p hjk hps (noBS_tail hnb2)
                      rw [← hkrest] at hp
                      cases hs3 : skipWs r3j with
                      | nil => rw [hs3] at hj; simp at hj
                      | cons c3 r4 =>
                        rw [hs3] at hj hp
                        simp only [] at hj hp
                        have hnb4 : noBS r4 = true := by
                          have hx1 : r3j <:+ r2 := jStrAux_suffix _ [] r2 kj r3j hjk
                          have hx2 : (c3 :: r4) <:+ r3j := hs3 ▸ skipWs_suffix r3j
                          exact noBS_tail (noBS_suffix (hx2.trans hx1) (noBS_tail hnb2))
                        by_cases hcl : c3 = ':'
                        · subst hcl
                          simp only [eq_self_iff_true, ite_true] at hj hp
                          cases hjv : jVal fj r4 with
                          | none => rw [hjv] at hj; simp at hj
                          | some qv =>
                            obtain ⟨v1j, r5j⟩ := qv
                            cases hpv : pVal fp r4 with
                            | none => rw [hpv] at hp; simp at hp
                            | some qv2 =>
                              obtain ⟨v1p, r5p⟩ := qv2
                              rw [hjv] at hj
                              rw [hpv] at hp
                              simp only [] at hj hp
                              cases hjm : jMembersRest fj r5j with
                              | none => rw [hjm] at hj; simp at hj
                              | some qm =>
                                obtain ⟨msj, r6j⟩ := qm
                                rw [hjm] at hj
                                simp only [Option.some.injEq, Prod.mk.injEq] at hj
                                rcases jpVal_agree fp fj r4 v1j r5j v1p r5p hjv hpv
                                    hnb4 with ⟨htv, hrv⟩ | hbt
                                · rw [← hrv] at hp
                                  cases hpm : pMoreMembers fp r5j with
                                  | none => rw [hpm] at hp; simp at hp
                                  | some qm2 =>
                                    obtain ⟨msp, r6p⟩ := qm2
                                    rw [hpm] at hp
                                    simp only [Option.some.injEq, Prod.mk.injEq] at hp
                                    have hnb5 : noBS r5j = true :=
                                      noBS_suffix (jVal_sound fj r4 v1j r5j hjv).1 hnb4
                                    rcases jpMembers_agree fp fj r5j msj r6j msp r6p
                                        hjm hpm hnb5 with ⟨htm, hrm⟩ | hbt2
                                    · refine Or.inl ⟨?_, ?_⟩
                                      · rw [← hj.1, ← hp.1]
                                        simp [toJ, toJPairs, keyStr, htv, htm, hkagree]
                                      · rw [← hj.2, ← hp.2, hrm]
                                    · rw [← hj.2]
                                      exact Or.inr hbt2
                                · exact (jMembersRest_not_badTail hjm hbt).elim
                        · rw [if_neg hcl] at hj
                          simp at hj
                · rw [if_neg hkq] at hj
                  simp at hj
          · rw [if_neg hob] at hj
            by_cases ht : c = 't'
            · subst ht
              simp only [eq_self_iff_true, ite_true] at hj
              rw [if_neg (by decide : ¬(('t' : Char) = '\x27' ∨ ('t' : Char) = '"')),
                if_neg (by decide : ¬(('t' : Char) = '[')),
                if_neg (by decide : ¬(('t' : Char) = '(')),
                if_neg (by decide : ¬(('t' : Char) = '\x7b')),
                if_neg (by decide : ¬(('t' : Char) = 'T')),
                if_neg (by decide : ¬(('t' : Char) = 'F')),
                if_neg (by decide : ¬(('t' : Char) = 'N')),
                if_neg (by decide : ¬(('t' : Char) = '-' ∨ ('t' : Char) = '+' ∨
                  ('t' : Char) = '.' ∨ isDigit 't' = true))] at hp
              exact absurd hp (by simp)
            · rw [if_neg ht] at hj
              by_cases hf : c = 'f'
              · subst hf
                simp only [eq_self_iff_true, ite_true] at hj
                rw [if_neg (by decide : ¬(('f' : Char) = '\x27' ∨ ('f' : Char) = '"')),
                  if_neg (by decide : ¬(('f' : Char) = '[')),
                  if_neg (by decide : ¬(('f' : Char) = '(')),
                  if_neg (by decide : ¬(('f' : Char) = '\x7b')),
                  if_neg (by decide : ¬(('f' : Char) = 'T')),
                  if_neg (by decide : ¬(('f' : Char) = 'F')),
                  if_neg (by decide : ¬(('f' : Char) = 'N')),
                  if_neg (by decide : ¬(('f' : Char) = '-' ∨ ('f' : Char) = '+' ∨
                    ('f' : Char) = '.' ∨ isDigit 'f' = true))] at hp
                exact absurd hp (by simp)
              · rw [if_neg hf] at hj
                by_cases hn : c = 'n'
                · subst hn
                  simp only [eq_self_iff_true, ite_true] at hj
                  rw [if_neg (by decide : ¬(('n' : Char) = '\x27' ∨ ('n' : Char) = '"')),
                    if_neg (by decide : ¬(('n' : Char) = '[')),
                    if_neg (by decide : ¬(('n' : Char) = '(')),
                    if_neg (by decide : ¬(('n' : Char) = '\x7b')),
                    if_neg (by decide : ¬(('n' : Char) = 'T')),
                    if_neg (by decide : ¬(('n' : Char) = 'F')),
                    if_neg (by decide : ¬(('n' : Char) = 'N')),
                    if_neg (by decide : ¬(('n' : Char) = '-' ∨ ('n' : Char) = '+' ∨
                      ('n' : Char) = '.' ∨ isDigit 'n' = true))] at hp
                  exact absurd hp (by simp)
                · rw [if_neg hn] at hj
                  by_cases hnum : c = '-' ∨ isDigit c = true
                  · rw [if_pos hnum] at hj
                    have hA : ¬(c = '\x27' ∨ c = '"') := by
                      rcases hnum with rfl | hd
                      · decide
                      · rintro (he | he)
                        · exact digit_ne_char hd (Or.inl (by decide)) he
                        · exact digit_ne_char hd (Or.inl (by decide)) he
                    have hB : ¬(c = '[') := by
                      rcases hnum with rfl | hd
                      · decide
                      · exact digit_ne_char hd (Or.inr (by decide))
                    have hC : ¬(c = '(') := by
                      rcases hnum with rfl | hd
                      · decide
                      · exact digit_ne_char hd (Or.inl (by decide))
                    have hD : ¬(c = '\x7b') := by
                      rcases hnum with rfl | hd
                      · decide
                      · exact digit_ne_char hd (Or.inr (by decide))
                    have hE : ¬(c = 'T') := by
                      rcases hnum with rfl | hd
                      · decide
                      · exact digit_ne_char hd (Or.inr (by decide))
                    have hF : ¬(c = 'F') := by
                      rcases hnum with rfl | hd
                      · decide
                      · exact digit_ne_char hd (Or.inr (by decide))
                    have hG : ¬(c = 'N') := by
                      rcases hnum with rfl | hd
                      · decide
                      · exact digit_ne_char hd (Or.inr (by decide))
                    have hH : c = '-' ∨ c = '+' ∨ c = '.' ∨ isDigit c = true := by
                      rcases hnum with rfl | hd
                      · exact Or.inl rfl
                      · exact Or.inr (Or.inr (Or.inr hd))
                    rw [if_neg hA, if_neg hB, if_neg hC, if_neg hD, if_neg hE, if_neg hF,
                      if_neg hG, if_pos hH] at hp
                    cases hjn : jNum (c :: r1) with
                    | none => rw [hjn] at hj; simp at hj
                    | some pj =>
                      cases hpn : pNum (c :: r1) with
                      | none => rw [hpn] at hp; simp at hp
                      | some pp =>
                        rw [hjn] at hj
                        rw [hpn] at hp
                        simp only [Option.map_some', Option.some.injEq,
                          Prod.mk.injEq] at hj hp
                        rcases jpNum_agree (c :: r1) pj.1 pj.2 pp.1 pp.2
                            (by simpa using hjn) (by simpa using hpn) with
                          ⟨ht1, ht2⟩ | hbt
                        · refine Or.inl ⟨?_, ?_⟩
                          · rw [← hj.1, ← hp.1, ht1]
                            simp [toJ]
                          · rw [← hj.2, ← hp.2, ht2]
                        · rw [← hj.2]
                          exact Or.inr hbt
                  · rw [if_neg hnum] at hj
                    simp at hj

theorem jpElems_agree :
    ∀ (fp fj : Nat) (cs : List Char) (vsj : List JVal) (rj : List Char)
      (vsp : List PyVal) (rp : List Char),
      jElemsRest fj cs = some (vsj, rj) → pMoreElems fp ']' cs = some (vsp, rp) →
      noBS cs = true → (toJList vsp = some vsj ∧ rj = rp) ∨ badTail rj
  | 0, fj, cs, vsj, rj, vsp, rp, hj, hp, hb => by simp [pMoreElems] at hp
  | fp + 1, 0, cs, vsj, rj, vsp, rp, hj, hp, hb => by simp [jElemsRest] at hj
  | fp + 1, fj + 1, cs, vsj, rj, vsp, rp, hj, hp, hb => by
    cases hscs : skipWs cs with
    | nil => simp [jElemsRest, hscs] at hj
    | cons c r1 =>
      have hnb1 : noBS (c :: r1) = true := noBS_suffix (hscs ▸ skipWs_suffix cs) hb
      simp only [jElemsRest, hscs] at hj
      simp only [pMoreElems, hscs] at hp
      by_cases hrb : c = ']'
      · subst hrb
        simp only [eq_self_iff_true, ite_true, Option.some.injEq, Prod.mk.injEq] at hj hp
        refine Or.inl ⟨?_, ?_⟩
        · rw [← hj.1, ← hp.1]
          simp [toJList]
        · rw [← hj.2, ← hp.2]
      · rw [if_neg hrb] at hj hp
        by_cases hcm : c = ','
        · subst hcm
          simp only [eq_self_iff_true, ite_true] at hj hp
          cases hs2 : skipWs r1 with
          | nil => rw [hs2] at hp; simp at hp
          | cons c2 r2 =>
            rw [hs2] at hp
            simp only [] at hp
            by_cases hc2 : c2 = ']'
            · subst hc2
              have hnone : jVal fj r1 = none := by
                rw [jVal_skipWs, hs2]
                have hne4 : ¬((']' : Char) = 't') := by decide
                have hnws : isWs ']' = false := by decide
                exact jVal_close_none fj r2 (by decide) (by decide) (by decide)
                  hne4 (by decide) (by decide) (by decide) hnws
              rw [hnone] at hj
              simp at hj
            · rw [if_neg hc2] at hp
              rw [jVal_skipWs fj r1, hs2] at hj
              have hnb2 : noBS (c2 :: r2) = true :=
                noBS_suffix (hs2 ▸ skipWs_suffix r1) (noBS_tail hnb1)
              cases hjv : jVal fj (c2 :: r2) with
              | none => rw [hjv] at hj; simp at hj
              | some qj =>
                obtain ⟨v1j, r3j⟩ := qj
                cases hpv : pVal fp (c2 :: r2) with
                | none => rw [hpv] at hp; simp at hp
                | some qp =>
                  obtain ⟨v1p, r3p⟩ := qp
                  rw [hjv] at hj
                  rw [hpv] at hp
                  simp only [] at hj hp
                  cases hje : jElemsRest fj r3j with
                  | none => rw [hje] at hj; simp at hj
                  | some qj2 =>
                    obtain ⟨vsj2, r4j⟩ := qj2
                    rw [hje] at hj
                    simp only [Option.some.injEq, Prod.mk.injEq] at hj
                    rcases jpVal_agree fp fj (c2 :: r2) v1j r3j v1p r3p hjv hpv hnb2 with
                      ⟨htv, hrv⟩ | hbt
                    · rw [← hrv] at hp
                      cases hpe : pMoreElems fp ']' r3j with
                      | none => rw [hpe] at hp; simp at hp
                      | some qp2 =>
                        obtain ⟨vsp2, r4p⟩ := qp2
                        rw [hpe] at hp
                        simp only [Option.some.injEq, Prod.mk.injEq] at hp
                        have hnb3 : noBS r3j = true :=
                          noBS_suffix (jVal_sound fj (c2 :: r2) v1j r3j hjv).1 hnb2
                        rcases jpElems_agree fp fj r3j vsj2 r4j vsp2 r4p hje hpe
                            hnb3 with ⟨htl, hrl⟩ | hbt2
                        · refine Or.inl ⟨?_, ?_⟩
                          · rw [← hj.1, ← hp.1]
                            simp [toJList, htv, htl]
                          · rw [← hj.2, ← hp.2, hrl]
                        · rw [← hj.2]
                          exact Or.inr hbt2
                    · exact (jElemsRest_not_badTail hje hbt).elim
        · rw [if_neg hcm] at hj
          simp at hj

theorem jpMembers_agree :
    ∀ (fp fj : Nat) (cs : List Char) (msj : List (String × JVal)) (rj : List Char)
      (msp : List (PyVal × PyVal)) (rp : List Char),
      jMembersRest fj cs = some (msj, rj) → pMoreMembers fp cs = some (msp, rp) →
      noBS cs = true → (toJPairs msp = some msj ∧ rj = rp) ∨ badTail rj
  | 0, fj, cs, msj, rj, msp, rp, hj, hp, hb => by simp [pMoreMembers] at hp
  | fp + 1, 0, cs, msj, rj, msp, rp, hj, hp, hb => by simp [jMembersRest] at hj
  | fp + 1, fj + 1, cs, msj, rj, msp, rp, hj, hp, hb => by
    cases hscs : skipWs cs with
    | nil => simp [jMembersRest, hscs] at hj
    | cons c r1 =>
      have hnb1 : noBS (c :: r1) = true := noBS_suffix (hscs ▸ skipWs_suffix cs) hb
      simp only [jMembersRest, hscs] at hj
      simp only [pMoreMembers, hscs] at hp
      by_cases hrb : c = '\x7d'
      · subst hrb
        simp only [eq_self_iff_true, ite_true, Option.some.injEq, Prod.mk.injEq] at hj hp
        refine Or.inl ⟨?_, ?_⟩
        · rw [← hj.1, ← hp.1]
          simp [toJPairs]
        · rw [← hj.2, ← hp.2]
      · rw [if_neg hrb] at hj hp
        by_cases hcm : c = ','
        · subst hcm
          simp only [eq_self_iff_true, ite_true] at hj hp
          cases hs2 : skipWs r1 with
          | nil => rw [hs2] at hj; simp at hj
          | cons c2 r2 =>
            rw [hs2] at hj hp
            simp only [] at hj hp
            have hnb2 : noBS (c2 :: r2) = true :=
              noBS_suffix (hs2 ▸ skipWs_suffix r1) (noBS_tail hnb1)
            by_cases hkq : c2 = '"'
            · subst hkq
              simp only [eq_self_iff_true, ite_true] at hj
              rw [if_neg (by decide : ¬(('"' : Char) = '\x7d'))] at hp
              cases hjk : jStrAux (r2.length + 1) [] r2 with
              | none => rw [hjk] at hj; simp at hj
              | some pk =>
                obtain ⟨kj, r3j⟩ := pk
                rw [hjk] at hj
                simp only [] at hj
                cases hpk : pVal fp ('"' :: r2) with
                | none => rw [hpk] at hp; simp at hp
                | some qk =>
                  obtain ⟨kvp, r3p⟩ := qk
                  rw [hpk] at hp
                  simp only [] at hp
                  obtain ⟨kp, hps, rfl⟩ := pVal_str_quote2 hpk
                  obtain ⟨hkagree, hkrest⟩ := jpStr_agree (r2.length + 1) [] r2 kj kp
                    r3j r3p hjk hps (noBS_tail hnb2)
                  rw [← hkrest] at hp
                  cases hs3 : skipWs r3j with
                  | nil => rw [hs3] at hj; simp at hj
                  | cons c3 r4 =>
                    rw [hs3] at hj hp
                    simp only [] at hj hp
                    have hnb4 : noBS r4 = true := by
                      have hx1 : r3j <:+ r2 := jStrAux_suffix _ [] r2 kj r3j hjk
                      have hx2 : (c3 :: r4) <:+ r3j := hs3 ▸ skipWs_suffix r3j
                      exact noBS_tail (noBS_suffix (hx2.trans hx1) (noBS_tail hnb2))
                    by_cases hcl : c3 = ':'
                    · subst hcl
                      simp only [eq_self_iff_true, ite_true] at hj hp
                      cases hjv : jVal fj r4 with
                      | none => rw [hjv] at hj; simp at hj
                      | some qv =>
                        obtain ⟨v1j, r5j⟩ := qv
                        cases hpv : pVal fp r4 with
                        | none => rw [hpv] at hp; simp at hp
                        | some qv2 =>
                          obtain ⟨v1p, r5p⟩ := qv2
                          rw [hjv] at hj
                          rw [hpv] at hp
                          simp only [] at hj hp
                          cases hjm : jMembersRest fj r5j with
                          | none => rw [hjm] at hj; simp at hj
                          | some qm =>
                            obtain ⟨msj2, r6j⟩ := qm
                            rw [hjm] at hj
                            simp only [Option.some.injEq, Prod.mk.injEq] at hj
                            rcases jpVal_agree fp fj r4 v1j r5j v1p r5p hjv hpv hnb4 with
                              ⟨htv, hrv⟩ | hbt
                            · rw [← hrv] at hp
                              cases hpm : pMoreMembers fp r5j with
                              | none => rw [hpm] at hp; simp at hp
                              | some qm2 =>
                                obtain ⟨msp2, r6p⟩ := qm2
                                rw [hpm] at hp
                                simp only [Option.some.injEq, Prod.mk.injEq] at hp
                                have hnb5 : noBS r5j = true :=
                                  noBS_suffix (jVal_sound fj r4 v1j r5j hjv).1 hnb4
                                rcases jpMembers_agree fp fj r5j msj2 r6j msp2 r6p hjm
                                    hpm hnb5 with ⟨htm, hrm⟩ | hbt2
                                · refine Or.inl ⟨?_, ?_⟩
                                  · rw [← hj.1, ← hp.1]
                                    simp [toJPairs, keyStr, htv, htm, hkagree]
                                  · rw [← hj.2, ← hp.2, hrm]
                                · rw [← hj.2]
                                  exact Or.inr hbt2
                            · exact (jMembersRest_not_badTail hjm hbt).elim
                    · rw [if_neg hcl] at hj
                      simp at hj
            · rw [if_neg hkq] at hj
              simp at hj
        · rw [if_neg hcm] at hj
          simp at hj

end

/-! ## Round trip: serialising a well-formed value parses back to it -/

theorem char_scalar (c : Char) :
    c.toNat < 0xd800 ∨ (0xe000 ≤ c.toNat ∧ c.toNat < 0x110000) := by
  have h := c.valid
  simp only [UInt32.isValidChar, Nat.isValidChar] at h
  rcases h with h | ⟨h1, h2⟩
  · exact Or.inl h
  · refine Or.inr ⟨?_, h2⟩
    have e : c.toNat = c.val.toNat := rfl
    omega

theorem scalar?_toNat (c : Char) : scalar? c.toNat = some c := by
  unfold scalar?
  rcases char_scalar c with h | ⟨h1, h2⟩
  · rw [if_pos (Or.inl h), Char.ofNat_toNat]
  · rw [if_pos (Or.inr ⟨h1, h2⟩), Char.ofNat_toNat]

theorem hexVal_toHexDigit : ∀ d < 16, hexVal (toHexDigit d) = some d := by decide

theorem hex4_hex4Chars {n : Nat} (h : n < 0x10000) :
    hex4 (toHexDigit (n / 4096 % 16)) (toHexDigit (n / 256 % 16))
      (toHexDigit (n / 16 % 16)) (toHexDigit (n % 16)) = some n := by
  have h1 := hexVal_toHexDigit (n / 4096 % 16) (Nat.mod_lt _ (by norm_num))
  have h2 := hexVal_toHexDigit (n / 256 % 16) (Nat.mod_lt _ (by norm_num))
  have h3 := hexVal_toHexDigit (n / 16 % 16) (Nat.mod_lt _ (by norm_num))
  have h4 := hexVal_toHexDigit (n % 16) (Nat.mod_lt _ (by norm_num))
  unfold hex4
  simp only [bind, Option.bind, h1, h2, h3, h4, pure, Option.some.injEq]
  omega

theorem jUDec_scalar (a1 a2 a3 a4 : Char) (r3 : List Char) {n : Nat} {ch : Char}
    (hhex : hex4 a1 a2 a3 a4 = some n) (h1 : n < 0xd800 ∨ 0xe000 ≤ n)
    (hsc : scalar? n = some ch) :
    jUDec (a1 :: a2 :: a3 :: a4 :: r3) = some (ch, r3) := by
  simp only [jUDec, hhex]
  rw [if_pos h1]
  simp [hsc]

theorem jUDec_high (a1 a2 a3 a4 : Char) (r3 : List Char) {n : Nat}
    (hhex : hex4 a1 a2 a3 a4 = some n) (h1 : ¬(n < 0xd800 ∨ 0xe000 ≤ n))
    (h2 : n < 0xdc00) :
    jUDec (a1 :: a2 :: a3 :: a4 :: r3) = jLowDec n r3 := by
  simp only [jUDec, hhex]
  rw [if_neg h1, if_pos h2]

theorem jLowDec_eq (g1 g2 g3 g4 : Char) (r4 : List Char) {n m : Nat} {ch : Char}
    (hhex : hex4 g1 g2 g3 g4 = some m) (hm : 0xdc00 ≤ m ∧ m < 0xe000)
    (hsc : scalar? (0x10000 + (n - 0xd800) * 0x400 + (m - 0xdc00)) = some ch) :
    jLowDec n ('\\' :: 'u' :: g1 :: g2 :: g3 :: g4 :: r4) = some (ch, r4) := by
  simp only [jLowDec, hhex]
  rw [if_pos hm]
  simp [hsc]

theorem jStrAux_u_step (f : Nat) (acc : List Char) {L rest : List Char} {c : Char}
    (hud : jUDec L = some (c, rest)) :
    jStrAux (f + 1) acc ('\\' :: 'u' :: L) = jStrAux f (c :: acc) rest := by
  simp [jStrAux, jEscDec, hud]

theorem jStrAux_esc_step (f : Nat) (acc : List Char) (c : Char) (rest : List Char) :
    jStrAux (f + 1) acc (escJChar c ++ rest) = jStrAux f (c :: acc) rest := by
  by_cases h1 : c = '"'
  · subst h1
    simp [escJChar, jStrAux, jEscDec, jEsc1]
  · by_cases h2 : c = '\\'
    · subst h2
      simp [escJChar, jStrAux, jEscDec, jEsc1]
    · by_cases h3 : c = '\n'
      · subst h3
        simp [escJChar, jStrAux, jEscDec, jEsc1]
      · by_cases h4 : c = '\x0d'
        · subst h4
          simp [escJChar, jStrAux, jEscDec, jEsc1]
        · by_cases h5 : c = '\t'
          · subst h5
            simp [escJChar, jStrAux, jEscDec, jEsc1]
          · by_cases h6 : c = '\x08'
            · subst h6
              simp [escJChar, jStrAux, jEscDec, jEsc1]
            · by_cases h7 : c = '\x0c'
              · subst h7
                simp [escJChar, jStrAux, jEscDec, jEsc1]
              · by_cases h8 : c.toNat < 0x20 ∨ 0x7f ≤ c.toNat
                · by_cases h9 : c.toNat < 0x10000
                  · -- a BMP `\uXXXX` escape
                    have hcond : c.toNat < 0xd800 ∨ 0xe000 ≤ c.toNat := by
                      rcases char_scalar c with hx | ⟨hx, _⟩
                      · exact Or.inl hx
                      · exact Or.inr hx
                    have hud : jUDec (toHexDigit (c.toNat / 4096 % 16) ::
                        toHexDigit (c.toNat / 256 % 16) ::
                        toHexDigit (c.toNat / 16 % 16) :: toHexDigit (c.toNat % 16) ::
                        rest) = some (c, rest) :=
                      jUDec_scalar _ _ _ _ _ (hex4_hex4Chars h9) hcond (scalar?_toNat c)
                    simp only [escJChar, if_neg h1, if_neg h2, if_neg h3, if_neg h4,
                      if_neg h5, if_neg h6, if_neg h7, if_pos h8, if_pos h9, hex4Chars,
                      List.cons_append, List.nil_append]
                    rw [jStrAux_u_step f acc hud]
                  · -- an astral character: a surrogate pair
                    have hlb : 0x10000 ≤ c.toNat := by omega
                    have hub : c.toNat < 0x110000 := by
                      rcases char_scalar c with hx | ⟨_, hx2⟩
                      · omega
                      · exact hx2
                    have hhi : 0xd800 + (c.toNat - 0x10000) / 0x400 < 0x10000 := by omega
                    have hlo : 0xdc00 + (c.toNat - 0x10000) % 0x400 < 0x10000 := by omega
                    have hlow : jLowDec (0xd800 + (c.toNat - 0x10000) / 0x400)
                        ('\\' :: 'u' ::
                        toHexDigit ((0xdc00 + (c.toNat - 0x10000) % 0x400) / 4096 % 16) ::
                        toHexDigit ((0xdc00 + (c.toNat - 0x10000) % 0x400) / 256 % 16) ::
                        toHexDigit ((0xdc00 + (c.toNat - 0x10000) % 0x400) / 16 % 16) ::
                        toHexDigit ((0xdc00 + (c.toNat - 0x10000) % 0x400) % 16) ::
                        rest) = some (c, rest) := by
                      refine jLowDec_eq _ _ _ _ _ (hex4_hex4Chars hlo) (by omega) ?_
                      rw [show 0x10000 +
                          (0xd800 + (c.toNat - 0x10000) / 0x400 - 0xd800) * 0x400 +
                          (0xdc00 + (c.toNat - 0x10000) % 0x400 - 0xdc00) = c.toNat by
                        omega]
                      exact scalar?_toNat c
                    have hud : jUDec (toHexDigit ((0xd800 + (c.toNat - 0x10000) / 0x400) / 4096 % 16) ::
                        toHexDigit ((0xd800 + (c.toNat - 0x10000) / 0x400) / 256 % 16) ::
                        toHexDigit ((0xd800 + (c.toNat - 0x10000) / 0x400) / 16 % 16) ::
                        toHexDigit ((0xd800 + (c.toNat - 0x10000) / 0x400) % 16) ::
                        '\\' :: 'u' ::
                        toHexDigit ((0xdc00 + (c.toNat - 0x10000) % 0x400) / 4096 % 16) ::
                        toHexDigit ((0xdc00 + (c.toNat - 0x10000) % 0x400) / 256 % 16) ::
                        toHexDigit ((0xdc00 + (c.toNat - 0x10000) % 0x400) / 16 % 16) ::
                        toHexDigit ((0xdc00 + (c.toNat - 0x10000) % 0x400) % 16) ::
                        rest) = some (c, rest) := by
                      rw [jUDec_high _ _ _ _ _ (hex4_hex4Chars hhi)
                        (by omega) (by omega)]
                      exact hlow
                    simp only [escJChar, if_neg h1, if_neg h2, if_neg h3, if_neg h4,
                      if_neg h5, if_neg h6, if_neg h7, if_pos h8, if_neg h9, hex4Chars,
                      List.cons_append, List.nil_append, List.append_assoc]
                    rw [jStrAux_u_step f acc hud]
                · -- printable ASCII, written as itself
                  have hlt : ¬(c.toNat < 0x20) := fun hx => h8 (Or.inl hx)
                  simp only [escJChar, if_neg h1, if_neg h2, if_neg h3, if_neg h4,
                    if_neg h5, if_neg h6, if_neg h7, if_neg h8, List.cons_append,
                    List.nil_append]
                  simp only [jStrAux]
                  rw [if_neg h1, if_neg h2, if_neg hlt]

theorem rt_str : ∀ (cs : List Char) (f : Nat) (acc ext : List Char),
    cs.length < f →
    jStrAux f acc (escStr cs ++ '"' :: ext) = some (mkStr (cs.reverse ++ acc), ext)
  | [], 0, acc, ext, hf => absurd hf (by simp)
  | [], f + 1, acc, ext, _ => by simp [escStr, jStrAux, mkStr]
  | c :: cs2, 0, acc, ext, hf => absurd hf (by simp)
  | c :: cs2, f + 1, acc, ext, hf => by
    have hf2 : cs2.length < f := by
      simp only [List.length_cons] at hf
      omega
    rw [show escStr (c :: cs2) ++ '"' :: ext = escJChar c ++ (escStr cs2 ++ '"' :: ext) by
        simp [escStr]]
    rw [jStrAux_esc_step f acc c (escStr cs2 ++ '"' :: ext)]
    rw [rt_str cs2 f (c :: acc) ext hf2]
    simp [mkStr]

/-! ## Round-trip: `json.loads` inverts `json.dumps` on well-formed values -/

theorem string_mk_data (s : String) : String.mk s.data = s := rfl

theorem escJChar_len (c : Char) : 1 ≤ (escJChar c).length := by
  unfold escJChar
  split_ifs <;> simp [hex4Chars]

theorem escStr_length : ∀ cs : List Char, cs.length ≤ (escStr cs).length
  | [] => Nat.le_refl 0
  | c :: r => by
    simp only [escStr, List.length_cons, List.length_append]
    have h1 := escJChar_len c
    have h2 := escStr_length r
    omega

/-- The string scanner, at the fuel `jVal` hands it, decodes an escaped
string back to itself. -/
theorem rt_str_auto (cs ext : List Char) :
    jStrAux ((escStr cs ++ '"' :: ext).length + 1) [] (escStr cs ++ '"' :: ext) =
      some (String.mk cs, ext) := by
  have hlt : cs.length < (escStr cs ++ '"' :: ext).length + 1 := by
    have := escStr_length cs
    simp only [List.length_append, List.length_cons]
    omega
  have h := rt_str cs ((escStr cs ++ '"' :: ext).length + 1) [] ext hlt
  simpa [mkStr] using h

theorem jVal_drop_ws (f : Nat) {c : Char} (h : isWs c = true) (cs : List Char) :
    jVal f (c :: cs) = jVal f cs := by
  rw [jVal_skipWs f (c :: cs), show skipWs (c :: cs) = skipWs cs by simp [skipWs, h],
    ← jVal_skipWs]

theorem noNumExt_elems (vs : List JVal) (ext : List Char) :
    noNumExt (jDumpsElems vs ++ ']' :: ext) := by
  cases vs with
  | nil => exact ⟨by decide, by decide, by decide, by decide⟩
  | cons v vs =>
    simp only [jDumpsElems, List.cons_append]
    exact ⟨by decide, by decide, by decide, by decide⟩

theorem noNumExt_members (ms : List (String × JVal)) (ext : List Char) :
    noNumExt (jDumpsMembers ms ++ '\x7d' :: ext) := by
  cases ms with
  | nil => exact ⟨by decide, by decide, by decide, by decide⟩
  | cons kv ms =>
    simp only [jDumpsMembers, List.cons_append]
    exact ⟨by decide, by decide, by decide, by decide⟩

/-- The serialised form of a well-formed value starts with a non-blank
character that closes nothing. -/
theorem jDumpsL_head {v : JVal} (h : JWF v) :
    ∃ c t, jDumpsL v = c :: t ∧ isWs c = false ∧ c ≠ ']' := by
  cases v with
  | null => exact ⟨'n', _, rfl, by decide, by decide⟩
  | bool b => cases b
              · exact ⟨'f', _, rfl, by decide, by decide⟩
              · exact ⟨'t', _, rfl, by decide, by decide⟩
  | str s => exact ⟨'"', _, rfl, by decide, by decide⟩
  | arr l => cases l
             · exact ⟨'[', _, rfl, by decide, by decide⟩
             · exact ⟨'[', _, rfl, by decide, by decide⟩
  | obj l => cases l
             · exact ⟨'\x7b', _, rfl, by decide, by decide⟩
             · exact ⟨'\x7b', _, rfl, by decide, by decide⟩
  | num t =>
    cases h with
    | num _ hn =>
      obtain ⟨sg, ip, fp, ep, hsg, hip, hfp, hep, ht⟩ := hn
      rcases hsg with rfl | rfl
      · rcases hip with rfl | ⟨d, ds, rfl, ⟨hd1, hd9⟩, hds⟩
        · refine ⟨'0', fp ++ ep, ?_, by decide, by decide⟩
          simp only [jDumpsL]
          rw [ht]
          simp
        · have hd : isDigit d = true := by
            have g1 : 49 ≤ d.toNat := char_le_toNat.1 hd1
            have g9 : d.toNat ≤ 57 := char_le_toNat.1 hd9
            exact isDigit_of_toNat (by omega) g9
          refine ⟨d, ds ++ fp ++ ep, ?_, digit_not_ws hd,
            digit_ne_char hd (Or.inr (by decide))⟩
          simp only [jDumpsL]
          rw [ht]
          simp
      · refine ⟨'-', ip ++ fp ++ ep, ?_, by decide, by decide⟩
        simp only [jDumpsL]
        rw [ht]
        simp

mutual

theorem rt_val : ∀ (f : Nat) (v : JVal) (ext : List Char), JWF v →
    (jDumpsL v).length < f → noNumExt ext →
    jVal f (jDumpsL v ++ ext) = some (v, ext)
  | 0, _, _, _, hf, _ => absurd hf (Nat.not_lt_zero _)
  | f + 1, v, ext, hwf, hf, hext => by
    cases v with
    | null => rfl
    | bool b => cases b <;> rfl
    | num t =>
      cases hwf with
      | num _ hn =>
        have hnum : jNum (t.data ++ ext) = some (t.data, ext) := jNum_replay hn hext
        have hh : ∃ c r, t.data = c :: r ∧ (c = '-' ∨ isDigit c = true) := by
          obtain ⟨sg, ip, fp, ep, hsg, hip, hfp, hep, ht⟩ := hn
          rcases hsg with rfl | rfl
          · rcases hip with rfl | ⟨d, ds, rfl, ⟨hd1, hd9⟩, hds⟩
            · exact ⟨'0', fp ++ ep, by simpa using ht, Or.inr (by decide)⟩
            · have hd : isDigit d = true := by
                have g1 : 49 ≤ d.toNat := char_le_toNat.1 hd1
                have g9 : d.toNat ≤ 57 := char_le_toNat.1 hd9
                exact isDigit_of_toNat (by omega) g9
              exact ⟨d, ds ++ fp ++ ep, by simpa using ht, Or.inr hd⟩
          · exact ⟨'-', ip ++ fp ++ ep, by simpa using ht, Or.inl rfl⟩
        obtain ⟨c, r, htd, hcr⟩ := hh
        have hws : isWs c = false := by
          rcases hcr with rfl | hd
          · decide
          · exact digit_not_ws hd
        have hne : c ≠ '"' ∧ c ≠ '[' ∧ c ≠ '\x7b' ∧ c ≠ 't' ∧ c ≠ 'f' ∧ c ≠ 'n' := by
          rcases hcr with rfl | hd
          · exact ⟨by decide, by decide, by decide, by decide, by decide, by decide⟩
          · exact ⟨digit_ne_char hd (Or.inl (by decide)),
              digit_ne_char hd (Or.inr (by decide)),
              digit_ne_char hd (Or.inr (by decide)),
              digit_ne_char hd (Or.inr (by decide)),
              digit_ne_char hd (Or.inr (by decide)),
              digit_ne_char hd (Or.inr (by decide))⟩
        obtain ⟨h1, h2, h3, h4, h5, h6⟩ := hne
        rw [htd, List.cons_append] at hnum
        simp only [jDumpsL]
        rw [htd]
        simp only [List.cons_append, jVal, skipWs_cons_not hws]
        rw [if_neg h1, if_neg h2, if_neg h3, if_neg h4, if_neg h5, if_neg h6,
          if_pos hcr, hnum]
        simp only [Option.map_some']
        rw [← htd, string_mk_data]
    | str s =>
      simp only [jDumpsL, List.cons_append, List.append_assoc,
        List.singleton_append, List.nil_append]
      simp only [jVal, skipWs_cons_not (show isWs '"' = false by decide),
        eq_self_iff_true, ite_true, rt_str_auto, string_mk_data,
        Option.map_some']
    | arr l =>
      cases hwf with
      | arr _ hl =>
        cases l with
        | nil => rfl
        | cons v vs =>
          have hwv : JWF v := hl v (by simp)
          have hwvs : ∀ w ∈ vs, JWF w := fun w hw => hl w (by simp [hw])
          have hlen : (jDumpsL v).length < f ∧ (jDumpsElems vs).length < f := by
            simp only [jDumpsL, List.length_cons, List.length_append] at hf
            omega
          obtain ⟨c0, t0, hd0, hws0, hnb0⟩ := jDumpsL_head hwv
          have hrt := rt_val f v (jDumpsElems vs ++ ']' :: ext) hwv hlen.1
            (noNumExt_elems vs ext)
          have hre := rt_elems f vs ext hwvs hlen.2
          rw [hd0] at hrt
          simp only [List.cons_append, List.append_assoc] at hrt
          simp only [jDumpsL, List.cons_append, List.append_assoc,
            List.singleton_append, List.nil_append]
          rw [hd0]
          simp only [List.cons_append, jVal, skipWs,
            (show isWs '[' = false by decide), hws0,
            (show ¬(('[' : Char) = '"') by decide), hnb0,
            eq_self_iff_true, ite_true, ite_false, Bool.false_eq_true,
            hrt, hre]
    | obj l =>
      cases hwf with
      | obj _ hpw hvals =>
        cases l with
        | nil => rfl
        | cons kv ms =>
          obtain ⟨k, v⟩ := kv
          have hwv : JWF v := hvals (k, v) (by simp)
          have hwms : ∀ p ∈ ms, JWF p.2 := fun p hp => hvals p (by simp [hp])
          have hlen : (jDumpsL v).length < f ∧ (jDumpsMembers ms).length < f := by
            simp only [jDumpsL, jDumpsMember, List.length_cons,
              List.length_append] at hf
            omega
          have hrt := rt_val f v (jDumpsMembers ms ++ '\x7d' :: ext) hwv hlen.1
            (noNumExt_members ms ext)
          have hrm := rt_members f ms ext hwms hlen.2
          simp only [jDumpsL, jDumpsMember, List.cons_append, List.append_assoc,
            List.singleton_append, List.nil_append]
          simp only [jVal, skipWs,
            (show isWs '\x7b' = false by decide),
            (show isWs '"' = false by decide),
            (show isWs ':' = false by decide),
            (show ¬(('\x7b' : Char) = '"') by decide),
            (show ¬(('\x7b' : Char) = '[') by decide),
            (show ¬(('"' : Char) = '\x7d') by decide),
            eq_self_iff_true, ite_true, ite_false, Bool.false_eq_true,
            rt_str_auto, string_mk_data,
            jVal_drop_ws f (show isWs ' ' = true by decide),
            hrt, hrm, dedupKV_self hpw]

theorem rt_elems : ∀ (f : Nat) (vs : List JVal) (ext : List Char),
    (∀ v ∈ vs, JWF v) → (jDumpsElems vs).length < f →
    jElemsRest f (jDumpsElems vs ++ ']' :: ext) = some (vs, ext)
  | 0, _, _, _, hf => absurd hf (Nat.not_lt_zero _)
  | _ + 1, [], _, _, _ => rfl
  | f + 1, v :: vs, ext, hl, hf => by
    have hwv : JWF v := hl v (by simp)
    have hwvs : ∀ w ∈ vs, JWF w := fun w hw => hl w (by simp [hw])
    have hlen : (jDumpsL v).length < f ∧ (jDumpsElems vs).length < f := by
      simp only [jDumpsElems, List.length_cons, List.length_append] at hf
      omega
    have hrt := rt_val f v (jDumpsElems vs ++ ']' :: ext) hwv hlen.1
      (noNumExt_elems vs ext)
    have hre := rt_elems f vs ext hwvs hlen.2
    simp only [jDumpsElems, List.cons_append, List.append_assoc, List.nil_append]
    simp only [jElemsRest, skipWs,
      (show isWs ',' = false by decide),
      (show ¬((',' : Char) = ']') by decide),
      eq_self_iff_true, ite_true, ite_false, Bool.false_eq_true,
      jVal_drop_ws f (show isWs ' ' = true by decide),
      hrt, hre]

theorem rt_members : ∀ (f : Nat) (ms : List (String × JVal)) (ext : List Char),
    (∀ p ∈ ms, JWF p.2) → (jDumpsMembers ms).length < f →
    jMembersRest f (jDumpsMembers ms ++ '\x7d' :: ext) = some (ms, ext)
  | 0, _, _, _, hf => absurd hf (Nat.not_lt_zero _)
  | _ + 1, [], _, _, _ => rfl
  | f + 1, (k, v) :: ms, ext, hl, hf => by
    have hwv : JWF v := hl (k, v) (by simp)
    have hwms : ∀ p ∈ ms, JWF p.2 := fun p hp => hl p (by simp [hp])
    have hlen : (jDumpsL v).length < f ∧ (jDumpsMembers ms).length < f := by
      simp only [jDumpsMembers, jDumpsMember, List.length_cons,
        List.length_append] at hf
      omega
    have hrt := rt_val f v (jDumpsMembers ms ++ '\x7d' :: ext) hwv hlen.1
      (noNumExt_members ms ext)
    have hrm := rt_members f ms ext hwms hlen.2
    simp only [jDumpsMembers, jDumpsMember, List.cons_append, List.append_assoc,
      List.nil_append]
    simp only [jMembersRest, skipWs,
      (show isWs ',' = false by decide),
      (show isWs ' ' = true by decide),
      (show isWs '"' = false by decide),
      (show isWs ':' = false by decide),
      (show ¬((',' : Char) = '\x7d') by decide),
      eq_self_iff_true, ite_true, ite_false, Bool.false_eq_true,
      rt_str_auto, string_mk_data,
      jVal_drop_ws f (show isWs ' ' = true by decide),
      hrt, hrm]

end

/-- `json.loads` recovers every well-formed value from its `json.dumps`
serialisation. -/
theorem jsonParse_dumps {v : JVal} (h : JWF v) : jsonParse (jDumps v) = some v := by
  have hrt := rt_val ((jDumpsL v).length + 1) v [] h (Nat.lt_succ_self _) trivial
  rw [List.append_nil] at hrt
  simp only [jsonParse, jDumps]
  rw [hrt]
  rfl

theorem jsonParse_elim {s : String} {v : JVal} (h : jsonParse s = some v) :
    ∃ r, jVal (s.data.length + 1) s.data = some (v, r) ∧ skipWs r = [] := by
  simp only [jsonParse] at h
  cases hjv : jVal (s.data.length + 1) s.data with
  | none => rw [hjv] at h; exact absurd h (by simp)
  | some p =>
    obtain ⟨v0, r⟩ := p
    rw [hjv] at h
    have h2 : (if skipWs r = [] then some v0 else none) = some v := h
    by_cases hr : skipWs r = []
    · rw [if_pos hr] at h2
      simp only [Option.some.injEq] at h2
      subst h2
      exact ⟨r, rfl, hr⟩
    · rw [if_neg hr] at h2
      exact absurd h2 (by simp)

theorem pyParse_elim {s : String} {w : PyVal} (h : pyParse s = some w) :
    ∃ r, pVal (s.data.length + 1) s.data = some (w, r) ∧ skipWs r = [] := by
  simp only [pyParse] at h
  cases hpv : pVal (s.data.length + 1) s.data with
  | none => rw [hpv] at h; exact absurd h (by simp)
  | some p =>
    obtain ⟨w0, r⟩ := p
    rw [hpv] at h
    have h2 : (if skipWs r = [] then some w0 else none) = some w := h
    by_cases hr : skipWs r = []
    · rw [if_pos hr] at h2
      simp only [Option.some.injEq] at h2
      subst h2
      exact ⟨r, rfl, hr⟩
    · rw [if_neg hr] at h2
      exact absurd h2 (by simp)

/-! ## Python completeness on single-quoted string mappings -/

theorem pStr_sq : ∀ (s acc rest : List Char),
    (∀ c ∈ s, sqSafeChar c = true) →
    pStrAux '\x27' acc (s ++ '\x27' :: rest) = some (mkStr (s.reverse ++ acc), rest)
  | [], acc, rest, _ => by simp [pStrAux]
  | c :: s2, acc, rest, hs => by
    have hc : sqSafeChar c = true := hs c (by simp)
    have hq : ¬(c = '\x27') := by
      intro h
      rw [h] at hc
      exact absurd hc (by decide)
    have hbs : ¬(c = '\\') := by
      intro h
      rw [h] at hc
      exact absurd hc (by decide)
    have hnl : ¬(c = '\n' ∨ c = '\r') := by
      rintro (rfl | rfl) <;> exact absurd hc (by decide)
    simp only [List.cons_append, pStrAux]
    rw [if_neg hq, if_neg hbs, if_neg hnl]
    exact (pStr_sq s2 (c :: acc) rest (fun d hd => hs d (by simp [hd]))).trans
      (by simp)

theorem pVal_skipWs (f : Nat) (cs : List Char) : pVal f cs = pVal f (skipWs cs) := by
  cases f with
  | zero => simp [pVal]
  | succ g =>
    simp only [pVal]
    rw [skipWs_idem]

theorem pVal_drop_ws (f : Nat) {c : Char} (h : isWs c = true) (cs : List Char) :
    pVal f (c :: cs) = pVal f cs := by
  rw [pVal_skipWs f (c :: cs), show skipWs (c :: cs) = skipWs cs by simp [skipWs, h],
    ← pVal_skipWs]

theorem pVal_sqstr (f : Nat) (hf : 0 < f) (s : String) (hs : sqSafeStr s = true) :
    ∀ rest : List Char,
      pVal f ('\x27' :: (s.data ++ '\x27' :: rest)) = some (PyVal.str s, rest) := by
  intro rest
  cases f with
  | zero => exact absurd hf (by omega)
  | succ g =>
    have hps := pStr_sq s.data [] rest (by
      simpa [sqSafeStr, List.all_eq_true] using hs)
    simp only [pVal, skipWs_cons_not (show isWs '\x27' = false by decide),
      eq_self_iff_true, true_or, ite_true, hps, Option.map_some']
    simp [mkStr, string_mk_data]

theorem pMoreMembers_sq : ∀ (f : Nat) (ms : List (String × String)) (ext : List Char),
    (∀ p ∈ ms, sqSafeStr p.1 = true ∧ sqSafeStr p.2 = true) →
    (renderSQms ms).length < f →
    pMoreMembers f (renderSQms ms ++ '\x7d' :: ext) = some (pyPairs ms, ext)
  | 0, _, _, _, hf => absurd hf (Nat.not_lt_zero _)
  | _ + 1, [], _, _, _ => rfl
  | f + 1, (k, v) :: ms, ext, hs, hf => by
    have hk := (hs (k, v) (by simp)).1
    have hv := (hs (k, v) (by simp)).2
    have hms : ∀ p ∈ ms, sqSafeStr p.1 = true ∧ sqSafeStr p.2 = true :=
      fun p hp => hs p (by simp [hp])
    have hlen : (renderSQms ms).length < f ∧ 0 < f := by
      simp only [renderSQms, renderSQ1, List.length_cons, List.length_append] at hf
      omega
    simp only [renderSQms, renderSQ1, List.cons_append, List.append_assoc,
      List.nil_append]
    simp only [pMoreMembers, skipWs,
      (show isWs ',' = false by decide),
      (show isWs ' ' = true by decide),
      (show isWs '\x27' = false by decide),
      (show isWs ':' = false by decide),
      (show ¬((',' : Char) = '\x7d') by decide),
      (show ¬(('\x27' : Char) = '\x7d') by decide),
      eq_self_iff_true, ite_true, ite_false, Bool.false_eq_true,
      pVal_sqstr f hlen.2 k hk, pVal_sqstr f hlen.2 v hv,
      pVal_drop_ws f (show isWs ' ' = true by decide),
      pMoreMembers_sq f ms ext hms hlen.1,
      pyPairs, List.map_cons]

theorem pVal_renderSQ_cons (f : Nat) (k v : String) (ms : List (String × String))
    (ext : List Char) (hk : sqSafeStr k = true) (hv : sqSafeStr v = true)
    (hms : ∀ p ∈ ms, sqSafeStr p.1 = true ∧ sqSafeStr p.2 = true)
    (hf : 0 < f) (hlen : (renderSQms ms).length < f) :
    pVal (f + 1) ('\x7b' :: (renderSQ1 (k, v) ++ (renderSQms ms ++ '\x7d' :: ext))) =
      some (PyVal.dict (pyPairs ((k, v) :: ms)), ext) := by
  simp only [renderSQ1, List.cons_append, List.append_assoc, List.nil_append]
  simp only [pVal, skipWs,
    (show isWs '\x7b' = false by decide),
    (show isWs '\x27' = false by decide),
    (show isWs ':' = false by decide),
    (show isWs ' ' = true by decide),
    (show ¬(('\x7b' : Char) = '\x27' ∨ ('\x7b' : Char) = '"') by decide),
    (show ¬(('\x7b' : Char) = '[') by decide),
    (show ¬(('\x7b' : Char) = '(') by decide),
    (show ¬(('\x27' : Char) = '\x7d') by decide),
    eq_self_iff_true, ite_true, ite_false, Bool.false_eq_true,
    pVal_sqstr f hf k hk, pVal_sqstr f hf v hv,
    pVal_drop_ws f (show isWs ' ' = true by decide),
    pMoreMembers_sq f ms ext hms hlen,
    pyPairs, List.map_cons]

theorem pyParse_renderSQ (ms : List (String × String))
    (hs : ∀ kv ∈ ms, sqSafeStr kv.1 = true ∧ sqSafeStr kv.2 = true) :
    pyParse (renderSQ ms) = some (PyVal.dict (pyPairs ms)) := by
  cases ms with
  | nil => rfl
  | cons kv ms =>
    obtain ⟨k, v⟩ := kv
    have hk := (hs (k, v) (by simp)).1
    have hv := (hs (k, v) (by simp)).2
    have hms : ∀ p ∈ ms, sqSafeStr p.1 = true ∧ sqSafeStr p.2 = true :=
      fun p hp => hs p (by simp [hp])
    simp only [pyParse, renderSQ]
    rw [List.append_assoc]
    have hlen : 0 <
        ('\x7b' :: (renderSQ1 (k, v) ++ (renderSQms ms ++ ['\x7d']))).length ∧
        (renderSQms ms).length <
          ('\x7b' :: (renderSQ1 (k, v) ++ (renderSQms ms ++ ['\x7d']))).length := by
      simp only [List.length_cons, List.length_append]
      omega
    rw [pVal_renderSQ_cons _ k v ms [] hk hv hms hlen.1 hlen.2]
    rfl

theorem toJPairs_pyPairs : ∀ ms : List (String × String),
    toJPairs (pyPairs ms) = some (strPairs ms)
  | [] => rfl
  | (k, v) :: ms => by
    have ih := toJPairs_pyPairs ms
    simp only [pyPairs] at ih
    simp only [pyPairs, strPairs, List.map_cons, toJPairs, keyStr, toJ, ih]

theorem toJ_pyDict (ms : List (String × String)) :
    toJ (PyVal.dict (pyPairs ms)) = some (JVal.obj (dedupKV (strPairs ms))) := by
  simp only [toJ, toJPairs_pyPairs, Option.map_some']

theorem strPairs_pairwise {ms : List (String × String)}
    (h : (ms.map (fun kv => kv.1)).Nodup) :
    List.Pairwise (fun a b => a.1 ≠ b.1) (strPairs ms) := by
  have h2 : List.Pairwise (fun a b : String × String => a.1 ≠ b.1) ms := by
    simpa [List.Nodup, List.pairwise_map] using h
  simpa [strPairs, List.pairwise_map] using h2

theorem JWF_strPairs {ms : List (String × String)}
    (h : (ms.map (fun kv => kv.1)).Nodup) : JWF (JVal.obj (strPairs ms)) :=
  JWF.obj _ (strPairs_pairwise h) (by
    intro kv hkv
    simp only [strPairs, List.mem_map] at hkv
    obtain ⟨p, _, rfl⟩ := hkv
    exact JWF.str _)

/-- What the normalizer does to a single-quoted string mapping with
distinct keys: it re-serialises it as strict JSON. -/
theorem coerce_renderSQ (ms : List (String × String))
    (hs : ∀ kv ∈ ms, sqSafeStr kv.1 = true ∧ sqSafeStr kv.2 = true)
    (hnd : (ms.map (fun kv => kv.1)).Nodup) :
    coerce_to_valid_json (renderSQ ms) = jDumps (JVal.obj (strPairs ms)) := by
  simp only [coerce_to_valid_json, pyParse_renderSQ ms hs, toJ_pyDict,
    dedupKV_self (strPairs_pairwise hnd)]

/-- A nonempty single-quoted mapping is not valid JSON: `json.loads` fails
at the single quote that follows the opening brace. -/
theorem jsonParse_renderSQ_cons (kv : String × String) (ms : List (String × String)) :
    jsonParse (renderSQ (kv :: ms)) = none := by
  obtain ⟨k, v⟩ := kv
  simp only [renderSQ, jsonParse, renderSQ1, List.cons_append, List.append_assoc,
    List.nil_append]
  simp only [jVal, skipWs,
    (show isWs '\x7b' = false by decide),
    (show isWs '\x27' = false by decide),
    (show ¬(('\x7b' : Char) = '"') by decide),
    (show ¬(('\x7b' : Char) = '[') by decide),
    (show ¬(('\x27' : Char) = '\x7d') by decide),
    (show ¬(('\x27' : Char) = '"') by decide),
    eq_self_iff_true, ite_true, ite_false, Bool.false_eq_true]

theorem lookupKV_strPairs : ∀ (ms : List (String × String)) (k : String),
    lookupKV (strPairs ms) k = (lookupStr ms k).map JVal.str
  | [], _ => rfl
  | (a, b) :: ms, k => by
    simp only [strPairs, List.map_cons, lookupKV, lookupStr]
    by_cases hak : a = k
    · rw [List.find?_cons_of_pos _ (by simp [hak]),
        List.find?_cons_of_pos _ (by simp [hak])]
      simp
    · rw [List.find?_cons_of_neg _ (by simp [hak]),
        List.find?_cons_of_neg _ (by simp [hak])]
      have ih := lookupKV_strPairs ms k
      simpa [strPairs, lookupKV, lookupStr] using ih

/-! ## Claim theorems -/

/-- C3: for every input string that is neither a valid Python literal nor
valid JSON (including the empty string), `coerce_to_valid_json` returns the
input string unchanged and raises no error — the parse-failure branch
silently falls back to the original input.  (The function is total, so no
exception escapes; failing `ast.literal_eval` alone already forces the
fallback.) -/
theorem C3_parse_failure_silent_fallback :
    (∀ s : String, pyParse s = none → jsonParse s = none → coerce_to_valid_json s = s) ∧
    coerce_to_valid_json "" = "" := by
  refine ⟨fun s hp _ => ?_, rfl⟩
  unfold coerce_to_valid_json
  rw [hp]

theorem C3_witness :
    pyParse "not json at all" = none ∧ jsonParse "not json at all" = none ∧
    coerce_to_valid_json "not json at all" = "not json at all" :=
  ⟨rfl, rfl, C3_parse_failure_silent_fallback.1 "not json at all" rfl rfl⟩

/-- C5: with credentials present, every input to
`google_calendar_create_event` that decodes to a JSON object containing
`summary` and `start` but no `end` key makes it return
"Missing required field: end" and issue zero outbound calls. -/
theorem C5_missing_end_short_circuit :
    ∀ (env : Env) (ins : EventBody → Except String CalInsertResp) (s : String)
      (kvs : List (String × JVal)),
      truthy env.GOOGLE_CLIENT_ID = true → truthy env.GOOGLE_CLIENT_SECRET = true →
      truthy env.CALENDAR_REFRESH_TOKEN = true →
      jsonParse s = some (JVal.obj kvs) →
      kvs.any (fun kv => kv.1 = "summary") = true →
      kvs.any (fun kv => kv.1 = "start") = true →
      kvs.any (fun kv => kv.1 = "end") = false →
      google_calendar_create_event env ins s = ("Missing required field: end", []) := by
  intro env ins s kvs h1 h2 h3 hdec hsum hst hend
  unfold google_calendar_create_event
  rw [h1, h2, h3, hdec]
  simp [firstMissing, jContains, hsum, hst, hend]

theorem C5_witness :
    truthy envAll.GOOGLE_CLIENT_ID = true ∧ truthy envAll.GOOGLE_CLIENT_SECRET = true ∧
    truthy envAll.CALENDAR_REFRESH_TOKEN = true ∧
    jsonParse "\x7b\"summary\": \"s\", \"start\": \"x\"\x7d" =
      some (JVal.obj [("summary", JVal.str "s"), ("start", JVal.str "x")]) ∧
    google_calendar_create_event envAll insertResultOK
      "\x7b\"summary\": \"s\", \"start\": \"x\"\x7d" = ("Missing required field: end", []) :=
  ⟨rfl, rfl, rfl, rfl,
    C5_missing_end_short_circuit envAll insertResultOK _ _ rfl rfl rfl rfl rfl rfl rfl⟩

/-- C6: every tool that reads credential environment variables returns its
descriptive missing-credentials string and issues zero outbound calls
whenever a required variable is unset or empty (`truthy` is false exactly
then). -/
theorem C6_missing_credentials_no_calls :
    (∀ (env : Env) (resp : Except String HttpResponse) (q : String),
      (truthy env.GOOGLE_API_KEY = false ∨ truthy env.GOOGLE_CSE_CX = false) →
      web_search env resp q = ("Google CSE API key or CX ID is missing", [])) ∧
    (∀ (env : Env) (o : GmailListOracle) (q : String),
      (truthy env.GOOGLE_CLIENT_ID = false ∨ truthy env.GOOGLE_CLIENT_SECRET = false ∨
        truthy env.GMAIL_REFRESH_TOKEN = false) →
      gmail_get_emails env o q =
        ("Missing one or more Gmail OAuth credentials in environment variables!", [])) ∧
    (∀ (env : Env) (sr : MimeMsg → Except String (Option String)) (s : String),
      (truthy env.GOOGLE_CLIENT_ID = false ∨ truthy env.GOOGLE_CLIENT_SECRET = false ∨
        truthy env.GMAIL_REFRESH_TOKEN = false) →
      gmail_send_email env sr s =
        ("Missing one or more Gmail OAuth credentials in environment variables!", [])) ∧
    (∀ (env : Env) (l : Except String (List CalEventItem)) (q : String),
      (truthy env.GOOGLE_CLIENT_ID = false ∨ truthy env.GOOGLE_CLIENT_SECRET = false ∨
        truthy env.CALENDAR_REFRESH_TOKEN = false) →
      google_calendar_list_events env l q =
        ("Missing Google Calendar OAuth credentials in environment variables!", [])) ∧
    (∀ (env : Env) (ins : EventBody → Except String CalInsertResp) (s : String),
      (truthy env.GOOGLE_CLIENT_ID = false ∨ truthy env.GOOGLE_CLIENT_SECRET = false ∨
        truthy env.CALENDAR_REFRESH_TOKEN = false) →
      google_calendar_create_event env ins s =
        ("Missing Google Calendar OAuth credentials in environment variables!", [])) := by
  refine ⟨fun env resp q h => ?_, fun env o q h => ?_, fun env sr s h => ?_,
    fun env l q h => ?_, fun env ins s h => ?_⟩
  · unfold web_search
    rcases h with h | h <;> simp [h]
  · unfold gmail_get_emails
    rcases h with h | h | h <;> simp [h]
  · unfold gmail_send_email
    rcases h with h | h | h <;> simp [h]
  · unfold google_calendar_list_events
    rcases h with h | h | h <;> simp [h]
  · unfold google_calendar_create_event
    rcases h with h | h | h <;> simp [h]

theorem C6_witness :
    truthy envNone.GOOGLE_API_KEY = false ∧ truthy envNone.GOOGLE_CLIENT_ID = false ∧
    web_search envNone (Except.error "no net") "q" =
      ("Google CSE API key or CX ID is missing", []) ∧
    gmail_get_emails envNone gmailOracleEmpty "q" =
      ("Missing one or more Gmail OAuth credentials in environment variables!", []) ∧
    gmail_send_email envNone sendResultOK "x" =
      ("Missing one or more Gmail OAuth credentials in environment variables!", []) ∧
    google_calendar_list_events envNone (Except.ok []) "q" =
      ("Missing Google Calendar OAuth credentials in environment variables!", []) ∧
    google_calendar_create_event envNone insertResultOK "x" =
      ("Missing Google Calendar OAuth credentials in environment variables!", []) :=
  ⟨rfl, rfl,
    C6_missing_credentials_no_calls.1 envNone (Except.error "no net") "q" (Or.inl rfl),
    C6_missing_credentials_no_calls.2.1 envNone gmailOracleEmpty "q" (Or.inl rfl),
    C6_missing_credentials_no_calls.2.2.1 envNone sendResultOK "x" (Or.inl rfl),
    C6_missing_credentials_no_calls.2.2.2.1 envNone (Except.ok []) "q" (Or.inl rfl),
    C6_missing_credentials_no_calls.2.2.2.2 envNone insertResultOK "x" (Or.inl rfl)⟩

/-- C7: with credentials present, `web_search` answers with the title,
snippet and link of the first result exactly in the 200-with-items case; on
any non-200 status it returns the error string carrying the numeric status
code, and in both cases the single GET issued is the only outbound call. -/
theorem C7_web_search_contract :
    ∀ (env : Env) (r : HttpResponse) (q : String),
      truthy env.GOOGLE_API_KEY = true → truthy env.GOOGLE_CSE_CX = true →
      (r.status_code ≠ 200 →
        web_search env (Except.ok r) q =
          ("Error: Unable to fetch search results. Status Code: " ++ toString r.status_code,
           [⟨env.GOOGLE_API_KEY.getD "", env.GOOGLE_CSE_CX.getD "", q, "m6"⟩]) ∧
        ∃ pre, (web_search env (Except.ok r) q).1 = pre ++ toString r.status_code) ∧
      (∀ top rest, r.status_code = 200 → r.items = Except.ok (top :: rest) →
        web_search env (Except.ok r) q =
          ("Title: " ++ optGetD top.title "No title available" ++
             "\nSnippet: " ++ optGetD top.snippet "No snippet available" ++
             "\nLink: " ++ optGetD top.link "No link available",
           [⟨env.GOOGLE_API_KEY.getD "", env.GOOGLE_CSE_CX.getD "", q, "m6"⟩])) := by
  intro env r q h1 h2
  constructor
  · intro hne
    have heq : web_search env (Except.ok r) q =
        ("Error: Unable to fetch search results. Status Code: " ++ toString r.status_code,
         [⟨env.GOOGLE_API_KEY.getD "", env.GOOGLE_CSE_CX.getD "", q, "m6"⟩]) := by
      unfold web_search
      rw [h1, h2]
      simp [hne]
    exact ⟨heq, "Error: Unable to fetch search results. Status Code: ", by rw [heq]⟩
  · intro top rest h200 hitems
    unfold web_search
    rw [h1, h2]
    simp [h200, hitems]

theorem C7_witness :
    truthy envAll.GOOGLE_API_KEY = true ∧ truthy envAll.GOOGLE_CSE_CX = true ∧
    (404 : Nat) ≠ 200 ∧
    web_search envAll (Except.ok ⟨404, Except.ok []⟩) "q" =
      ("Error: Unable to fetch search results. Status Code: 404",
       [⟨"k", "cx", "q", "m6"⟩]) ∧
    web_search envAll (Except.ok ⟨200, Except.ok [⟨some "T", some "S", some "L"⟩]⟩) "q" =
      ("Title: T\nSnippet: S\nLink: L", [⟨"k", "cx", "q", "m6"⟩]) := by
  refine ⟨rfl, rfl, by decide, ?_, ?_⟩
  · exact ((C7_web_search_contract envAll ⟨404, Except.ok []⟩ "q" rfl rfl).1 (by decide)).1
  · exact (C7_web_search_contract envAll ⟨200, Except.ok [⟨some "T", some "S", some "L"⟩]⟩
      "q" rfl rfl).2 ⟨some "T", some "S", some "L"⟩ [] rfl rfl

/-- C4: with credentials present, `gmail_send_email` on
`{"to": "a@b.com", "subject": "S", "body": "B"}` issues exactly one
outbound send call whose MIME message has `to = a@b.com` and
`subject = S`; and for every input whose decoded object lacks any of `to`,
`subject` or `body`, it returns the validation message and issues zero
outbound calls. -/
theorem C4_gmail_send_email_contract :
    (∀ (env : Env) (sr : MimeMsg → Except String (Option String)),
      truthy env.GOOGLE_CLIENT_ID = true → truthy env.GOOGLE_CLIENT_SECRET = true →
      truthy env.GMAIL_REFRESH_TOKEN = true →
      (gmail_send_email env sr "\x7b\"to\": \"a@b.com\", \"subject\": \"S\", \"body\": \"B\"\x7d").2 =
        [⟨"a@b.com", "S", "B"⟩]) ∧
    (∀ (env : Env) (sr : MimeMsg → Except String (Option String)) (s : String)
      (kvs : List (String × JVal)),
      truthy env.GOOGLE_CLIENT_ID = true → truthy env.GOOGLE_CLIENT_SECRET = true →
      truthy env.GMAIL_REFRESH_TOKEN = true →
      jsonParse (coerce_to_valid_json s) = some (JVal.obj kvs) →
      (lookupKV kvs "to" = none ∨ lookupKV kvs "subject" = none ∨ lookupKV kvs "body" = none) →
      gmail_send_email env sr s =
        ("Invalid input data! Ensure \x27to\x27, \x27subject\x27, and \x27body\x27 fields are provided.",
         [])) := by
  constructor
  · intro env sr h1 h2 h3
    have hdec : jsonParse (coerce_to_valid_json
        "\x7b\"to\": \"a@b.com\", \"subject\": \"S\", \"body\": \"B\"\x7d") =
        some (JVal.obj [("to", JVal.str "a@b.com"), ("subject", JVal.str "S"),
          ("body", JVal.str "B")]) := rfl
    unfold gmail_send_email
    rw [h1, h2, h3]
    cases hs : sr ⟨"a@b.com", "S", "B"⟩ with
    | error e => simp [hdec, hs, lookupKV, optTruthy, jTruthy, List.find?]
    | ok v => cases v <;> simp [hdec, hs, lookupKV, optTruthy, jTruthy, List.find?]
  · intro env sr s kvs h1 h2 h3 hdec hmiss
    unfold gmail_send_email
    rw [h1, h2, h3]
    rcases hmiss with h | h | h <;> simp [hdec, h, optTruthy]

theorem C4_witness :
    truthy envAll.GOOGLE_CLIENT_ID = true ∧
    (gmail_send_email envAll sendResultOK
      "\x7b\"to\": \"a@b.com\", \"subject\": \"S\", \"body\": \"B\"\x7d").2 =
      [⟨"a@b.com", "S", "B"⟩] ∧
    jsonParse (coerce_to_valid_json "\x7b\"subject\": \"S\", \"body\": \"B\"\x7d") =
      some (JVal.obj [("subject", JVal.str "S"), ("body", JVal.str "B")]) ∧
    lookupKV [("subject", JVal.str "S"), ("body", JVal.str "B")] "to" = none ∧
    gmail_send_email envAll sendResultOK "\x7b\"subject\": \"S\", \"body\": \"B\"\x7d" =
      ("Invalid input data! Ensure \x27to\x27, \x27subject\x27, and \x27body\x27 fields are provided.",
       []) :=
  ⟨rfl, C4_gmail_send_email_contract.1 envAll sendResultOK rfl rfl rfl, rfl, rfl,
    C4_gmail_send_email_contract.2 envAll sendResultOK _ _ rfl rfl rfl rfl (Or.inl rfl)⟩

/-- C10: the two tools validate required fields differently:
`gmail_send_email` treats a present-but-falsy `to`/`subject`/`body` as
missing (validation message, zero calls), while
`google_calendar_create_event` checks only key presence, so present keys —
empty-string values included — pass validation and one outbound insert is
issued. -/
theorem C10_field_validation_asymmetry :
    (∀ (env : Env) (sr : MimeMsg → Except String (Option String)) (s : String)
      (kvs : List (String × JVal)) (v : JVal),
      truthy env.GOOGLE_CLIENT_ID = true → truthy env.GOOGLE_CLIENT_SECRET = true →
      truthy env.GMAIL_REFRESH_TOKEN = true →
      jsonParse (coerce_to_valid_json s) = some (JVal.obj kvs) →
      (lookupKV kvs "to" = some v ∨ lookupKV kvs "subject" = some v ∨
        lookupKV kvs "body" = some v) →
      jTruthy v = false →
      gmail_send_email env sr s =
        ("Invalid input data! Ensure \x27to\x27, \x27subject\x27, and \x27body\x27 fields are provided.",
         [])) ∧
    (∀ (env : Env) (ins : EventBody → Except String CalInsertResp) (s : String)
      (kvs : List (String × JVal)),
      truthy env.GOOGLE_CLIENT_ID = true → truthy env.GOOGLE_CLIENT_SECRET = true →
      truthy env.CALENDAR_REFRESH_TOKEN = true →
      jsonParse s = some (JVal.obj kvs) →
      kvs.any (fun kv => kv.1 = "summary") = true →
      kvs.any (fun kv => kv.1 = "start") = true →
      kvs.any (fun kv => kv.1 = "end") = true →
      (google_calendar_create_event env ins s).2 = [mkEventBody kvs]) := by
  constructor
  · intro env sr s kvs v h1 h2 h3 hdec hfield hfalsy
    unfold gmail_send_email
    rw [h1, h2, h3]
    rcases hfield with h | h | h <;> simp [hdec, h, optTruthy, hfalsy]
  · intro env ins s kvs h1 h2 h3 hdec hsum hst hend
    unfold google_calendar_create_event
    rw [h1, h2, h3]
    have hfm : firstMissing (JVal.obj kvs) = Except.ok none := by
      simp [firstMissing, jContains, hsum, hst, hend]
    cases hi : ins (mkEventBody kvs) with
    | error e => simp [hdec, hfm, hi]
    | ok v => cases v <;> simp [hdec, hfm, hi]

theorem C10_witness :
    jsonParse (coerce_to_valid_json "\x7b\"to\": \"\", \"subject\": \"S\", \"body\": \"B\"\x7d") =
      some (JVal.obj [("to", JVal.str ""), ("subject", JVal.str "S"), ("body", JVal.str "B")]) ∧
    jTruthy (JVal.str "") = false ∧
    gmail_send_email envAll sendResultOK
      "\x7b\"to\": \"\", \"subject\": \"S\", \"body\": \"B\"\x7d" =
      ("Invalid input data! Ensure \x27to\x27, \x27subject\x27, and \x27body\x27 fields are provided.",
       []) ∧
    jsonParse "\x7b\"summary\": \"\", \"start\": \"\", \"end\": \"\"\x7d" =
      some (JVal.obj [("summary", JVal.str ""), ("start", JVal.str ""), ("end", JVal.str "")]) ∧
    (google_calendar_create_event envAll insertResultOK
      "\x7b\"summary\": \"\", \"start\": \"\", \"end\": \"\"\x7d").2 =
      [⟨JVal.str "", JVal.str "", JVal.str "", JVal.str "", JVal.str "", true⟩] :=
  ⟨rfl, rfl,
    C10_field_validation_asymmetry.1 envAll sendResultOK _ _ (JVal.str "") rfl rfl rfl rfl
      (Or.inl rfl) rfl,
    rfl,
    C10_field_validation_asymmetry.2 envAll insertResultOK
      "\x7b\"summary\": \"\", \"start\": \"\", \"end\": \"\"\x7d"
      [("summary", JVal.str ""), ("start", JVal.str ""), ("end", JVal.str "")]
      rfl rfl rfl rfl rfl rfl rfl⟩

theorem errPrefixed_append (s t : String) (h : errPrefixed s) : errPrefixed (s ++ t) := by
  obtain ⟨u, hu⟩ := h
  exact ⟨u ++ t, by rw [hu, String.append_assoc]⟩

theorem errPrefixed_sp (e : String) : errPrefixed ("Error: " ++ e) :=
  ⟨" " ++ e, by rw [show ("Error: " : String) = "Error:" ++ " " from rfl, String.append_assoc]⟩

theorem errPrefixed_status (t : String) :
    errPrefixed ("Error: Unable to fetch search results. Status Code: " ++ t) :=
  errPrefixed_append _ t
    ⟨" Unable to fetch search results. Status Code: ", rfl⟩

/-- C8 counterexample: the claim says every tool call returns a string and
never raises, but `calculator("exit()")` evaluates `exit()`, whose
`SystemExit` is a `BaseException` that `except Exception` does not catch;
the model returns `Except.error` — a propagated exception, not a string. -/
theorem C8_counterexample :
    calculator (EvalOutcome.baseExn "SystemExit") "exit()" = Except.error "SystemExit" := rfl

/-- C8 (amended): every tool converts each caught failure into a string
prefixed `"Error:"` or into its specific missing-credentials /
missing-field / validation message, and otherwise returns a success-shaped
string — except that `calculator` propagates a `BaseException` raised by
`eval` (e.g. `SystemExit`), since `except Exception` does not catch it. -/
theorem C8_amended_failures_to_strings :
    (∀ (v e : String), calculator (EvalOutcome.ok v) e = Except.ok v) ∧
    (∀ (m e : String), calculator (EvalOutcome.exn m) e = Except.ok ("Error:" ++ m)) ∧
    (∀ (m e : String), calculator (EvalOutcome.baseExn m) e = Except.error m) ∧
    (∀ (env : Env) (resp : Except String HttpResponse) (q : String),
      errPrefixed (web_search env resp q).1 ∨
      (web_search env resp q).1 = "Google CSE API key or CX ID is missing" ∨
      (web_search env resp q).1 = "No search results found." ∨
      ∃ a b c, (web_search env resp q).1 =
        "Title: " ++ a ++ "\nSnippet: " ++ b ++ "\nLink: " ++ c) ∧
    (∀ (env : Env) (o : GmailListOracle) (q : String),
      errPrefixed (gmail_get_emails env o q).1 ∨
      (gmail_get_emails env o q).1 =
        "Missing one or more Gmail OAuth credentials in environment variables!" ∨
      (gmail_get_emails env o q).1 = "No emails found for the given query." ∨
      ∃ sums, (gmail_get_emails env o q).1 = String.intercalate "\n" sums) ∧
    (∀ (env : Env) (sr : MimeMsg → Except String (Option String)) (s : String),
      errPrefixed (gmail_send_email env sr s).1 ∨
      (gmail_send_email env sr s).1 =
        "Missing one or more Gmail OAuth credentials in environment variables!" ∨
      (gmail_send_email env sr s).1 =
        "Invalid input data! Ensure \x27to\x27, \x27subject\x27, and \x27body\x27 fields are provided." ∨
      ∃ id, (gmail_send_email env sr s).1 = "Email sent successfully! Message ID: " ++ id) ∧
    (∀ (env : Env) (l : Except String (List CalEventItem)) (q : String),
      errPrefixed (google_calendar_list_events env l q).1 ∨
      (google_calendar_list_events env l q).1 =
        "Missing Google Calendar OAuth credentials in environment variables!" ∨
      (google_calendar_list_events env l q).1 = "No upcoming events found." ∨
      ∃ lines, (google_calendar_list_events env l q).1 = String.intercalate "\n" lines) ∧
    (∀ (env : Env) (ins : EventBody → Except String CalInsertResp) (s : String),
      errPrefixed (google_calendar_create_event env ins s).1 ∨
      (google_calendar_create_event env ins s).1 =
        "Missing Google Calendar OAuth credentials in environment variables!" ∨
      (∃ f, (google_calendar_create_event env ins s).1 = "Missing required field: " ++ f) ∨
      ∃ id, (google_calendar_create_event env ins s).1 =
        "Event created successfully! Event ID: " ++ id) := by
  refine ⟨fun v e => rfl, fun m e => rfl, fun m e => rfl, ?_, ?_, ?_, ?_, ?_⟩
  · intro env resp q
    unfold web_search
    split
    · exact Or.inr (Or.inl rfl)
    · split
      · exact Or.inl (errPrefixed_sp _)
      · split
        · split
          · exact Or.inl (errPrefixed_sp _)
          · exact Or.inr (Or.inr (Or.inl rfl))
          · exact Or.inr (Or.inr (Or.inr ⟨_, _, _, rfl⟩))
        · exact Or.inl (errPrefixed_status _)
  · intro env o q
    unfold gmail_get_emails
    split
    · exact Or.inr (Or.inl rfl)
    · split
      · exact Or.inl (errPrefixed_sp _)
      · exact Or.inr (Or.inr (Or.inl rfl))
      · split
        · exact Or.inl (errPrefixed_sp _)
        · exact Or.inr (Or.inr (Or.inr ⟨_, rfl⟩))
  · intro env sr s
    unfold gmail_send_email
    split
    · exact Or.inr (Or.inl rfl)
    · split
      · exact Or.inl (errPrefixed_sp _)
      · split
        · exact Or.inr (Or.inr (Or.inl rfl))
        · split
          · split
            · exact Or.inl (errPrefixed_sp _)
            · exact Or.inr (Or.inr (Or.inr ⟨_, rfl⟩))
            · exact Or.inl (errPrefixed_sp _)
          · exact Or.inl (errPrefixed_sp _)
      · exact Or.inl (errPrefixed_append _ _ (errPrefixed_append _ _
          (errPrefixed_append _ _ (errPrefixed_sp _))))
  · intro env l q
    unfold google_calendar_list_events
    split
    · exact Or.inr (Or.inl rfl)
    · split
      · exact Or.inl (errPrefixed_sp _)
      · exact Or.inr (Or.inr (Or.inl rfl))
      · split
        · exact Or.inl (errPrefixed_sp _)
        · exact Or.inr (Or.inr (Or.inr ⟨_, rfl⟩))
  · intro env ins s
    unfold google_calendar_create_event
    split
    · exact Or.inr (Or.inl rfl)
    · split
      · exact Or.inl (errPrefixed_sp _)
      · split
        · exact Or.inl (errPrefixed_sp _)
        · exact Or.inr (Or.inr (Or.inl ⟨_, rfl⟩))
        · split
          · split
            · exact Or.inl (errPrefixed_sp _)
            · exact Or.inr (Or.inr (Or.inr ⟨_, rfl⟩))
            · exact Or.inl (errPrefixed_append _ _
                ⟨" Unexpected response format. Response: ", rfl⟩)
          · exact Or.inl (errPrefixed_sp _)

/-- C1 counterexample: the claim says every valid-JSON input round-trips
through `coerce_to_valid_json` to a string decoding to a deeply equal
object.  The input `"\/"` is valid JSON denoting the one-character string
`/`, but `ast.literal_eval` keeps the backslash of the (for Python)
unrecognised escape, so the normalizer returns a string that decodes to
the two-character string `\/` instead. -/
theorem C1_counterexample :
    jsonParse "\"\\/\"" = some (JVal.str "/") ∧
    jsonParse (coerce_to_valid_json "\"\\/\"") = some (JVal.str "\\/") ∧
    JVal.str "/" ≠ JVal.str "\\/" :=
  ⟨rfl, rfl, fun h => by injection h with h2; exact absurd h2 (by decide)⟩

/-- C1 (amended): for every input that is valid JSON and contains no
backslash-slash pair, `coerce_to_valid_json` returns a string that decodes
to the same object the input decodes to. -/
theorem C1_amended_valid_json_preserved {s : String} {v : JVal}
    (h : jsonParse s = some v) (hb : noBS s.data = true) :
    jsonParse (coerce_to_valid_json s) = some v := by
  simp only [coerce_to_valid_json]
  cases hpy : pyParse s with
  | none => exact h
  | some w =>
    show jsonParse (match toJ w with | some j => jDumps j | none => s) = some v
    cases htj : toJ w with
    | none => exact h
    | some j =>
      obtain ⟨rj, hjv, hrj⟩ := jsonParse_elim h
      obtain ⟨rp, hpv, hrp⟩ := pyParse_elim hpy
      rcases jpVal_agree (s.data.length + 1) (s.data.length + 1) s.data v rj w rp
          hjv hpv hb with ⟨htw, _⟩ | hbad
      · have hjv2 : j = v := by
          rw [htw] at htj
          simpa using htj.symm
        subst hjv2
        exact jsonParse_dumps (jsonParse_sound h)
      · obtain ⟨c, t, hct, hc⟩ := badTail_head hbad
        rw [hct, skipWs_cons_not (badTail_not_ws hc)] at hrj
        exact absurd hrj (by simp)

theorem C1_witness :
    jsonParse "[1, \"a\"]" = some (JVal.arr [JVal.num "1", JVal.str "a"]) ∧
    noBS "[1, \"a\"]".data = true ∧
    jsonParse (coerce_to_valid_json "[1, \"a\"]") =
      some (JVal.arr [JVal.num "1", JVal.str "a"]) :=
  ⟨rfl, rfl, C1_amended_valid_json_preserved rfl rfl⟩

/-- C2: for every Python-literal-style mapping rendered with single
quotes around keys and values (distinct keys, quote-free printable
contents), `coerce_to_valid_json` returns the strict double-quoted JSON
serialisation of the same string-to-string mapping, and that output
decodes to exactly that mapping. -/
theorem C2_single_quoted_mapping (ms : List (String × String))
    (hs : ∀ kv ∈ ms, sqSafeStr kv.1 = true ∧ sqSafeStr kv.2 = true)
    (hnd : (ms.map (fun kv => kv.1)).Nodup) :
    coerce_to_valid_json (renderSQ ms) = jDumps (JVal.obj (strPairs ms)) ∧
    jsonParse (coerce_to_valid_json (renderSQ ms)) = some (JVal.obj (strPairs ms)) := by
  have hc := coerce_renderSQ ms hs hnd
  refine ⟨hc, ?_⟩
  rw [hc]
  exact jsonParse_dumps (JWF_strPairs hnd)

theorem C2_witness :
    (∀ kv ∈ ([("to", "a@b.com"), ("subject", "Hi"), ("body", "Yo")] :
        List (String × String)), sqSafeStr kv.1 = true ∧ sqSafeStr kv.2 = true) ∧
    (([("to", "a@b.com"), ("subject", "Hi"), ("body", "Yo")] :
        List (String × String)).map (fun kv => kv.1)).Nodup ∧
    (coerce_to_valid_json (renderSQ [("to", "a@b.com"), ("subject", "Hi"), ("body", "Yo")]) =
        jDumps (JVal.obj (strPairs [("to", "a@b.com"), ("subject", "Hi"), ("body", "Yo")])) ∧
      jsonParse (coerce_to_valid_json
          (renderSQ [("to", "a@b.com"), ("subject", "Hi"), ("body", "Yo")])) =
        some (JVal.obj (strPairs [("to", "a@b.com"), ("subject", "Hi"), ("body", "Yo")]))) :=
  ⟨by decide, by decide,
    C2_single_quoted_mapping [("to", "a@b.com"), ("subject", "Hi"), ("body", "Yo")]
      (by decide) (by decide)⟩

/-- C9: `gmail_send_email` normalizes its input before decoding while
`google_calendar_create_event` decodes it directly, so a single-quoted
mapping carrying the required fields is parsed by the email tool — which
proceeds to exactly one send call built from the parsed fields — while the
calendar tool returns the `"Error: "`-prefixed decode failure and issues
zero outbound calls. -/
theorem C9_normalization_asymmetry (env : Env)
    (sr : MimeMsg → Except String (Option String))
    (ir : EventBody → Except String CalInsertResp)
    (ms : List (String × String)) (t su b : String)
    (h1 : truthy env.GOOGLE_CLIENT_ID = true)
    (h2 : truthy env.GOOGLE_CLIENT_SECRET = true)
    (h3 : truthy env.GMAIL_REFRESH_TOKEN = true)
    (h4 : truthy env.CALENDAR_REFRESH_TOKEN = true)
    (hs : ∀ kv ∈ ms, sqSafeStr kv.1 = true ∧ sqSafeStr kv.2 = true)
    (hnd : (ms.map (fun kv => kv.1)).Nodup)
    (hto : lookupStr ms "to" = some t) (ht : t ≠ "")
    (hsu : lookupStr ms "subject" = some su) (hs2 : su ≠ "")
    (hbo : lookupStr ms "body" = some b) (hb2 : b ≠ "") :
    (gmail_send_email env sr (renderSQ ms)).2 = [⟨t, su, b⟩] ∧
    google_calendar_create_event env ir (renderSQ ms) =
      ("Error: " ++ jsonDecodeErr, []) := by
  have hparse : jsonParse (coerce_to_valid_json (renderSQ ms)) =
      some (JVal.obj (strPairs ms)) := by
    rw [coerce_renderSQ ms hs hnd]
    exact jsonParse_dumps (JWF_strPairs hnd)
  have hT : lookupKV (strPairs ms) "to" = some (JVal.str t) := by
    rw [lookupKV_strPairs, hto]
    rfl
  have hS : lookupKV (strPairs ms) "subject" = some (JVal.str su) := by
    rw [lookupKV_strPairs, hsu]
    rfl
  have hB : lookupKV (strPairs ms) "body" = some (JVal.str b) := by
    rw [lookupKV_strPairs, hbo]
    rfl
  constructor
  · unfold gmail_send_email
    rw [h1, h2, h3]
    cases hsr : sr ⟨t, su, b⟩ with
    | error e => simp [hparse, hT, hS, hB, optTruthy, jTruthy, hsr, ht, hs2, hb2]
    | ok o => cases o <;>
        simp [hparse, hT, hS, hB, optTruthy, jTruthy, hsr, ht, hs2, hb2]
  · cases ms with
    | nil => simp [lookupStr] at hto
    | cons kv ms2 =>
      unfold google_calendar_create_event
      rw [h1, h2, h4]
      simp [jsonParse_renderSQ_cons]

theorem C9_witness :
    ((gmail_send_email envAll sendResultOK
        (renderSQ [("summary", "Mtg"), ("start", "s1"), ("end", "e1"),
          ("to", "a@b.com"), ("subject", "S"), ("body", "B")])).2 =
      [⟨"a@b.com", "S", "B"⟩]) ∧
    google_calendar_create_event envAll insertResultOK
        (renderSQ [("summary", "Mtg"), ("start", "s1"), ("end", "e1"),
          ("to", "a@b.com"), ("subject", "S"), ("body", "B")]) =
      ("Error: " ++ jsonDecodeErr, []) :=
  C9_normalization_asymmetry envAll sendResultOK insertResultOK
    [("summary", "Mtg"), ("start", "s1"), ("end", "e1"),
      ("to", "a@b.com"), ("subject", "S"), ("body", "B")]
    "a@b.com" "S" "B" rfl rfl rfl rfl (by decide) (by decide)
    rfl (by decide) rfl (by decide) rfl (by decide)

end AgenticWF
